import Mathlib

/-!
# Copy-candidate detection and parser header commoning (p4c midend)

A shallow embedding of `midend/copyVariableDetection.{h,cpp}` and of
`midend/commoningParser.{h,cpp}` together with the properties of them that are
established against the specification.

Conventions of the embedding:

* `cstring` is `String`; `std::set<cstring>` is `Finset String`;
  `std::set<T>::count` is `count`.
* a `std::map<cstring, V>` (or a map to a pointer `V *`) is a function
  `String → Option V`; `count(k) > 0` is `isSome`.  A map that the code also
  iterates is an association list in ascending key order.
* heap-allocated `TableInfo` nodes live in an arena (`List TableInfo`); a
  `TableInfo *` is an index into it, and a `std::set<TableInfo *>` is iterated
  in ascending index order.
* a `for (auto val : set) target.insert(val)` loop is a fold over the
  elements of the set.
-/

namespace P4

/-! ## Tokens (copyVariableDetection.h, lines 26-28) -/

def DF_NOCHANGE : String := "###nochange###"
def DF_UNDEFINED : String := "###undefined###"
def DF_INITIAL : String := "###initial###"

/-- Member function `std::set<cstring>::count`: 1 when present, 0 otherwise. -/
def count (s : Finset String) (x : String) : Nat := if x ∈ s then 1 else 0

/-- Member function `cstring::startsWith`. -/
def startsWith (s pre : String) : Bool := pre.data.isPrefixOf s.data

/-! ## The lattice operations of `GenerateTableFlow` -/

/-- Body of `for (auto val : *df2) df1->insert(val);`. -/
def insertVal (val : String) (df1 : Finset String) : Finset String := insert val df1

instance insertVal_leftComm : LeftCommutative insertVal :=
  ⟨fun a b s => by simp only [insertVal]; exact Finset.Insert.comm a b s⟩

/-- Body of `for (auto val : *df2) { if (val != DF_NOCHANGE) df1->insert(val); }`. -/
def insertValUnlessNoChange (val : String) (df1 : Finset String) : Finset String :=
  if val ≠ DF_NOCHANGE then insert val df1 else df1

instance insertValUnlessNoChange_leftComm : LeftCommutative insertValUnlessNoChange :=
  ⟨fun a b s => by
    simp only [insertValUnlessNoChange]
    split_ifs <;> first | rfl | exact Finset.Insert.comm a b s⟩

/-- Function `GenerateTableFlow::mergeDataflow` (copyVariableDetection.cpp, lines 213-223). -/
def mergeDataflow (df1 df2 : Finset String) : Finset String :=
  if count df1 DF_UNDEFINED + count df2 DF_UNDEFINED > 0 then
    insert DF_UNDEFINED ∅
  else
    Multiset.foldr insertVal df1 df2.val

/-- Function `GenerateTableFlow::applyDataflow` (copyVariableDetection.cpp, lines 225-238). -/
def applyDataflow (df1 df2 : Finset String) : Finset String :=
  let df1 := if count df2 DF_NOCHANGE = 0 then ∅ else df1
  let df1 := Multiset.foldr insertValUnlessNoChange df1 df2.val
  if count df1 DF_UNDEFINED > 0 then insert DF_UNDEFINED ∅ else df1

/-- The merge of the specification: `{UNDEFINED}` if either operand contains
`UNDEFINED`, otherwise set union. -/
def specMerge (A B : Finset String) : Finset String :=
  if DF_UNDEFINED ∈ A ∨ DF_UNDEFINED ∈ B then {DF_UNDEFINED} else A ∪ B

/-- The transfer of the specification: start with `X`; if the effect set does
not contain `NOCHANGE` then clear `X`; union into `X` every token of the effect
set except `NOCHANGE`; if `X` ends up containing `UNDEFINED`, collapse to
`{UNDEFINED}`. -/
def specTransfer (X E : Finset String) : Finset String :=
  let X1 := if DF_NOCHANGE ∉ E then ∅ else X
  let X2 := X1 ∪ E.filter (fun t => t ≠ DF_NOCHANGE)
  if DF_UNDEFINED ∈ X2 then {DF_UNDEFINED} else X2

/-! ## The IR

Modelled from the spec: the IR classes (`ir/*.def`) and the visitor framework
are not part of the sources under study; only the node kinds that the passes
distinguish are kept.  `Operation` stands for every expression that is neither
a path, a member access, a method call nor a select (constants, arithmetic, ...),
and carries its printed form.  A `SelectExpression` holds the selected expressions
and, for each `SelectCase`, its keyset and its state. -/

/-- The types that occur as header fields, as type arguments and as the declared
type of a struct field, with the downcasts the passes make. -/
inductive IRType where
  | Type_Bits (size : Nat) (isSigned : Bool)
  | Type_Varbits (size : Nat)
  | Type_Name (name : String)
  | Type_Unknown
deriving DecidableEq

structure StructField where
  name : String
  type : IRType
deriving DecidableEq

structure Type_Header where
  name : String
  fields : List StructField
deriving DecidableEq

structure Type_Struct where
  name : String
  fields : List StructField
deriving DecidableEq

inductive Direction where
  | In
  | Out
  | InOut
deriving DecidableEq

inductive Expression where
  | PathExpression (name : String)
  | Member (expr : Expression) (member : String)
  | MethodCallExpression (method : Expression) (typeArguments : List IRType)
      (paramDirections : List Direction) (arguments : List Expression)
  | DefaultExpression
  | Operation (str : String) (operands : List Expression)
  | SelectExpression (select : List Expression) (selectCases : List (Expression × Expression))

inductive Statement where
  | AssignmentStatement (left right : Expression)
  | MethodCallStatement (methodCall : Expression)
  | IfStatement (id : Int) (condition : Expression) (ifTrue : Statement)
      (ifFalse : Option Statement)
  | SwitchStatement (id : Int) (expression : Expression)
      (cases : List (Expression × Option Statement))
  | BlockStatement (components : List Statement)
  | EmptyStatement

structure KeyElement where
  expression : Expression
  matchType : String

structure P4Action where
  name : String
  body : List Statement

structure P4Table where
  name : String
  keys : List KeyElement
  actionList : List String

structure ParserState where
  name : String
  components : List Statement
  selectExpression : Option Expression

structure P4Parser where
  name : String
  states : List ParserState

inductive LocalDeclaration where
  | action (a : P4Action)
  | table (t : P4Table)

structure P4Control where
  name : String
  controlLocals : List LocalDeclaration
  body : Statement

inductive Declaration where
  | parser (p : P4Parser)
  | control (c : P4Control)
  | action (a : P4Action)
  | other (name : String)
  | header (h : Type_Header)
  | struct (s : Type_Struct)

structure P4Program where
  declarations : List Declaration

/-- Printed form of an expression: a path prints as its name and a member access as
the dotted form `expr.member`. -/
def Expression.toString : Expression → String
  | .PathExpression name => name
  | .Member expr member => expr.toString ++ "." ++ member
  | .MethodCallExpression method _ _ _ => method.toString
  | .DefaultExpression => "default"
  | .Operation str _ => str
  | .SelectExpression _ _ => "select"

/-- Function `getVariableName` (copyVariableDetection.cpp, lines 23-34). -/
def getVariableName : Expression → String
  | .PathExpression name => name
  | .Member expr member => (Expression.Member expr member).toString
  | _ => ""

/-- The part of the visitor context that the passes query: `findContext<T>()`
for the node kinds `T` below, the child index under the nearest `KeyElement`,
`P4WriteContext::isWrite()` and `isRead()`, and whether the parent node
(`getContext()->node`) is a `ParserState`. -/
structure Context where
  parser : Bool := false
  table : Option String := none
  keyElement : Option Nat := none
  member : Bool := false
  methodCall : Bool := false
  ifStatement : Bool := false
  isWrite : Bool := false
  isRead : Bool := true
  selectCase : Bool := false
  parentIsParserState : Bool := false

/-! ## Summary records (copyVariableDetection.h, lines 60-83) -/

structure TableInfo where
  name : String := "P4Table"
  keyreads : Finset String := ∅
  actions : Finset String := ∅
  insideConditional : Bool := false
  insideSwitch : Bool := false
  harmless : Bool := false
  depth : Int := 0
  ifId : Int := 0
  ifCondition : Option Expression := none
  dataflowComputed : Bool := false
  parents : Finset Nat := ∅
  children : Finset Nat := ∅
  keyDataflows : String → Option (Finset String) := fun _ => none
  dataflows : String → Option (Finset String) := fun _ => none

structure FuncInfo where
  reads : Finset String := ∅
  writes : Finset String := ∅
  dataflows : String → Option String := fun _ => none
  edataflows : String → Option (Finset String) := fun _ => none

/-- The maps owned by `CopyVariableDetection` and shared by its passes, with the
arena of `TableInfo` nodes.  `tables` maps a name to a node of the arena;
`actions` holds each `FuncInfo` under the only key that points to it. -/
structure Maps where
  heap : List TableInfo := []
  tables : String → Option Nat := fun _ => none
  actions : String → Option FuncInfo := fun _ => none

/-- Map assignment `m[k] = v`. -/
def setKey {V : Type} (m : String → Option V) (k : String) (v : V) : String → Option V :=
  fun k2 => if k2 = k then some v else m k2

/-- Update of the node behind a pointer. -/
def modifyNode (heap : List TableInfo) (p : Nat) (f : TableInfo → TableInfo) :
    List TableInfo :=
  match heap[p]? with
  | some t => heap.set p (f t)
  | none => heap

/-- Ascending iteration over a `std::set<TableInfo *>`. -/
def orderedPtrs (heap : List TableInfo) (s : Finset Nat) : List Nat :=
  (List.range heap.length).filter (fun p => p ∈ s)

/-! ## Summary extraction: `ExtractVariables` -/

/-- State of the `ExtractVariables` visitor.  `inferForTable` points into the arena;
`inferForFunc` is the key of `actions` whose `FuncInfo` it points to. -/
structure ExtractVariables where
  maps : Maps := {}
  inferForTable : Option Nat := none
  inferForFunc : Option String := none

/-- Update of the `FuncInfo` behind `inferForFunc`; nothing happens when the pointer is
null (`if (inferForFunc) ...`). -/
def ExtractVariables.modifyFunc (s : ExtractVariables) (f : FuncInfo → FuncInfo) :
    ExtractVariables :=
  match s.inferForFunc with
  | none => s
  | some key =>
    match s.maps.actions key with
    | none => s
    | some fi => { s with maps := { s.maps with actions := setKey s.maps.actions key (f fi) } }

/-- Name of the node behind `inferForTable`. -/
def ExtractVariables.tableName (s : ExtractVariables) : Option String :=
  match s.inferForTable with
  | none => none
  | some p => (s.maps.heap[p]?).map (fun t => t.name)

/-- Function `ExtractVariables::postorder(const IR::Member *)`
(copyVariableDetection.cpp, lines 368-390). -/
def ExtractVariables.postorder_Member (s : ExtractVariables) (ctx : Context)
    (member : Expression) : ExtractVariables :=
  if ctx.member then s
  else
    let s :=
      match s.inferForTable with
      | some p =>
        if ctx.keyElement = some 1 then
          { s with maps := { s.maps with heap := modifyNode s.maps.heap p (fun t =>
              { t with keyreads := insert (getVariableName member) t.keyreads }) } }
        else s
      | none => s
    if ctx.isWrite then
      let s := s.modifyFunc (fun fi => { fi with writes := insert (getVariableName member) fi.writes })
      if ctx.isRead || ctx.methodCall then
        s.modifyFunc (fun fi => { fi with reads := insert (getVariableName member) fi.reads })
      else s
    else
      s.modifyFunc (fun fi => { fi with reads := insert (getVariableName member) fi.reads })

/-- Context of the `i`-th argument of a method call, from the direction of the
parameter it is bound to (`in` when the direction is not given). -/
def argumentContext (ctx : Context) (dirs : List Direction) (i : Nat) : Context :=
  match dirs.getD i Direction.In with
  | .In => { ctx with methodCall := true, isWrite := false, isRead := true }
  | .Out => { ctx with methodCall := true, isWrite := true, isRead := false }
  | .InOut => { ctx with methodCall := true, isWrite := true, isRead := true }

mutual
/-- Traversal of an expression by `ExtractVariables`: only member accesses have a hook. -/
def ExtractVariables.visitExpression (s : ExtractVariables) (ctx : Context) :
    Expression → ExtractVariables
  | .PathExpression _ => s
  | .Member expr member =>
    (ExtractVariables.visitExpression s { ctx with member := true } expr).postorder_Member ctx
      (.Member expr member)
  | .MethodCallExpression method _ dirs arguments =>
    ExtractVariables.visitArguments
      (ExtractVariables.visitExpression s
        { ctx with methodCall := true, isWrite := false, isRead := true } method)
      ctx dirs 0 arguments
  | .DefaultExpression => s
  | .Operation _ operands =>
    ExtractVariables.visitOperands s { ctx with isWrite := false, isRead := true } operands
  | .SelectExpression select selectCases =>
    ExtractVariables.visitSelectCases
      (ExtractVariables.visitOperands s { ctx with isWrite := false, isRead := true } select)
      { ctx with isWrite := false, isRead := true } selectCases
/-- Traversal of the arguments of a method call. -/
def ExtractVariables.visitArguments (s : ExtractVariables) (ctx : Context)
    (dirs : List Direction) (i : Nat) : List Expression → ExtractVariables
  | [] => s
  | e :: es =>
    ExtractVariables.visitArguments
      (ExtractVariables.visitExpression s (argumentContext ctx dirs i) e) ctx dirs (i + 1) es
/-- Traversal of the operands of an operation. -/
def ExtractVariables.visitOperands (s : ExtractVariables) (ctx : Context) :
    List Expression → ExtractVariables
  | [] => s
  | e :: es => ExtractVariables.visitOperands (ExtractVariables.visitExpression s ctx e) ctx es
/-- Traversal of the cases of a select expression: the keyset, then the state. -/
def ExtractVariables.visitSelectCases (s : ExtractVariables) (ctx : Context) :
    List (Expression × Expression) → ExtractVariables
  | [] => s
  | (keyset, state) :: cs =>
    ExtractVariables.visitSelectCases
      (ExtractVariables.visitExpression (ExtractVariables.visitExpression s ctx keyset) ctx state)
      ctx cs
end

/-- The value an assignment records for its left-hand side
(copyVariableDetection.cpp, lines 403-408). -/
def assignedValue (right : Expression) : String :=
  let rname := getVariableName right
  if rname ≠ "" ∧ (startsWith rname "hdr" ∨ startsWith rname "meta") then rname
  else DF_UNDEFINED

/-- Function `ExtractVariables::preorder(const IR::AssignmentStatement *)`
(copyVariableDetection.cpp, lines 392-418). -/
def ExtractVariables.preorder_AssignmentStatement (s : ExtractVariables) (ctx : Context)
    (left right : Expression) : ExtractVariables :=
  let lname := getVariableName left
  let dfv := assignedValue right
  let s :=
    if lname ≠ "" then
      let s := s.modifyFunc (fun fi => { fi with dataflows := setKey fi.dataflows lname dfv })
      if s.tableName = some "parser" then
        s.modifyFunc (fun fi =>
          { fi with edataflows :=
              setKey fi.edataflows lname (insert dfv ((fi.edataflows lname).getD ∅)) })
      else s
    else s
  let s := s.visitExpression { ctx with isWrite := false, isRead := true } right
  s.visitExpression { ctx with isWrite := true, isRead := false } left

mutual
/-- Traversal of a statement by `ExtractVariables`. -/
def ExtractVariables.visitStatement (s : ExtractVariables) (ctx : Context) :
    Statement → ExtractVariables
  | .AssignmentStatement left right => s.preorder_AssignmentStatement ctx left right
  | .MethodCallStatement mc => s.visitExpression ctx mc
  | .IfStatement _ condition ifTrue ifFalse =>
    ExtractVariables.visitOptStatement
      (ExtractVariables.visitStatement
        (s.visitExpression { ctx with ifStatement := true } condition)
        { ctx with ifStatement := true } ifTrue)
      { ctx with ifStatement := true } ifFalse
  | .SwitchStatement _ expression cases =>
    ExtractVariables.visitCases (s.visitExpression ctx expression) ctx cases
  | .BlockStatement components => ExtractVariables.visitStatements s ctx components
  | .EmptyStatement => s
/-- Traversal of an optional statement. -/
def ExtractVariables.visitOptStatement (s : ExtractVariables) (ctx : Context) :
    Option Statement → ExtractVariables
  | none => s
  | some st => ExtractVariables.visitStatement s ctx st
/-- Traversal of a statement list. -/
def ExtractVariables.visitStatements (s : ExtractVariables) (ctx : Context) :
    List Statement → ExtractVariables
  | [] => s
  | st :: sts =>
    ExtractVariables.visitStatements (ExtractVariables.visitStatement s ctx st) ctx sts
/-- Traversal of the cases of a switch statement. -/
def ExtractVariables.visitCases (s : ExtractVariables) (ctx : Context) :
    List (Expression × Option Statement) → ExtractVariables
  | [] => s
  | (label, st) :: cs =>
    ExtractVariables.visitCases
      (ExtractVariables.visitOptStatement (s.visitExpression ctx label) ctx st) ctx cs
end

/-- The values one action contributes to the effect set of `var`
(copyVariableDetection.cpp, lines 308-317). -/
def actionValues (action : FuncInfo) (var : String) : Finset String :=
  match action.edataflows var with
  | some vals => insert DF_NOCHANGE vals
  | none =>
    match action.dataflows var with
    | some val => {val}
    | none => {DF_NOCHANGE}

/-- The effect set `prepareDataflow` computes for `var` from the actions of a table
(copyVariableDetection.cpp, lines 305-323). -/
def effectSet (actions : String → Option FuncInfo) (acts : Finset String) (var : String) :
    Finset String :=
  let values := acts.biUnion (fun act =>
    match actions act with
    | some action => actionValues action var
    | none => ∅)
  if count values DF_UNDEFINED > 0 then insert DF_UNDEFINED ∅ else values

/-- Function `ExtractVariables::prepareDataflow` (copyVariableDetection.cpp, lines 296-331).
`actions[act]` of an action that was never visited is a null pointer, and reading
through it is an error. -/
def prepareDataflow (m : Maps) (tbl : Nat) : Except String Maps :=
  match m.heap[tbl]? with
  | none => .error "null table"
  | some t =>
    if ∀ act ∈ t.actions, (m.actions act).isSome then
      let vars := t.actions.biUnion (fun act =>
        match m.actions act with
        | some action => action.writes
        | none => ∅)
      .ok { m with heap := modifyNode m.heap tbl (fun t =>
        { t with dataflows := fun var =>
            if var ∈ vars then some (effectSet m.actions t.actions var) else t.dataflows var }) }
    else .error "null action"

/-- Function `ExtractVariables::preorder(const IR::P4Action *)` followed by the traversal
of the body and by `postorder(const IR::P4Action *)`
(copyVariableDetection.cpp, lines 333-349). -/
def ExtractVariables.visitAction (s : ExtractVariables) (act : P4Action) :
    Except String ExtractVariables :=
  if s.inferForFunc.isSome then .error "corrupt internal data struct"
  else if startsWith act.name "NoAction" then .ok s
  else
    let s :=
      if (s.maps.actions act.name).isNone then
        { s with maps := { s.maps with actions := setKey s.maps.actions act.name {} } }
      else s
    let s := { s with inferForFunc := some act.name }
    let s := s.visitStatements {} act.body
    if s.inferForFunc = some act.name then .ok { s with inferForFunc := none }
    else .error "corrupt internal data struct"

/-- Traversal of the key of a table: the key expression is child 1 of its
`KeyElement`, the match kind is child 2. -/
def ExtractVariables.visitKeys (s : ExtractVariables) (ctx : Context) :
    List KeyElement → ExtractVariables
  | [] => s
  | k :: ks =>
    ExtractVariables.visitKeys
      (s.visitExpression { ctx with keyElement := some 1 } k.expression) ctx ks

/-- Function `ExtractVariables::preorder(const IR::P4Table *)` followed by the traversal
of the table and by `postorder(const IR::P4Table *)`
(copyVariableDetection.cpp, lines 274-294). -/
def ExtractVariables.visitTable (s : ExtractVariables) (tbl : P4Table) :
    Except String ExtractVariables :=
  if s.inferForTable.isSome then .error "corrupt internal data struct"
  else
    let m := s.maps
    let m :=
      if (m.tables tbl.name).isNone then
        { m with heap := m.heap ++ [{}], tables := setKey m.tables tbl.name m.heap.length }
      else m
    match m.tables tbl.name with
    | none => .error "null table"
    | some p =>
      let acts := (tbl.actionList.filter (fun a => !startsWith a "NoAction")).toFinset
      let m := { m with heap := modifyNode m.heap p (fun t =>
        { t with name := tbl.name, keyreads := ∅, actions := t.actions ∪ acts }) }
      let s := { s with maps := m, inferForTable := some p }
      let s := s.visitKeys { table := some tbl.name } tbl.keys
      match s.inferForTable with
      | none => .error "corrupt internal data struct"
      | some q =>
        match prepareDataflow s.maps q with
        | .error e => .error e
        | .ok m => .ok { s with maps := m, inferForTable := none }

/-- Traversal of the states of the parser. -/
def ExtractVariables.visitStates (s : ExtractVariables) (ctx : Context) :
    List ParserState → ExtractVariables
  | [] => s
  | st :: sts =>
    let s := s.visitStatements ctx st.components
    let s := match st.selectExpression with
      | some e => s.visitExpression ctx e
      | none => s
    ExtractVariables.visitStates s ctx sts

/-- Function `ExtractVariables::preorder(const IR::P4Parser *)` followed by the traversal
of the parser and by `postorder(const IR::P4Parser *)`
(copyVariableDetection.cpp, lines 424-440). -/
def ExtractVariables.visitParser (s : ExtractVariables) (parser : P4Parser) :
    Except String ExtractVariables :=
  let m := s.maps
  let p := m.heap.length
  let m : Maps :=
    { heap := m.heap ++ [{ name := "parser", actions := {"parser"} }],
      tables := setKey m.tables "parser" p,
      actions := setKey m.actions "parser" {} }
  let s : ExtractVariables := { maps := m, inferForTable := some p, inferForFunc := some "parser" }
  let s := s.visitStates { parser := true } parser.states
  match s.inferForTable with
  | none => .error "null table"
  | some q =>
    match prepareDataflow s.maps q with
    | .error e => .error e
    | .ok m => .ok { maps := m, inferForTable := none, inferForFunc := none }

/-- Traversal of the local declarations of a control. -/
def ExtractVariables.visitLocals (s : ExtractVariables) :
    List LocalDeclaration → Except String ExtractVariables
  | [] => .ok s
  | .action a :: ds =>
    match s.visitAction a with
    | .error e => .error e
    | .ok s => ExtractVariables.visitLocals s ds
  | .table t :: ds =>
    match s.visitTable t with
    | .error e => .error e
    | .ok s => ExtractVariables.visitLocals s ds

/-- Traversal of a control: its local declarations, then its body. -/
def ExtractVariables.visitControl (s : ExtractVariables) (ctrl : P4Control) :
    Except String ExtractVariables :=
  match s.visitLocals ctrl.controlLocals with
  | .error e => .error e
  | .ok s => .ok (s.visitStatement {} ctrl.body)

/-- Traversal of the declarations of the program, in the order written. -/
def ExtractVariables.visitDeclarations (s : ExtractVariables) :
    List Declaration → Except String ExtractVariables
  | [] => .ok s
  | d :: ds =>
    match (match d with
      | .parser p => s.visitParser p
      | .control c => s.visitControl c
      | .action a => s.visitAction a
      | .other _ => .ok s
      | .header _ => .ok s
      | .struct _ => .ok s) with
    | .error e => .error e
    | .ok s => ExtractVariables.visitDeclarations s ds

/-- The `ExtractVariables` pass on a program, from empty maps. -/
def ExtractVariables.apply (pp : P4Program) : Except String Maps :=
  match ExtractVariables.visitDeclarations {} pp.declarations with
  | .error e => .error e
  | .ok s => .ok s.maps

/-! ## Table-flow construction: `GenerateTableFlow` -/

/-- State of a `GenerateTableFlow` visitor.  The arena `heap` is shared by a visitor and
its clones; the other members are copied by `clone()`;
`variableSet` is the member `variables`.  The maps `tables` and `actions`
are only read by this pass and are passed separately. -/
structure GenerateTableFlow where
  heap : List TableInfo
  variableSet : Finset String := ∅
  curr : Nat
  start : Nat
  insideSwitch : Bool := false
  ifIds : List Int := []
  ifConditions : List Expression := []

/-- Constructor of `GenerateTableFlow` (copyVariableDetection.h, lines 116-124): allocates
the start node. -/
def GenerateTableFlow.new (m : Maps) : GenerateTableFlow :=
  { heap := m.heap ++ [{ name := "StartTable", depth := 0 }],
    curr := m.heap.length, start := m.heap.length }

/-- The table-application branch of `GenerateTableFlow::preorder(const
IR::MethodCallExpression *)` (copyVariableDetection.cpp, lines 125-157), for the table
node `tbl`. -/
def GenerateTableFlow.applyTable (actions : String → Option FuncInfo) (v : GenerateTableFlow)
    (ctx : Context) (tbl : Nat) : Except String GenerateTableFlow :=
  match v.heap[tbl]?, v.heap[v.curr]? with
  | some t, some c =>
    if ∀ act ∈ t.actions, (actions act).isSome then
      let variableSet := v.variableSet ∪ t.actions.biUnion (fun act =>
        match actions act with
        | some action => action.reads ∪ action.writes
        | none => ∅)
      if ¬ (t.depth ≤ 0 ∨ t.depth ≥ c.depth) then .error "Adding edge back to some parent"
      else if tbl = v.curr then .error "Adding a self loop"
      else
        let heap := modifyNode v.heap tbl (fun t =>
          { t with parents := insert v.curr t.parents, depth := c.depth + 1 })
        let heap := modifyNode heap v.curr (fun c => { c with children := insert tbl c.children })
        if ctx.ifStatement ∨ v.insideSwitch then
          match v.ifIds.head?, v.ifConditions.head? with
          | some ifId, some ifCondition =>
            .ok { v with
              heap := modifyNode heap tbl (fun t =>
                { t with insideConditional := ctx.ifStatement,
                         insideSwitch := if v.insideSwitch then true else t.insideSwitch,
                         ifId := ifId, ifCondition := some ifCondition }),
              variableSet := variableSet, curr := tbl }
          | _, _ => .error "If stack must not be empty"
        else .ok { v with heap := heap, variableSet := variableSet, curr := tbl }
    else .error "null action"
  | _, _ => .error "null table"

/-- Function `GenerateTableFlow::preorder(const IR::MethodCallExpression *)`
(copyVariableDetection.cpp, lines 120-162). -/
def GenerateTableFlow.preorder_MethodCallExpression (m : Maps) (v : GenerateTableFlow)
    (ctx : Context) (method : Expression) : Except String GenerateTableFlow :=
  match method with
  | .Member (.PathExpression name) _ =>
    match m.tables name with
    | some tbl => v.applyTable m.actions ctx tbl
    | none => .ok v
  | _ => .ok v

/-- Function `GenerateTableFlow::flow_merge` (copyVariableDetection.cpp, lines 164-182):
`v` is the visitor of the then-branch and `a` its clone after the else-branch. -/
def GenerateTableFlow.flow_merge (v a : GenerateTableFlow) : Except String GenerateTableFlow :=
  match v.heap[v.curr]?, v.heap[a.curr]? with
  | some c, some ac =>
    if c.name = ac.name then .ok v
    else
      match v.ifIds.head? with
      | none => .error "empty if stack"
      | some ifId =>
        let ifConvergeTable : TableInfo :=
          { name := "ifConvergeTable" ++ toString ifId,
            parents := insert a.curr (insert v.curr ∅),
            ifId := ifId,
            depth := max (c.depth + 1) (ac.depth + 1) }
        let p := v.heap.length
        let heap := modifyNode v.heap v.curr (fun c => { c with children := insert p c.children })
        let heap := modifyNode heap a.curr (fun c => { c with children := insert p c.children })
        .ok { v with heap := heap ++ [ifConvergeTable], curr := p }
  | _, _ => .error "null table"

mutual
/-- Traversal of an expression by `GenerateTableFlow`: the hook of a method call runs
before its children are visited. -/
def GenerateTableFlow.visitExpression (m : Maps) (ctx : Context) (v : GenerateTableFlow) :
    Expression → Except String GenerateTableFlow
  | .PathExpression _ => .ok v
  | .Member expr _ => GenerateTableFlow.visitExpression m ctx v expr
  | .MethodCallExpression method _ _ arguments =>
    match v.preorder_MethodCallExpression m ctx method with
    | .error e => .error e
    | .ok v =>
      match GenerateTableFlow.visitExpression m ctx v method with
      | .error e => .error e
      | .ok v => GenerateTableFlow.visitExpressions m ctx v arguments
  | .DefaultExpression => .ok v
  | .Operation _ operands => GenerateTableFlow.visitExpressions m ctx v operands
  | .SelectExpression select selectCases =>
    match GenerateTableFlow.visitExpressions m ctx v select with
    | .error e => .error e
    | .ok v => GenerateTableFlow.visitSelectCases m ctx v selectCases
/-- Traversal of an expression list. -/
def GenerateTableFlow.visitExpressions (m : Maps) (ctx : Context) (v : GenerateTableFlow) :
    List Expression → Except String GenerateTableFlow
  | [] => .ok v
  | e :: es =>
    match GenerateTableFlow.visitExpression m ctx v e with
    | .error e => .error e
    | .ok v => GenerateTableFlow.visitExpressions m ctx v es
/-- Traversal of the cases of a select expression: the keyset, then the state. -/
def GenerateTableFlow.visitSelectCases (m : Maps) (ctx : Context) (v : GenerateTableFlow) :
    List (Expression × Expression) → Except String GenerateTableFlow
  | [] => .ok v
  | (keyset, state) :: cs =>
    match GenerateTableFlow.visitExpression m ctx v keyset with
    | .error e => .error e
    | .ok v =>
      match GenerateTableFlow.visitExpression m ctx v state with
      | .error e => .error e
      | .ok v => GenerateTableFlow.visitSelectCases m ctx v cs
end

/-- The merging of the switch blocks in `GenerateTableFlow::preorder(const
IR::SwitchStatement *)` (copyVariableDetection.cpp, lines 103-116). -/
def GenerateTableFlow.switchConverge (v : GenerateTableFlow) (caseflows : Finset Nat) :
    Except String GenerateTableFlow :=
  match v.ifIds.head? with
  | none => .error "empty if stack"
  | some ifId =>
    let flows := orderedPtrs v.heap caseflows
    let p := v.heap.length
    let switchConvergeTable : TableInfo :=
      { name := "switchConvergeTable",
        parents := caseflows,
        depth := flows.foldl (fun d tbl =>
          match v.heap[tbl]? with
          | some t => max d (t.depth + 1)
          | none => d) 0,
        ifId := ifId }
    let heap := flows.foldl (fun heap tbl =>
      modifyNode heap tbl (fun t => { t with children := insert p t.children })) v.heap
    .ok { v with heap := heap ++ [switchConvergeTable], curr := p,
                 ifIds := v.ifIds.tail, ifConditions := v.ifConditions.tail,
                 insideSwitch := false }

mutual
/-- Traversal of a statement by `GenerateTableFlow`, a control-flow visitor: at an
`if` the condition is visited, the visitor is cloned, the then-branch is visited by the
visitor and the else-branch by the clone, and `flow_merge` joins them; the hooks
`preorder(const IR::IfStatement *)` and `postorder(const IR::IfStatement *)`
(copyVariableDetection.cpp, lines 75-83) run around that, and
`preorder(const IR::SwitchStatement *)` (lines 85-118) handles a switch by itself. -/
def GenerateTableFlow.visitStatement (m : Maps) (ctx : Context) (v : GenerateTableFlow) :
    Statement → Except String GenerateTableFlow
  | .AssignmentStatement left right =>
    match v.visitExpression m ctx left with
    | .error e => .error e
    | .ok v => v.visitExpression m ctx right
  | .MethodCallStatement mc => v.visitExpression m ctx mc
  | .IfStatement id condition ifTrue ifFalse =>
    let v := { v with ifIds := id :: v.ifIds, ifConditions := condition :: v.ifConditions }
    match v.visitExpression m { ctx with ifStatement := true } condition with
    | .error e => .error e
    | .ok v =>
      let clone := v
      match GenerateTableFlow.visitStatement m { ctx with ifStatement := true } v ifTrue with
      | .error e => .error e
      | .ok v =>
        match GenerateTableFlow.visitOptStatement m { ctx with ifStatement := true }
            { clone with heap := v.heap } ifFalse with
        | .error e => .error e
        | .ok a =>
          match GenerateTableFlow.flow_merge { v with heap := a.heap } a with
          | .error e => .error e
          | .ok v => .ok { v with ifIds := v.ifIds.tail, ifConditions := v.ifConditions.tail }
  | .SwitchStatement id expression cases =>
    let v := { v with ifIds := id :: v.ifIds, ifConditions := expression :: v.ifConditions }
    match v.visitExpression m ctx expression with
    | .error e => .error e
    | .ok v =>
      let v := { v with insideSwitch := true }
      let switchParentNode := v.curr
      match GenerateTableFlow.visitCases m ctx switchParentNode v ∅ false cases with
      | .error e => .error e
      | .ok (v, caseflows, defaultCase) =>
        v.switchConverge (if defaultCase then caseflows else insert switchParentNode caseflows)
  | .BlockStatement components => GenerateTableFlow.visitStatements m ctx v components
  | .EmptyStatement => .ok v
/-- Traversal of an optional statement. -/
def GenerateTableFlow.visitOptStatement (m : Maps) (ctx : Context) (v : GenerateTableFlow) :
    Option Statement → Except String GenerateTableFlow
  | none => .ok v
  | some st => GenerateTableFlow.visitStatement m ctx v st
/-- Traversal of a statement list. -/
def GenerateTableFlow.visitStatements (m : Maps) (ctx : Context) (v : GenerateTableFlow) :
    List Statement → Except String GenerateTableFlow
  | [] => .ok v
  | st :: sts =>
    match GenerateTableFlow.visitStatement m ctx v st with
    | .error e => .error e
    | .ok v => GenerateTableFlow.visitStatements m ctx v sts
/-- The loop over the cases of a switch (copyVariableDetection.cpp, lines 95-100). -/
def GenerateTableFlow.visitCases (m : Maps) (ctx : Context) (switchParentNode : Nat)
    (v : GenerateTableFlow) (caseflows : Finset Nat) (defaultCase : Bool) :
    List (Expression × Option Statement) →
      Except String (GenerateTableFlow × Finset Nat × Bool)
  | [] => .ok (v, caseflows, defaultCase)
  | (label, st) :: cs =>
    let defaultCase :=
      match label with
      | .DefaultExpression => true
      | _ => defaultCase
    let v := { v with curr := switchParentNode }
    match v.visitExpression m ctx label with
    | .error e => .error e
    | .ok v =>
      match GenerateTableFlow.visitOptStatement m ctx v st with
      | .error e => .error e
      | .ok v =>
        GenerateTableFlow.visitCases m ctx switchParentNode v (insert v.curr caseflows)
          defaultCase cs
end

/-! ## The dataflow solver -/

/-- The merge of the parents' dataflows of `var` (copyVariableDetection.cpp, lines
194-197).  A parent without a dataflow for `var` yields a null pointer, and reading
through it is an error (`none`). -/
def mergeParents (heap : List TableInfo) (parents : List Nat) (var : String) :
    Option (Finset String) :=
  parents.foldl (fun dataflow parent =>
    match dataflow, heap[parent]? with
    | some df, some pt =>
      match pt.dataflows var with
      | some pdf => some (mergeDataflow df pdf)
      | none => none
    | _, _ => none) (some ∅)

/-- The loop over the variables in `computeDataflows` (copyVariableDetection.cpp, lines
193-207) for the node `t`: each variable of the solver gets its key dataflow and its
post dataflow, and the node is marked computed. -/
def computeNode (variableSet : Finset String) (heap : List TableInfo) (t : TableInfo) :
    Option TableInfo :=
  let parents := orderedPtrs heap t.parents
  if ∀ var ∈ variableSet, (mergeParents heap parents var).isSome then
    some { t with
      keyDataflows := fun var =>
        if var ∈ variableSet then mergeParents heap parents var else t.keyDataflows var,
      dataflows := fun var =>
        if var ∈ variableSet then
          (mergeParents heap parents var).map (fun dataflow =>
            match t.dataflows var with
            | some effect => applyDataflow dataflow effect
            | none => dataflow)
        else t.dataflows var,
      dataflowComputed := true }
  else none

/-- The loop `for (auto child : tbl->children) visit(child);` over the arena, stopping
at the first error. -/
def forEachChild (visit : List TableInfo → Nat → Except String (List TableInfo)) :
    List TableInfo → List Nat → Except String (List TableInfo)
  | heap, [] => .ok heap
  | heap, child :: children =>
    match visit heap child with
    | .error e => .error e
    | .ok heap => forEachChild visit heap children

/-- Function `GenerateTableFlow::computeDataflows` (copyVariableDetection.cpp, lines
185-211).  The depth of the recursion is bounded by `fuel`. -/
def computeDataflows (variableSet : Finset String) :
    Nat → List TableInfo → Nat → Except String (List TableInfo)
  | 0, _, _ => .error "out of fuel"
  | fuel + 1, heap, tbl =>
    match heap[tbl]? with
    | none => .error "null table"
    | some t =>
      if t.dataflowComputed then .ok heap
      else if (orderedPtrs heap t.parents).any (fun parent =>
          match heap[parent]? with
          | some pt => !pt.dataflowComputed
          | none => true) then .ok heap
      else
        match computeNode variableSet heap t with
        | none => .error "null dataflow"
        | some t2 =>
          forEachChild (computeDataflows variableSet fuel) (heap.set tbl t2)
            (orderedPtrs heap t.children)

/-- The seeding of the start node (copyVariableDetection.cpp, lines 62-68): every
variable of the solver gets `{INITIAL}`, and the node is marked computed. -/
def seedStart (variableSet : Finset String) (heap : List TableInfo) (start : Nat) :
    List TableInfo :=
  modifyNode heap start (fun st =>
    { st with
      dataflows := fun var =>
        if var ∈ variableSet then some (insert DF_INITIAL ∅) else st.dataflows var,
      dataflowComputed := true })

/-- The end of `GenerateTableFlow::preorder(const IR::P4Program *)`
(copyVariableDetection.cpp, lines 62-71): the start node is seeded and `computeDataflows`
runs on each of its children.  The fuel is the number of nodes plus one. -/
def solveDataflows (variableSet : Finset String) (heap : List TableInfo) (start : Nat) :
    Except String (List TableInfo) :=
  let heap := seedStart variableSet heap start
  match heap[start]? with
  | none => .error "null table"
  | some st =>
    forEachChild (computeDataflows variableSet (heap.length + 1)) heap
      (orderedPtrs heap st.children)

/-- The last control of the program with the given name
(copyVariableDetection.cpp, lines 39-47). -/
def findControl (name : String) : List Declaration → Option P4Control
  | [] => none
  | .control c :: ds =>
    match findControl name ds with
    | some c2 => some c2
    | none => if c.name = name then some c else none
  | _ :: ds => findControl name ds

/-- Visit of a control found by name; nothing is visited when there is none.  Only
the body is traversed: the local declarations contain no table application. -/
def GenerateTableFlow.visitControl (m : Maps) (v : GenerateTableFlow) :
    Option P4Control → Except String GenerateTableFlow
  | none => .ok v
  | some ctrl => v.visitStatement m {} ctrl.body

/-- The first part of `GenerateTableFlow::preorder(const IR::P4Program *)`
(copyVariableDetection.cpp, lines 36-60): links the parser node under the start node and
builds the flow of ingress, then egress. -/
def GenerateTableFlow.buildFlow (m : Maps) (v : GenerateTableFlow) (pp : P4Program) :
    Except String GenerateTableFlow :=
  match m.tables "parser" with
  | none => .error "Parser table not instantiated"
  | some parsertbl =>
    let heap := modifyNode v.heap v.curr (fun c =>
      { c with children := insert parsertbl c.children })
    let heap := modifyNode heap parsertbl (fun t =>
      { t with parents := insert v.curr t.parents, depth := 1 })
    let v := { v with heap := heap, curr := parsertbl }
    match v.visitControl m (findControl "ingress" pp.declarations) with
    | .error e => .error e
    | .ok v => v.visitControl m (findControl "egress" pp.declarations)

/-- Function `GenerateTableFlow::preorder(const IR::P4Program *)`
(copyVariableDetection.cpp, lines 36-73): builds the table flow, seeds the start node
and runs the solver. -/
def GenerateTableFlow.preorder_P4Program (m : Maps) (v : GenerateTableFlow) (pp : P4Program) :
    Except String GenerateTableFlow :=
  match v.buildFlow m pp with
  | .error e => .error e
  | .ok v =>
    match solveDataflows v.variableSet v.heap v.start with
    | .error e => .error e
    | .ok heap => .ok { v with heap := heap }

/-- The `GenerateTableFlow` pass on a program: the maps with the arena after the pass. -/
def GenerateTableFlow.apply (m : Maps) (pp : P4Program) : Except String Maps :=
  match (GenerateTableFlow.new m).preorder_P4Program m pp with
  | .error e => .error e
  | .ok v => .ok { m with heap := v.heap }

/-! ## Copy detection: `DetectCopy` -/

/-- State of the `DetectCopy` visitor (copyVariableDetection.h, lines 188-189). -/
structure DetectCopy where
  copyCandidates : Finset String := ∅
  nonCopyCandidates : Finset String := ∅

/-- The test of `DetectCopy::postorder(IR::Expression *)` on the lattice element
(copyVariableDetection.cpp, lines 634-635). -/
def isCopyObservation (dataflow : Finset String) : Bool :=
  (dataflow.card = 1 ∧ count dataflow DF_UNDEFINED = 0) ∨
    (dataflow.card = 2 ∧ count dataflow DF_INITIAL = 1)

/-- The update of the candidate sets for one observation
(copyVariableDetection.cpp, lines 634-644). -/
def DetectCopy.observe (s : DetectCopy) (var : String) (dataflow : Finset String) :
    DetectCopy :=
  if isCopyObservation dataflow then
    if count s.nonCopyCandidates var = 0 then
      { s with copyCandidates := insert var s.copyCandidates }
    else s
  else
    { nonCopyCandidates := insert var s.nonCopyCandidates,
      copyCandidates := s.copyCandidates.erase var }

/-- The variable and the lattice element observed at an expression, if any
(copyVariableDetection.cpp, lines 605-625). -/
def observation (m : Maps) (ctx : Context) (expr : Expression) :
    Option (String × Finset String) :=
  let tblinfo : Option TableInfo :=
    if ctx.parser then
      match m.tables "parser" with
      | some p => m.heap[p]?
      | none => none
    else
      match ctx.table with
      | some name =>
        match m.tables name with
        | some p => m.heap[p]?
        | none => none
      | none => none
  match tblinfo with
  | none => none
  | some tblinfo =>
    let var := getVariableName expr
    if startsWith var "meta" then
      if ctx.keyElement.isSome ∧ (tblinfo.keyDataflows var).isSome then
        (tblinfo.keyDataflows var).map (fun dataflow => (var, dataflow))
      else (tblinfo.dataflows var).map (fun dataflow => (var, dataflow))
    else none

/-- Function `DetectCopy::postorder(IR::Expression *)`
(copyVariableDetection.cpp, lines 604-649). -/
def DetectCopy.postorder (m : Maps) (s : DetectCopy) (site : Context × Expression) :
    DetectCopy :=
  match observation m site.1 site.2 with
  | some (var, dataflow) => s.observe var dataflow
  | none => s

mutual
/-- The expressions below (and including) an expression with their contexts, in the
order a transform reaches their postorder hook: children first. -/
def expressionSites (ctx : Context) : Expression → List (Context × Expression)
  | .PathExpression name => [(ctx, .PathExpression name)]
  | .Member expr member =>
    expressionSites { ctx with member := true } expr ++ [(ctx, .Member expr member)]
  | .MethodCallExpression method targs dirs arguments =>
    expressionSites { ctx with methodCall := true } method ++
      expressionListSites { ctx with methodCall := true } arguments ++
      [(ctx, .MethodCallExpression method targs dirs arguments)]
  | .DefaultExpression => [(ctx, .DefaultExpression)]
  | .Operation str operands =>
    expressionListSites ctx operands ++ [(ctx, .Operation str operands)]
  | .SelectExpression select selectCases =>
    expressionListSites ctx select ++ selectCaseSites ctx selectCases ++
      [(ctx, .SelectExpression select selectCases)]
/-- The sites of an expression list. -/
def expressionListSites (ctx : Context) : List Expression → List (Context × Expression)
  | [] => []
  | e :: es => expressionSites ctx e ++ expressionListSites ctx es
/-- The sites of the cases of a select expression. -/
def selectCaseSites (ctx : Context) : List (Expression × Expression) →
    List (Context × Expression)
  | [] => []
  | (keyset, state) :: cs =>
    expressionSites ctx keyset ++ expressionSites ctx state ++ selectCaseSites ctx cs
end

mutual
/-- The expression sites of a statement, in traversal order. -/
def statementSites (ctx : Context) : Statement → List (Context × Expression)
  | .AssignmentStatement left right => expressionSites ctx left ++ expressionSites ctx right
  | .MethodCallStatement mc => expressionSites ctx mc
  | .IfStatement _ condition ifTrue ifFalse =>
    expressionSites { ctx with ifStatement := true } condition ++
      statementSites { ctx with ifStatement := true } ifTrue ++
      optStatementSites { ctx with ifStatement := true } ifFalse
  | .SwitchStatement _ expression cases => expressionSites ctx expression ++ caseSites ctx cases
  | .BlockStatement components => statementListSites ctx components
  | .EmptyStatement => []
/-- The sites of an optional statement. -/
def optStatementSites (ctx : Context) : Option Statement → List (Context × Expression)
  | none => []
  | some st => statementSites ctx st
/-- The sites of a statement list. -/
def statementListSites (ctx : Context) : List Statement → List (Context × Expression)
  | [] => []
  | st :: sts => statementSites ctx st ++ statementListSites ctx sts
/-- The sites of the cases of a switch statement. -/
def caseSites (ctx : Context) : List (Expression × Option Statement) →
    List (Context × Expression)
  | [] => []
  | (label, st) :: cs => expressionSites ctx label ++ optStatementSites ctx st ++ caseSites ctx cs
end

/-- The sites of a table: for each key its expression (child 1 of the `KeyElement`) and
its match kind (child 2), then the actions of the action list. -/
def tableSites (tbl : P4Table) : List (Context × Expression) :=
  (tbl.keys.map (fun k =>
      expressionSites { table := some tbl.name, keyElement := some 1 } k.expression ++
        [({ table := some tbl.name, keyElement := some 2 }, .PathExpression k.matchType)])).flatten
    ++ tbl.actionList.map (fun a => ({ table := some tbl.name }, .PathExpression a))

/-- The sites of the parser: for each state its statements, then its select expression. -/
def parserSites (parser : P4Parser) : List (Context × Expression) :=
  (parser.states.map (fun st =>
      statementListSites { parser := true } st.components ++
        (match st.selectExpression with
          | some e => expressionSites { parser := true } e
          | none => []))).flatten

/-- The sites of a control: its local declarations, then its body. -/
def controlSites (ctrl : P4Control) : List (Context × Expression) :=
  (ctrl.controlLocals.map (fun d =>
      match d with
      | .action a => statementListSites {} a.body
      | .table t => tableSites t)).flatten
    ++ statementSites {} ctrl.body

/-- The sites of the program, declaration by declaration in the order written. -/
def programSites (pp : P4Program) : List (Context × Expression) :=
  (pp.declarations.map (fun d =>
      match d with
      | .parser p => parserSites p
      | .control c => controlSites c
      | .action a => statementListSites {} a.body
      | .other _ => []
      | .header _ => []
      | .struct _ => [])).flatten

/-- The `DetectCopy` pass: the postorder hook runs at every expression of the program,
from empty candidate sets. -/
def DetectCopy.apply (m : Maps) (pp : P4Program) : DetectCopy :=
  (programSites pp).foldl (DetectCopy.postorder m) {}

/-- The observations `DetectCopy` makes on a program, in order. -/
def observations (m : Maps) (pp : P4Program) : List (String × Finset String) :=
  (programSites pp).filterMap (fun site => observation m site.1 site.2)

/-- The candidate sets after a sequence of observations, from empty sets. -/
def DetectCopy.run (obs : List (String × Finset String)) : DetectCopy :=
  obs.foldl (fun s o => s.observe o.1 o.2) {}

/-- The passes of `CopyVariableDetection` in order (copyVariableDetection.h, lines
221-224): summary extraction, table-flow construction with the solver, copy detection.
The result is the maps after the solver and the state of `DetectCopy`. -/
def CopyVariableDetection (pp : P4Program) : Except String (Maps × DetectCopy) :=
  match ExtractVariables.apply pp with
  | .error e => .error e
  | .ok m =>
    match GenerateTableFlow.apply m pp with
    | .error e => .error e
    | .ok m => .ok (m, DetectCopy.apply m pp)

/-- The node of a table after the passes. -/
def tableInfo (m : Maps) (name : String) : Option TableInfo :=
  match m.tables name with
  | some p => m.heap[p]?
  | none => none

/-! ## Reading the results of the passes -/

/-- The maps after summary extraction (empty maps if the pass aborts). -/
def summaryOf (pp : P4Program) : Maps :=
  match ExtractVariables.apply pp with
  | .ok m => m
  | .error _ => {}

/-- The visitor of `GenerateTableFlow` when the table flow of the program is built,
before the solver runs (the fresh visitor if a pass aborts). -/
def builtFlow (pp : P4Program) : GenerateTableFlow :=
  match (GenerateTableFlow.new (summaryOf pp)).buildFlow (summaryOf pp) pp with
  | .ok v => v
  | .error _ => GenerateTableFlow.new (summaryOf pp)

/-- The maps after the solver (empty maps if a pass aborts). -/
def mapsOf (pp : P4Program) : Maps :=
  match CopyVariableDetection pp with
  | .ok (m, _) => m
  | .error _ => {}

/-- The final `copyCandidates` and `nonCopyCandidates` of a program, if the passes
complete. -/
def candidates (pp : P4Program) : Option (Finset String × Finset String) :=
  match CopyVariableDetection pp with
  | .ok (_, d) => some (d.copyCandidates, d.nonCopyCandidates)
  | .error _ => none

/-- The variable set of the solver (member `variables` of the visitor that ran
`preorder(const IR::P4Program *)`), if the passes complete. -/
def solverVariables (pp : P4Program) : Option (Finset String) :=
  match ExtractVariables.apply pp with
  | .error _ => none
  | .ok m =>
    match (GenerateTableFlow.new m).preorder_P4Program m pp with
    | .ok v => some v.variableSet
    | .error _ => none

/-- The first node of the arena with the given name. -/
def nodeNamed (m : Maps) (name : String) : Option TableInfo :=
  m.heap.find? (fun t => t.name = name)

/-- Entry `keyDataflows[var]` of the node with the given name. -/
def keyDataflowAt (m : Maps) (name var : String) : Option (Finset String) :=
  match nodeNamed m name with
  | some t => t.keyDataflows var
  | none => none

/-- Entry `dataflows[var]` of the node with the given name. -/
def dataflowAt (m : Maps) (name var : String) : Option (Finset String) :=
  match nodeNamed m name with
  | some t => t.dataflows var
  | none => none

/-- Entry `dataflows[var]` of the summary of an action. -/
def actionDataflow (m : Maps) (action var : String) : Option String :=
  match m.actions action with
  | some fi => fi.dataflows var
  | none => none

/-! ## The programs of the end-to-end scenarios -/

/-- Expression `hdr.h.f`. -/
def hdr_h_f : Expression := .Member (.Member (.PathExpression "hdr") "h") "f"

/-- Expression `hdr.h.g`. -/
def hdr_h_g : Expression := .Member (.Member (.PathExpression "hdr") "h") "g"

/-- Expression `meta.a`. -/
def meta_a : Expression := .Member (.PathExpression "meta") "a"

/-- Expression `hdr.h.f + 1`. -/
def hdr_h_f_plus_1 : Expression := .Operation "hdr.h.f + 1" [hdr_h_f, .Operation "1" []]

/-- Statement `t.apply();`. -/
def applyStatement (t : String) : Statement :=
  .MethodCallStatement (.MethodCallExpression (.Member (.PathExpression t) "apply") [] [] [])

/-- A parser with one state and the given statements. -/
def parserWith (components : List Statement) : Declaration :=
  .parser { name := "ParserImpl",
            states := [{ name := "start", components := components,
                         selectExpression := some (.PathExpression "accept") }] }

/-- A table without key whose only action is `act`. -/
def actionTable (name act : String) : LocalDeclaration :=
  .table { name := name, keys := [], actionList := [act] }

/-- A table with the exact-match key `meta.a` and no action but `NoAction`. -/
def keyTable (name : String) : LocalDeclaration :=
  .table { name := name, keys := [{ expression := meta_a, matchType := "exact" }],
           actionList := ["NoAction"] }

/-- An action whose body is the assignment `left = right`. -/
def assignAction (name : String) (left right : Expression) : LocalDeclaration :=
  .action { name := name, body := [.AssignmentStatement left right] }

/-- Scenario 4: the parser does `meta.a = hdr.h.f;`, nothing else writes `meta.a`, and
the ingress table `t` reads `meta.a` only as a key. -/
def scenario4 : P4Program :=
  { declarations := [
      parserWith [.AssignmentStatement meta_a hdr_h_f],
      .control { name := "ingress", controlLocals := [keyTable "t"],
                 body := .BlockStatement [applyStatement "t"] }] }

/-- Scenario 4 with one more reader: an action of `t` also reads `meta.a`. -/
def scenario4_actionRead : P4Program :=
  { declarations := [
      parserWith [.AssignmentStatement meta_a hdr_h_f],
      .control { name := "ingress",
                 controlLocals := [
                   assignAction "a1" hdr_h_g meta_a,
                   .table { name := "t", keys := [{ expression := meta_a, matchType := "exact" }],
                            actionList := ["a1"] }],
                 body := .BlockStatement [applyStatement "t"] }] }

/-- Scenario 5: `if (x) t1.apply(); else t2.apply(); t3.apply();` where the action of `t1`
does `meta.a = hdr.h.f;`, the action of `t2` does `meta.a = hdr.h.g;`, and `t3` is keyed
on `meta.a`. -/
def scenario5 : P4Program :=
  { declarations := [
      parserWith [],
      .control { name := "ingress",
                 controlLocals := [
                   assignAction "a1" meta_a hdr_h_f, assignAction "a2" meta_a hdr_h_g,
                   actionTable "t1" "a1", actionTable "t2" "a2", keyTable "t3"],
                 body := .BlockStatement [
                   .IfStatement 7 (.PathExpression "x") (applyStatement "t1")
                     (some (applyStatement "t2")),
                   applyStatement "t3"] }] }

/-- Scenario 6: the action of `t1` does `meta.a = hdr.h.f + 1;` and `t2`, applied after
`t1`, is keyed on `meta.a`. -/
def scenario6 : P4Program :=
  { declarations := [
      parserWith [],
      .control { name := "ingress",
                 controlLocals := [
                   assignAction "a1" meta_a hdr_h_f_plus_1, actionTable "t1" "a1", keyTable "t2"],
                 body := .BlockStatement [applyStatement "t1", applyStatement "t2"] }] }

/-- A table keyed on `meta.a` is applied before the only table that writes `meta.a`. -/
def readBeforeWrite : P4Program :=
  { declarations := [
      parserWith [],
      .control { name := "ingress",
                 controlLocals := [
                   assignAction "a1" meta_a hdr_h_f, keyTable "t0", actionTable "t1" "a1"],
                 body := .BlockStatement [applyStatement "t0", applyStatement "t1"] }] }

/-- Variable `meta.a` is copied from `hdr.h.f`, observed, copied from `hdr.h.g`, and
observed again. -/
def twoSources : P4Program :=
  { declarations := [
      parserWith [],
      .control { name := "ingress",
                 controlLocals := [
                   assignAction "a1" meta_a hdr_h_f, assignAction "a3" meta_a hdr_h_g,
                   actionTable "t1" "a1", keyTable "t2", actionTable "t3" "a3", keyTable "t4"],
                 body := .BlockStatement [applyStatement "t1", applyStatement "t2",
                   applyStatement "t3", applyStatement "t4"] }] }

/-- Variable `meta.a` gets a computed value in `t1` and is overwritten with `hdr.h.g` by
the only action of `t2`. -/
def overwrite : P4Program :=
  { declarations := [
      parserWith [],
      .control { name := "ingress",
                 controlLocals := [
                   assignAction "a1" meta_a hdr_h_f_plus_1, assignAction "a2" meta_a hdr_h_g,
                   actionTable "t1" "a1", actionTable "t2" "a2"],
                 body := .BlockStatement [applyStatement "t1", applyStatement "t2"] }] }

/-! ## The classification of the specification -/

/-- A source field name: a token that is none of `INITIAL`, `UNDEFINED`, `NOCHANGE`. -/
def isSourceField (t : String) : Prop :=
  t ≠ DF_INITIAL ∧ t ≠ DF_UNDEFINED ∧ t ≠ DF_NOCHANGE

/-- The copy observations of the specification: a singleton source field, or a
two-element set `{INITIAL, src}` for a single source field `src`. -/
def specCopyObservation (D : Finset String) : Prop :=
  (∃ src, isSourceField src ∧ D = {src}) ∨ (∃ src, isSourceField src ∧ D = {DF_INITIAL, src})

/-- A normalised lattice element: no `NOCHANGE`, and `UNDEFINED` only as `{UNDEFINED}`. -/
def normalised (D : Finset String) : Prop :=
  DF_NOCHANGE ∉ D ∧ (DF_UNDEFINED ∈ D → D = {DF_UNDEFINED})

/-! ## Header commoning: `CommonFields` (commoningParser.h, commoningParser.cpp) -/

/-- Macro `COMMON_HDR` (commoningParser.h, line 26). -/
def COMMON_HDR : String := "_common_"

/-- Order of `cstring` keys. -/
def cstringLt (a b : String) : Bool := decide (a.data < b.data)

/-- Assignment `m[k] = v` in a map that is kept in ascending key order. -/
def mapInsert {V : Type} (m : List (String × V)) (k : String) (v : V) : List (String × V) :=
  match m with
  | [] => [(k, v)]
  | (k2, v2) :: rest =>
    if cstringLt k k2 then (k, v) :: (k2, v2) :: rest
    else if k = k2 then (k, v) :: rest
    else (k2, v2) :: mapInsert rest k v

/-- Lookup in a map that is kept in ascending key order. -/
def mapFind {V : Type} (m : List (String × V)) (k : String) : Option V :=
  match m with
  | [] => none
  | (k2, v2) :: rest => if k2 = k then some v2 else mapFind rest k

/-- Record `ParseStateInfo` (commoningParser.h, lines 29-35). -/
structure ParseStateInfo where
  name : String := "P4ParseState"
  firstHeaderExtracted : String := ""
  lastHeaderExtracted : String := ""
  parents : Finset Nat := ∅
  children : Finset Nat := ∅

/-- State of the `CommonFields` visitor (commoningParser.h, lines 38-49) with the arena
`stateHeap` of its `ParseStateInfo` nodes.  The maps `parserStates`, `newHeaders` and
`modifiedHeaders` are iterated by the pass; `headers` holds the declarations by value. -/
structure CommonFields where
  stateHeap : List ParseStateInfo := []
  parserStates : List (String × Nat) := []
  headers : String → Option Type_Header := fun _ => none
  newHeaders : List (String × Type_Header) := []
  headerExtractStates : String → Option (Finset Nat) := fun _ => none
  modifiedHeaders : List (String × Type_Header) := []
  headerMap : String → Option String := fun _ => none
  remappedFields : String → Option (List String) := fun _ => none
  curr : Option Nat := none
  commonHdrNo : Nat := 0

/-- Downcast `type->to<IR::Type_Bits>()` followed by the read of `size`: `none` is the
null pointer. -/
def IRType.toBits : IRType → Option Nat
  | .Type_Bits size _ => some size
  | _ => none

/-- Test `type->to<IR::Type_Varbits>()`. -/
def IRType.isVarbits : IRType → Bool
  | .Type_Varbits _ => true
  | _ => false

/-- The loop of `findCommonFields` over the fields of `hdr1` (commoningParser.cpp, lines
119-137).  Reading `size` through a null `Type_Bits` pointer is an error. -/
def findCommonFieldsLoop (fields2 : List StructField) :
    List StructField → Nat → List StructField → Except String (List StructField)
  | [], _, commonFields => .ok commonFields
  | hf1 :: rest, pos, commonFields =>
    if pos < fields2.length then
      match fields2[pos]? with
      | none => .error "field index out of range"
      | some hf2 =>
        let isEqual := !(hf1.type.isVarbits || hf2.type.isVarbits)
        match hf1.type.toBits, hf2.type.toBits with
        | some size1, some size2 =>
          let isEqual := if size1 ≠ size2 then false else isEqual
          if isEqual then findCommonFieldsLoop fields2 rest (pos + 1) (commonFields ++ [hf1])
          else .ok commonFields
        | _, _ => .error "null Type_Bits"
    else findCommonFieldsLoop fields2 rest (pos + 1) commonFields

/-- Function `CommonFields::findCommonFields` (commoningParser.cpp, lines 115-139); an
absent header is the null pointer. -/
def findCommonFields (hdr1 hdr2 : Option Type_Header) : Except String Nat :=
  match hdr1, hdr2 with
  | some h1, some h2 =>
    match findCommonFieldsLoop h2.fields h1.fields 0 [] with
    | .error e => .error e
    | .ok commonFields => .ok commonFields.length
  | _, _ => .ok 0

/-- Creation of the `ParseStateInfo` of a name that has none (commoningParser.cpp, lines
142-145 and 160-163). -/
def CommonFields.ensureState (s : CommonFields) (name : String) : CommonFields :=
  if (mapFind s.parserStates name).isNone then
    { s with stateHeap := s.stateHeap ++ [{ name := name }],
             parserStates := mapInsert s.parserStates name s.stateHeap.length }
  else s

/-- Update of the state node behind a pointer. -/
def modifyState (heap : List ParseStateInfo) (p : Nat) (f : ParseStateInfo → ParseStateInfo) :
    List ParseStateInfo :=
  match heap[p]? with
  | some t => heap.set p (f t)
  | none => heap

/-- Function `CommonFields::preorder(IR::ParserState *)` (commoningParser.cpp, lines
141-149). -/
def CommonFields.preorder_ParserState (s : CommonFields) (name : String) : CommonFields :=
  let s := s.ensureState name
  { s with curr := mapFind s.parserStates name }

/-- Function `CommonFields::postorder(IR::ParserState *)` (commoningParser.cpp, lines
151-154). -/
def CommonFields.postorder_ParserState (s : CommonFields) : CommonFields :=
  { s with curr := none }

/-- Function `CommonFields::preorder(IR::PathExpression *)` (commoningParser.cpp, lines
157-169).  Writing through a null `curr` is an error. -/
def CommonFields.preorder_PathExpression (s : CommonFields) (ctx : Context) (name : String) :
    Except String CommonFields :=
  if ctx.selectCase || ctx.parentIsParserState then
    let s := s.ensureState name
    match s.curr, mapFind s.parserStates name with
    | some c, some p =>
      let heap := modifyState s.stateHeap c (fun t => { t with children := insert p t.children })
      let heap := modifyState heap p (fun t => { t with parents := insert c t.parents })
      .ok { s with stateHeap := heap }
    | _, _ => .error "null state"
  else .ok s

/-- Function `CommonFields::preorder(IR::Type_Header *)` (commoningParser.cpp, lines
171-176). -/
def CommonFields.preorder_Type_Header (s : CommonFields) (hdr : Type_Header) : CommonFields :=
  { s with headers := setKey s.headers hdr.name hdr }

/-- The loop over the type arguments of an `extract` call (commoningParser.cpp, lines
182-191); `pos` counts the type names seen in this call. -/
def CommonFields.extractLoop (s : CommonFields) : List IRType → Nat → Except String CommonFields
  | [], _ => .ok s
  | .Type_Name name :: rest, pos =>
    match s.curr with
    | none => .error "null state"
    | some c =>
      let heap := modifyState s.stateHeap c (fun t =>
        { t with firstHeaderExtracted := if pos = 0 then name else t.firstHeaderExtracted,
                 lastHeaderExtracted := name })
      CommonFields.extractLoop { s with stateHeap := heap } rest (pos + 1)
  | _ :: rest, pos => CommonFields.extractLoop s rest pos

/-- Function `CommonFields::preorder(IR::MethodCallExpression *)` (commoningParser.cpp,
lines 178-193). -/
def CommonFields.preorder_MethodCallExpression (s : CommonFields) (method : Expression)
    (typeArguments : List IRType) : Except String CommonFields :=
  match method with
  | .Member _ member =>
    if member = "extract" then s.extractLoop typeArguments 0 else .ok s
  | _ => .ok s

mutual
/-- Traversal of an expression by `CommonFields`: the hooks of a path and of a method
call run before the children are visited. -/
def CommonFields.visitExpression (s : CommonFields) (ctx : Context) :
    Expression → Except String CommonFields
  | .PathExpression name => s.preorder_PathExpression ctx name
  | .Member expr _ =>
    CommonFields.visitExpression s { ctx with parentIsParserState := false } expr
  | .MethodCallExpression method typeArguments _ arguments =>
    match s.preorder_MethodCallExpression method typeArguments with
    | .error e => .error e
    | .ok s =>
      match CommonFields.visitExpression s { ctx with parentIsParserState := false } method with
      | .error e => .error e
      | .ok s =>
        CommonFields.visitExpressions s { ctx with parentIsParserState := false } arguments
  | .DefaultExpression => .ok s
  | .Operation _ operands =>
    CommonFields.visitExpressions s { ctx with parentIsParserState := false } operands
  | .SelectExpression select selectCases =>
    match CommonFields.visitExpressions s { ctx with parentIsParserState := false } select with
    | .error e => .error e
    | .ok s =>
      CommonFields.visitSelectCases s
        { ctx with parentIsParserState := false, selectCase := true } selectCases
/-- Traversal of an expression list. -/
def CommonFields.visitExpressions (s : CommonFields) (ctx : Context) :
    List Expression → Except String CommonFields
  | [] => .ok s
  | e :: es =>
    match CommonFields.visitExpression s ctx e with
    | .error e => .error e
    | .ok s => CommonFields.visitExpressions s ctx es
/-- Traversal of the cases of a select expression: the keyset, then the state. -/
def CommonFields.visitSelectCases (s : CommonFields) (ctx : Context) :
    List (Expression × Expression) → Except String CommonFields
  | [] => .ok s
  | (keyset, state) :: cs =>
    match CommonFields.visitExpression s ctx keyset with
    | .error e => .error e
    | .ok s =>
      match CommonFields.visitExpression s ctx state with
      | .error e => .error e
      | .ok s => CommonFields.visitSelectCases s ctx cs
end

mutual
/-- Traversal of a statement by `CommonFields`. -/
def CommonFields.visitStatement (s : CommonFields) (ctx : Context) :
    Statement → Except String CommonFields
  | .AssignmentStatement left right =>
    match s.visitExpression ctx left with
    | .error e => .error e
    | .ok s => s.visitExpression ctx right
  | .MethodCallStatement mc => s.visitExpression ctx mc
  | .IfStatement _ condition ifTrue ifFalse =>
    match s.visitExpression ctx condition with
    | .error e => .error e
    | .ok s =>
      match CommonFields.visitStatement s ctx ifTrue with
      | .error e => .error e
      | .ok s => CommonFields.visitOptStatement s ctx ifFalse
  | .SwitchStatement _ expression cases =>
    match s.visitExpression ctx expression with
    | .error e => .error e
    | .ok s => CommonFields.visitCases s ctx cases
  | .BlockStatement components => CommonFields.visitStatements s ctx components
  | .EmptyStatement => .ok s
/-- Traversal of an optional statement. -/
def CommonFields.visitOptStatement (s : CommonFields) (ctx : Context) :
    Option Statement → Except String CommonFields
  | none => .ok s
  | some st => CommonFields.visitStatement s ctx st
/-- Traversal of a statement list. -/
def CommonFields.visitStatements (s : CommonFields) (ctx : Context) :
    List Statement → Except String CommonFields
  | [] => .ok s
  | st :: sts =>
    match CommonFields.visitStatement s ctx st with
    | .error e => .error e
    | .ok s => CommonFields.visitStatements s ctx sts
/-- Traversal of the cases of a switch statement. -/
def CommonFields.visitCases (s : CommonFields) (ctx : Context) :
    List (Expression × Option Statement) → Except String CommonFields
  | [] => .ok s
  | (label, st) :: cs =>
    match s.visitExpression ctx label with
    | .error e => .error e
    | .ok s =>
      match CommonFields.visitOptStatement s ctx st with
      | .error e => .error e
      | .ok s => CommonFields.visitCases s ctx cs
end

/-- Traversal of a parser state: `preorder(IR::ParserState *)`, the components, the
select expression (whose parent is the state), `postorder(IR::ParserState *)`. -/
def CommonFields.visitParserState (s : CommonFields) (ps : ParserState) :
    Except String CommonFields :=
  let s := s.preorder_ParserState ps.name
  match s.visitStatements { parser := true } ps.components with
  | .error e => .error e
  | .ok s =>
    match ps.selectExpression with
    | none => .ok s.postorder_ParserState
    | some e =>
      match s.visitExpression { parser := true, parentIsParserState := true } e with
      | .error e => .error e
      | .ok s => .ok s.postorder_ParserState

/-- Traversal of the states of a parser, in the order written. -/
def CommonFields.visitParserStates (s : CommonFields) :
    List ParserState → Except String CommonFields
  | [] => .ok s
  | ps :: rest =>
    match s.visitParserState ps with
    | .error e => .error e
    | .ok s => CommonFields.visitParserStates s rest

/-- The successors of a state with their pointers, in ascending pointer order. -/
def CommonFields.childrenOf (s : CommonFields) (state : ParseStateInfo) :
    List (Nat × ParseStateInfo) :=
  (List.range s.stateHeap.length).filterMap (fun p =>
    if p ∈ state.children then (s.stateHeap[p]?).map (fun t => (p, t)) else none)

/-- The first loop over the successors in `postorder(IR::P4Parser *)` (commoningParser.cpp,
lines 201-209), on the pair of `leastCommonFields` and `hdr1`. -/
def leastCommonFieldsLoop (headers : String → Option Type_Header) :
    List (Nat × ParseStateInfo) → Nat × String → Except String (Nat × String)
  | [], acc => .ok acc
  | child :: rest, (leastCommonFields, hdr1) =>
    let hdr1 := if hdr1 = "" then child.2.firstHeaderExtracted else hdr1
    let hdr2 := child.2.firstHeaderExtracted
    if hdr1 ≠ hdr2 then
      match findCommonFields (headers hdr1) (headers hdr2) with
      | .error e => .error e
      | .ok commonFields =>
        leastCommonFieldsLoop headers rest
          (if commonFields < leastCommonFields then commonFields else leastCommonFields, hdr1)
    else leastCommonFieldsLoop headers rest (leastCommonFields, hdr1)

/-- The body of the second loop over the successors in `postorder(IR::P4Parser *)`
(commoningParser.cpp, lines 223-237) for one successor.  Reading a field beyond the end
of the header is an error. -/
def CommonFields.remapChild (newName : String) (leastCommonFields : Nat) (s : CommonFields)
    (child : Nat × ParseStateInfo) : Except String CommonFields :=
  let states := insert child.1 ((s.headerExtractStates newName).getD ∅)
  let s := { s with headerExtractStates := setKey s.headerExtractStates newName states }
  let childHdrName := child.2.firstHeaderExtracted
  match s.headers childHdrName with
  | none => .ok s
  | some childHdr =>
    if leastCommonFields ≤ childHdr.fields.length then
      .ok { s with
        headerMap := setKey s.headerMap childHdrName newName,
        remappedFields := setKey s.remappedFields childHdrName
          ((childHdr.fields.take leastCommonFields).map (fun f => f.name)),
        modifiedHeaders := mapInsert s.modifiedHeaders childHdrName
          { name := childHdrName, fields := childHdr.fields.drop leastCommonFields } }
    else .error "field index out of range"

/-- The second loop over the successors. -/
def CommonFields.remapChildren (newName : String) (leastCommonFields : Nat) (s : CommonFields) :
    List (Nat × ParseStateInfo) → Except String CommonFields
  | [] => .ok s
  | child :: rest =>
    match s.remapChild newName leastCommonFields child with
    | .error e => .error e
    | .ok s => CommonFields.remapChildren newName leastCommonFields s rest

/-- The body of the loop over the states in `postorder(IR::P4Parser *)`
(commoningParser.cpp, lines 198-240) for one state. -/
def CommonFields.commonState (s : CommonFields) (state : ParseStateInfo) :
    Except String CommonFields :=
  if state.children.card > 1 then
    match leastCommonFieldsLoop s.headers (s.childrenOf state) (10000, "") with
    | .error e => .error e
    | .ok (leastCommonFields, hdr1) =>
      if leastCommonFields > 0 ∧ leastCommonFields < 10000 then
        match s.headers hdr1 with
        | none => .error "null header"
        | some childHdr =>
          if leastCommonFields ≤ childHdr.fields.length then
            let newName := childHdr.name ++ COMMON_HDR ++ toString s.commonHdrNo
            let s := { s with
              newHeaders := mapInsert s.newHeaders newName
                { name := newName, fields := childHdr.fields.take leastCommonFields },
              headerExtractStates := setKey s.headerExtractStates newName ∅,
              commonHdrNo := s.commonHdrNo + 1 }
            s.remapChildren newName leastCommonFields (s.childrenOf state)
          else .error "field index out of range"
      else .ok s
  else .ok s

/-- The loop over the states of `parserStates`, in key order. -/
def CommonFields.commonStates (s : CommonFields) : List (String × Nat) → Except String CommonFields
  | [] => .ok s
  | (_, p) :: rest =>
    match s.stateHeap[p]? with
    | none => .error "null state"
    | some state =>
      match s.commonState state with
      | .error e => .error e
      | .ok s => CommonFields.commonStates s rest

/-- Function `CommonFields::postorder(IR::P4Parser *)` (commoningParser.cpp, lines
195-243). -/
def CommonFields.postorder_P4Parser (s : CommonFields) : Except String CommonFields :=
  s.commonStates s.parserStates

/-- Traversal of the local declarations of a control by `CommonFields`: the bodies of
the actions and the keys of the tables. -/
def CommonFields.visitLocals (s : CommonFields) :
    List LocalDeclaration → Except String CommonFields
  | [] => .ok s
  | .action a :: ds =>
    match s.visitStatements {} a.body with
    | .error e => .error e
    | .ok s => CommonFields.visitLocals s ds
  | .table t :: ds =>
    match s.visitExpressions { table := some t.name } (t.keys.map (fun k => k.expression)) with
    | .error e => .error e
    | .ok s => CommonFields.visitLocals s ds

/-- Traversal of one declaration by `CommonFields`; the analysis of
`postorder(IR::P4Parser *)` runs when the states of a parser have been visited. -/
def CommonFields.visitDeclaration (s : CommonFields) : Declaration → Except String CommonFields
  | .header h => .ok (s.preorder_Type_Header h)
  | .struct _ => .ok s
  | .other _ => .ok s
  | .action a => s.visitStatements {} a.body
  | .control c =>
    match s.visitLocals c.controlLocals with
    | .error e => .error e
    | .ok s => s.visitStatement {} c.body
  | .parser p =>
    match s.visitParserStates p.states with
    | .error e => .error e
    | .ok s => s.postorder_P4Parser

/-- Traversal of the declarations of the program, in the order written. -/
def CommonFields.visitDeclarations (s : CommonFields) :
    List Declaration → Except String CommonFields
  | [] => .ok s
  | d :: ds =>
    match s.visitDeclaration d with
    | .error e => .error e
    | .ok s => CommonFields.visitDeclarations s ds

/-- The analysis of `CommonFields` on a program, from empty maps: the state of the
visitor when it reaches `postorder(IR::P4Program *)`. -/
def CommonFields.analyse (pp : P4Program) : Except String CommonFields :=
  CommonFields.visitDeclarations {} pp.declarations

/-! ## The rewrite: `CommonFields::ModifyHeaders` -/

/-- Insertion of `d` before the first element that satisfies `p`; nothing is inserted
when there is none. -/
def insertBeforeFirst (p : Declaration → Bool) (d : Declaration) :
    List Declaration → List Declaration
  | [] => []
  | x :: xs => if p x then d :: x :: xs else x :: insertBeforeFirst p d xs

/-- Replacement of the first element that satisfies `p` by `d`. -/
def replaceFirst (p : Declaration → Bool) (d : Declaration) :
    List Declaration → List Declaration
  | [] => []
  | x :: xs => if p x then d :: xs else x :: replaceFirst p d xs

/-- Function `ModifyHeaders::preorder(IR::P4Program *)` (commoningParser.cpp, lines
27-48), on the declarations of the program. -/
def ModifyHeaders.preorder_P4Program (self : CommonFields) (hdrName : String)
    (declarations : List Declaration) : List Declaration :=
  match mapFind self.newHeaders hdrName with
  | some newHdr =>
    insertBeforeFirst (fun d =>
      match d with
      | .header hdr => startsWith hdrName hdr.name
      | _ => false) (.header newHdr) declarations
  | none =>
    match mapFind self.modifiedHeaders hdrName with
    | some modHdr =>
      replaceFirst (fun d =>
        match d with
        | .header hdr => hdr.name = hdrName
        | _ => false) (.header modHdr) declarations
    | none => declarations

/-- Function `ModifyHeaders::preorder(IR::Type_Struct *)` (commoningParser.cpp, lines
50-56). -/
def ModifyHeaders.preorder_Type_Struct (self : CommonFields) (hdrName : String)
    (ts : Type_Struct) : Type_Struct :=
  if ts.name = "headers" ∧ (mapFind self.newHeaders hdrName).isSome then
    { ts with fields := ts.fields ++ [{ name := hdrName ++ "_in_hdr", type := .Type_Name hdrName }] }
  else ts

/-- The statement `packet.extract(hdr.<hdrName>_in_hdr);` that `postorder(IR::ParserState *)`
builds (commoningParser.cpp, lines 62-69); the call has no type argument. -/
def extractStatement (hdrName : String) : Statement :=
  .MethodCallStatement (.MethodCallExpression (.Member (.PathExpression "packet") "extract") []
    [] [.Member (.PathExpression "hdr") (hdrName ++ "_in_hdr")])

/-- The test of `ModifyHeaders::postorder(IR::ParserState *)` (commoningParser.cpp, lines
59-60): the state named `stateName` is in the set recorded for `hdrName`. -/
def ModifyHeaders.receivesExtract (self : CommonFields) (hdrName stateName : String) : Bool :=
  match self.headerExtractStates hdrName with
  | none => false
  | some states =>
    match mapFind self.parserStates stateName with
    | none => false
    | some p => p ∈ states

/-- Function `ModifyHeaders::postorder(IR::ParserState *)` (commoningParser.cpp, lines
58-73). -/
def ModifyHeaders.postorder_ParserState (self : CommonFields) (hdrName : String)
    (ps : ParserState) : ParserState :=
  if ModifyHeaders.receivesExtract self hdrName ps.name then
    { ps with components := extractStatement hdrName :: ps.components }
  else ps

/-- The loop over the remapped field names in `ModifyHeaders::preorder(IR::Member *)`
(commoningParser.cpp, lines 84-92): the new field name after the loop, if a position
matched.  Reading through a null header, beyond the end of its fields, or through the
null result of `mem->expr->to<IR::Member>()` is an error. -/
def ModifyHeaders.fieldLoop (newHdr : Option Type_Header) (exprIsMember : Bool)
    (field : String) : List String → Nat → Option String → Except String (Option String)
  | [], _, newField => .ok newField
  | name :: rest, pos, newField =>
    if name = field then
      match newHdr with
      | none => .error "null header"
      | some hdr =>
        match hdr.fields[pos]? with
        | none => .error "field index out of range"
        | some f =>
          if exprIsMember then ModifyHeaders.fieldLoop newHdr exprIsMember field rest (pos + 1)
            (some f.name)
          else .error "null member"
    else ModifyHeaders.fieldLoop newHdr exprIsMember field rest (pos + 1) newField

/-- Test `expr->to<IR::Member>()`. -/
def Expression.isMember : Expression → Bool
  | .Member _ _ => true
  | _ => false

/-- The decision of `ModifyHeaders::preorder(IR::Member *)` (commoningParser.cpp, lines
76-93) for the node `expr.member`: the new field name when the access is rewritten.
`typeOf expr` is the name of the header type of `expr`, when its type is a header. -/
def ModifyHeaders.newFieldName (self : CommonFields) (hdrName : String)
    (typeOf : Expression → Option String) (expr : Expression) (member : String) :
    Except String (Option String) :=
  match typeOf expr with
  | none => .ok none
  | some currHdrName =>
    if self.headerMap currHdrName = some hdrName then
      match self.remappedFields currHdrName with
      | none => .error "null remappedFields"
      | some names =>
        ModifyHeaders.fieldLoop (mapFind self.newHeaders hdrName) expr.isMember member names 0
          none
    else .ok none

/-- Function `ModifyHeaders::preorder(IR::Member *)` (commoningParser.cpp, lines 75-96) on
the node `expr.member`: the node it returns. -/
def ModifyHeaders.preorder_Member (self : CommonFields) (hdrName : String)
    (typeOf : Expression → Option String) (expr : Expression) (member : String) :
    Except String Expression :=
  match ModifyHeaders.newFieldName self hdrName typeOf expr member with
  | .error e => .error e
  | .ok none => .ok (.Member expr member)
  | .ok (some newField) =>
    match expr with
    | .Member inner _ => .ok (.Member (.Member inner (hdrName ++ "_in_hdr")) newField)
    | _ => .error "null member"

mutual
/-- Traversal of an expression by `ModifyHeaders`: at a member access the hook runs
first and the children of the node it returns are visited next.  When the hook has
rewritten `inner.h.f` into `inner.<hdrName>_in_hdr.g`, the child to visit is the
synthesized node `inner.<hdrName>_in_hdr`: it is passed as the old child `inner.h`
together with the member name that replaces `h` (`selector`). -/
def ModifyHeaders.visitExpression (self : CommonFields) (hdrName : String)
    (typeOf : Expression → Option String) (selector : Option String) :
    Expression → Except String Expression
  | .PathExpression name => .ok (.PathExpression name)
  | .Member expr member0 =>
    match ModifyHeaders.newFieldName self hdrName typeOf expr (selector.getD member0) with
    | .error e => .error e
    | .ok none =>
      match ModifyHeaders.visitExpression self hdrName typeOf none expr with
      | .error e => .error e
      | .ok e => .ok (.Member e (selector.getD member0))
    | .ok (some newField) =>
      if expr.isMember then
        match ModifyHeaders.visitExpression self hdrName typeOf
            (some (hdrName ++ "_in_hdr")) expr with
        | .error e => .error e
        | .ok e => .ok (.Member e newField)
      else .error "null member"
  | .MethodCallExpression method typeArguments dirs arguments =>
    match ModifyHeaders.visitExpression self hdrName typeOf none method with
    | .error e => .error e
    | .ok method =>
      match ModifyHeaders.visitExpressions self hdrName typeOf arguments with
      | .error e => .error e
      | .ok arguments => .ok (.MethodCallExpression method typeArguments dirs arguments)
  | .DefaultExpression => .ok .DefaultExpression
  | .Operation str operands =>
    match ModifyHeaders.visitExpressions self hdrName typeOf operands with
    | .error e => .error e
    | .ok operands => .ok (.Operation str operands)
  | .SelectExpression select selectCases =>
    match ModifyHeaders.visitExpressions self hdrName typeOf select with
    | .error e => .error e
    | .ok select =>
      match ModifyHeaders.visitSelectCases self hdrName typeOf selectCases with
      | .error e => .error e
      | .ok selectCases => .ok (.SelectExpression select selectCases)
/-- Traversal of an expression list. -/
def ModifyHeaders.visitExpressions (self : CommonFields) (hdrName : String)
    (typeOf : Expression → Option String) : List Expression → Except String (List Expression)
  | [] => .ok []
  | e :: es =>
    match ModifyHeaders.visitExpression self hdrName typeOf none e with
    | .error e => .error e
    | .ok e =>
      match ModifyHeaders.visitExpressions self hdrName typeOf es with
      | .error e => .error e
      | .ok es => .ok (e :: es)
/-- Traversal of the cases of a select expression. -/
def ModifyHeaders.visitSelectCases (self : CommonFields) (hdrName : String)
    (typeOf : Expression → Option String) :
    List (Expression × Expression) → Except String (List (Expression × Expression))
  | [] => .ok []
  | (keyset, state) :: cs =>
    match ModifyHeaders.visitExpression self hdrName typeOf none keyset with
    | .error e => .error e
    | .ok keyset =>
      match ModifyHeaders.visitExpression self hdrName typeOf none state with
      | .error e => .error e
      | .ok state =>
        match ModifyHeaders.visitSelectCases self hdrName typeOf cs with
        | .error e => .error e
        | .ok cs => .ok ((keyset, state) :: cs)
end

mutual
/-- Traversal of a statement by `ModifyHeaders`. -/
def ModifyHeaders.visitStatement (self : CommonFields) (hdrName : String)
    (typeOf : Expression → Option String) : Statement → Except String Statement
  | .AssignmentStatement left right =>
    match ModifyHeaders.visitExpression self hdrName typeOf none left with
    | .error e => .error e
    | .ok left =>
      match ModifyHeaders.visitExpression self hdrName typeOf none right with
      | .error e => .error e
      | .ok right => .ok (.AssignmentStatement left right)
  | .MethodCallStatement mc =>
    match ModifyHeaders.visitExpression self hdrName typeOf none mc with
    | .error e => .error e
    | .ok mc => .ok (.MethodCallStatement mc)
  | .IfStatement id condition ifTrue ifFalse =>
    match ModifyHeaders.visitExpression self hdrName typeOf none condition with
    | .error e => .error e
    | .ok condition =>
      match ModifyHeaders.visitStatement self hdrName typeOf ifTrue with
      | .error e => .error e
      | .ok ifTrue =>
        match ModifyHeaders.visitOptStatement self hdrName typeOf ifFalse with
        | .error e => .error e
        | .ok ifFalse => .ok (.IfStatement id condition ifTrue ifFalse)
  | .SwitchStatement id expression cases =>
    match ModifyHeaders.visitExpression self hdrName typeOf none expression with
    | .error e => .error e
    | .ok expression =>
      match ModifyHeaders.visitCases self hdrName typeOf cases with
      | .error e => .error e
      | .ok cases => .ok (.SwitchStatement id expression cases)
  | .BlockStatement components =>
    match ModifyHeaders.visitStatements self hdrName typeOf components with
    | .error e => .error e
    | .ok components => .ok (.BlockStatement components)
  | .EmptyStatement => .ok .EmptyStatement
/-- Traversal of an optional statement. -/
def ModifyHeaders.visitOptStatement (self : CommonFields) (hdrName : String)
    (typeOf : Expression → Option String) : Option Statement → Except String (Option Statement)
  | none => .ok none
  | some st =>
    match ModifyHeaders.visitStatement self hdrName typeOf st with
    | .error e => .error e
    | .ok st => .ok (some st)
/-- Traversal of a statement list. -/
def ModifyHeaders.visitStatements (self : CommonFields) (hdrName : String)
    (typeOf : Expression → Option String) : List Statement → Except String (List Statement)
  | [] => .ok []
  | st :: sts =>
    match ModifyHeaders.visitStatement self hdrName typeOf st with
    | .error e => .error e
    | .ok st =>
      match ModifyHeaders.visitStatements self hdrName typeOf sts with
      | .error e => .error e
      | .ok sts => .ok (st :: sts)
/-- Traversal of the cases of a switch statement. -/
def ModifyHeaders.visitCases (self : CommonFields) (hdrName : String)
    (typeOf : Expression → Option String) :
    List (Expression × Option Statement) →
      Except String (List (Expression × Option Statement))
  | [] => .ok []
  | (label, st) :: cs =>
    match ModifyHeaders.visitExpression self hdrName typeOf none label with
    | .error e => .error e
    | .ok label =>
      match ModifyHeaders.visitOptStatement self hdrName typeOf st with
      | .error e => .error e
      | .ok st =>
        match ModifyHeaders.visitCases self hdrName typeOf cs with
        | .error e => .error e
        | .ok cs => .ok ((label, st) :: cs)
end

/-- Traversal of a parser state by `ModifyHeaders`: the components and the select
expression are rewritten, then `postorder(IR::ParserState *)` runs. -/
def ModifyHeaders.visitParserState (self : CommonFields) (hdrName : String)
    (typeOf : Expression → Option String) (ps : ParserState) : Except String ParserState :=
  match ModifyHeaders.visitStatements self hdrName typeOf ps.components with
  | .error e => .error e
  | .ok components =>
    match ps.selectExpression with
    | none =>
      .ok (ModifyHeaders.postorder_ParserState self hdrName
        { ps with components := components })
    | some e =>
      match ModifyHeaders.visitExpression self hdrName typeOf none e with
      | .error e => .error e
      | .ok e =>
        .ok (ModifyHeaders.postorder_ParserState self hdrName
          { ps with components := components, selectExpression := some e })

/-- Traversal of the states of a parser by `ModifyHeaders`. -/
def ModifyHeaders.visitParserStates (self : CommonFields) (hdrName : String)
    (typeOf : Expression → Option String) : List ParserState → Except String (List ParserState)
  | [] => .ok []
  | ps :: rest =>
    match ModifyHeaders.visitParserState self hdrName typeOf ps with
    | .error e => .error e
    | .ok ps =>
      match ModifyHeaders.visitParserStates self hdrName typeOf rest with
      | .error e => .error e
      | .ok rest => .ok (ps :: rest)

/-- Traversal of the keys of a table by `ModifyHeaders`. -/
def ModifyHeaders.visitKeys (self : CommonFields) (hdrName : String)
    (typeOf : Expression → Option String) : List KeyElement → Except String (List KeyElement)
  | [] => .ok []
  | k :: ks =>
    match ModifyHeaders.visitExpression self hdrName typeOf none k.expression with
    | .error e => .error e
    | .ok e =>
      match ModifyHeaders.visitKeys self hdrName typeOf ks with
      | .error e => .error e
      | .ok ks => .ok ({ k with expression := e } :: ks)

/-- Traversal of the local declarations of a control by `ModifyHeaders`. -/
def ModifyHeaders.visitLocals (self : CommonFields) (hdrName : String)
    (typeOf : Expression → Option String) :
    List LocalDeclaration → Except String (List LocalDeclaration)
  | [] => .ok []
  | .action a :: ds =>
    match ModifyHeaders.visitStatements self hdrName typeOf a.body with
    | .error e => .error e
    | .ok body =>
      match ModifyHeaders.visitLocals self hdrName typeOf ds with
      | .error e => .error e
      | .ok ds => .ok (.action { a with body := body } :: ds)
  | .table t :: ds =>
    match ModifyHeaders.visitKeys self hdrName typeOf t.keys with
    | .error e => .error e
    | .ok keys =>
      match ModifyHeaders.visitLocals self hdrName typeOf ds with
      | .error e => .error e
      | .ok ds => .ok (.table { t with keys := keys } :: ds)

/-- Traversal of one declaration by `ModifyHeaders`. -/
def ModifyHeaders.visitDeclaration (self : CommonFields) (hdrName : String)
    (typeOf : Expression → Option String) : Declaration → Except String Declaration
  | .header h => .ok (.header h)
  | .struct ts => .ok (.struct (ModifyHeaders.preorder_Type_Struct self hdrName ts))
  | .other name => .ok (.other name)
  | .action a =>
    match ModifyHeaders.visitStatements self hdrName typeOf a.body with
    | .error e => .error e
    | .ok body => .ok (.action { a with body := body })
  | .control c =>
    match ModifyHeaders.visitLocals self hdrName typeOf c.controlLocals with
    | .error e => .error e
    | .ok locals =>
      match ModifyHeaders.visitStatement self hdrName typeOf c.body with
      | .error e => .error e
      | .ok body => .ok (.control { c with controlLocals := locals, body := body })
  | .parser p =>
    match ModifyHeaders.visitParserStates self hdrName typeOf p.states with
    | .error e => .error e
    | .ok states => .ok (.parser { p with states := states })

/-- Traversal of the declarations of the program by `ModifyHeaders`. -/
def ModifyHeaders.visitDeclarations (self : CommonFields) (hdrName : String)
    (typeOf : Expression → Option String) : List Declaration → Except String (List Declaration)
  | [] => .ok []
  | d :: ds =>
    match ModifyHeaders.visitDeclaration self hdrName typeOf d with
    | .error e => .error e
    | .ok d =>
      match ModifyHeaders.visitDeclarations self hdrName typeOf ds with
      | .error e => .error e
      | .ok ds => .ok (d :: ds)

/-- One application `p4p->apply(ModifyHeaders(*this, hdrName))`: the program hook, then
the traversal of the declarations it left. -/
def ModifyHeaders.apply (self : CommonFields) (hdrName : String)
    (typeOf : Expression → Option String) (p4p : P4Program) : Except String P4Program :=
  match ModifyHeaders.visitDeclarations self hdrName typeOf
      (ModifyHeaders.preorder_P4Program self hdrName p4p.declarations) with
  | .error e => .error e
  | .ok declarations => .ok { declarations := declarations }

/-- The loop `for (auto hdr : map) p4p = p4p->apply(ModifyHeaders(*this, hdr.first))`. -/
def CommonFields.applyEach (self : CommonFields) (typeOf : Expression → Option String)
    (p4p : P4Program) : List (String × Type_Header) → Except String P4Program
  | [] => .ok p4p
  | (hdrName, _) :: rest =>
    match ModifyHeaders.apply self hdrName typeOf p4p with
    | .error e => .error e
    | .ok p4p => CommonFields.applyEach self typeOf p4p rest

/-- Function `CommonFields::postorder(IR::P4Program *)` (commoningParser.cpp, lines
245-255). -/
def CommonFields.postorder_P4Program (self : CommonFields)
    (typeOf : Expression → Option String) (p4p : P4Program) : Except String P4Program :=
  match self.applyEach typeOf p4p self.newHeaders with
  | .error e => .error e
  | .ok p4p => self.applyEach typeOf p4p self.modifiedHeaders

/-- The `CommonFields` pass on a program: the analysis, then the rewrite.  The function
`typeOf` gives the name of the header type of an expression of the input program, when
its type is a header; an expression the rewrite builds has no such type. -/
def CommonFields.apply (typeOf : Expression → Option String) (pp : P4Program) :
    Except String P4Program :=
  match CommonFields.analyse pp with
  | .error e => .error e
  | .ok self => self.postorder_P4Program typeOf pp

/-! ## Reading the results of the commoning pass -/

/-- Whether a pass completed. -/
def succeeds {α : Type} : Except String α → Bool
  | .ok _ => true
  | .error _ => false

/-- The state of `CommonFields` after the analysis of a program (the initial state if the
analysis aborts). -/
def analysisOf (pp : P4Program) : CommonFields :=
  match CommonFields.analyse pp with
  | .ok s => s
  | .error _ => {}

/-- The state of `CommonFields` when the given header declarations and the states of a
parser have been visited, before `postorder(IR::P4Parser *)` runs (the initial state if
the traversal aborts). -/
def parsedStatesOf (hdrs : List Type_Header) (states : List ParserState) : CommonFields :=
  match CommonFields.visitParserStates (hdrs.foldl CommonFields.preorder_Type_Header {})
      states with
  | .ok s => s
  | .error _ => {}

/-- The `ParseStateInfo` recorded under a state name. -/
def stateInfo (s : CommonFields) (name : String) : Option ParseStateInfo :=
  match mapFind s.parserStates name with
  | some p => s.stateHeap[p]?
  | none => none

/-- The values of `leastCommonFields` and `hdr1` after the first loop over the successors
of the state with the given name. -/
def prefixLengthAt (s : CommonFields) (name : String) : Option (Nat × String) :=
  match stateInfo s name with
  | none => none
  | some state =>
    match leastCommonFieldsLoop s.headers (s.childrenOf state) (10000, "") with
    | .ok r => some r
    | .error _ => none

/-- The header declarations of a program, in order. -/
def declaredHeaders (pp : P4Program) : List Type_Header :=
  pp.declarations.filterMap (fun d =>
    match d with
    | .header h => some h
    | _ => none)

/-- The parser states of a program, in order. -/
def parserStatesOf (pp : P4Program) : List ParserState :=
  (pp.declarations.map (fun d =>
    match d with
    | .parser p => p.states
    | _ => [])).flatten

/-- The program after the pass (the input program if the pass aborts). -/
def rewrittenProgram (typeOf : Expression → Option String) (pp : P4Program) : P4Program :=
  match CommonFields.apply typeOf pp with
  | .ok p => p
  | .error _ => pp

/-- Whether the first component of a state is `packet.extract(hdr.<hdrName>_in_hdr);`. -/
def startsWithExtract (hdrName : String) (ps : ParserState) : Bool :=
  match ps.components with
  | .MethodCallStatement (.MethodCallExpression (.Member (.PathExpression "packet") "extract")
      [] [] [.Member (.PathExpression "hdr") field]) :: _ => field = hdrName ++ "_in_hdr"
  | _ => false

/-- The state of the rewritten program with the given name. -/
def rewrittenState (typeOf : Expression → Option String) (pp : P4Program) (name : String) :
    Option ParserState :=
  (parserStatesOf (rewrittenProgram typeOf pp)).find? (fun ps => ps.name = name)

/-- The width of a field: the size of its `Type_Bits`. -/
def StructField.width (f : StructField) : Option Nat := f.type.toBits

/-- The widths of the fields of a header, in order. -/
def Type_Header.widths (h : Type_Header) : List (Option Nat) := h.fields.map StructField.width

/-- All the fields of the header are fixed-width bit fields (`Type_Bits`). -/
def allFixedWidth (h : Type_Header) : Prop :=
  ∀ f ∈ h.fields, f.type.toBits.isSome = true

instance allFixedWidth_decidable (h : Type_Header) : Decidable (allFixedWidth h) :=
  inferInstanceAs (Decidable (∀ f ∈ h.fields, f.type.toBits.isSome = true))

/-- The records that the second loop of `postorder(IR::P4Parser *)` writes for a
successor header (commoningParser.cpp, lines 227-236): the header named `name`, declared
as `h`, is mapped to the common header `newName`, its first `L` field names are the
remapped fields, and its residual holds the fields from position `L` on. -/
def CommonFields.remappedOnto (s : CommonFields) (newName : String) (L : Nat) (name : String)
    (h : Type_Header) : Prop :=
  s.headerMap name = some newName ∧
    s.remappedFields name = some ((h.fields.take L).map (fun f => f.name)) ∧
    mapFind s.modifiedHeaders name = some { name := name, fields := h.fields.drop L }

instance remappedOnto_decidable (s : CommonFields) (newName : String) (L : Nat) (name : String)
    (h : Type_Header) : Decidable (s.remappedOnto newName L name h) :=
  inferInstanceAs (Decidable (s.headerMap name = some newName ∧
    s.remappedFields name = some ((h.fields.take L).map (fun f => f.name)) ∧
    mapFind s.modifiedHeaders name = some { name := name, fields := h.fields.drop L }))

/-! ## The programs of the commoning scenarios -/

/-- Type `bit<n>`. -/
def bit (n : Nat) : IRType := .Type_Bits n false

/-- Expression `hdr.<field>`. -/
def hdrField (field : String) : Expression := .Member (.PathExpression "hdr") field

/-- Statement `packet.extract<type>(hdr.<field>);`. -/
def extractCall (type field : String) : Statement :=
  .MethodCallStatement (.MethodCallExpression (.Member (.PathExpression "packet") "extract")
    [.Type_Name type] [.Out] [hdrField field])

/-- A state without statements that selects among the given successors. -/
def selectState (name : String) (targets : List String) : ParserState :=
  { name := name, components := [],
    selectExpression := some (.SelectExpression [.Member (.PathExpression "meta") "t"]
      (targets.map (fun t => (Expression.Operation "k" [], Expression.PathExpression t)))) }

/-- A state that extracts `hdr.<field>` of header type `type` and goes to `next`. -/
def extractState (name type field next : String) : ParserState :=
  { name := name, components := [extractCall type field],
    selectExpression := some (.PathExpression next) }

/-- A state without statements that goes to `next`. -/
def emptyState (name next : String) : ParserState :=
  { name := name, components := [], selectExpression := some (.PathExpression next) }

/-- The header type of `hdr.<field>` as declared by the fields of the struct `headers`:
the type that type checking stores in the expressions of the input program. -/
def hdrTypeOf (fields : List StructField) : Expression → Option String
  | .Member (.PathExpression "hdr") field =>
    match fields.find? (fun sf => sf.name = field) with
    | some sf =>
      match sf.type with
      | .Type_Name name => some name
      | _ => none
    | none => none
  | _ => none

/-- Header `A { bit<8> x; bit<16> y; bit<4> z; }`. -/
def headerA : Type_Header :=
  { name := "A", fields := [⟨"x", bit 8⟩, ⟨"y", bit 16⟩, ⟨"z", bit 4⟩] }

/-- Header `B { bit<8> x; bit<16> y; bit<8> w; }`. -/
def headerB : Type_Header :=
  { name := "B", fields := [⟨"x", bit 8⟩, ⟨"y", bit 16⟩, ⟨"w", bit 8⟩] }

/-- Header `B { bit<8> x; bit<12> y; bit<8> w; }` of scenario 2. -/
def headerB12 : Type_Header :=
  { name := "B", fields := [⟨"x", bit 8⟩, ⟨"y", bit 12⟩, ⟨"w", bit 8⟩] }

/-- Header `C { bit<8> x; varbit<32> v; }`. -/
def headerC : Type_Header :=
  { name := "C", fields := [⟨"x", bit 8⟩, ⟨"v", .Type_Varbits 32⟩] }

/-- Header `D { bit<8> x; bit<32> w; }`. -/
def headerD : Type_Header :=
  { name := "D", fields := [⟨"x", bit 8⟩, ⟨"w", bit 32⟩] }

/-- The fields `A a; B b;` of the struct `headers`. -/
def abFields : List StructField := [⟨"a", .Type_Name "A"⟩, ⟨"b", .Type_Name "B"⟩]

/-- An ingress control whose action reads `hdr.a.x`, `hdr.a.z` and `hdr.b.y`. -/
def readingControl : Declaration :=
  .control { name := "ingress", body := .EmptyStatement, controlLocals := [
    .action { name := "a1", body := [
      .AssignmentStatement (.Member (.PathExpression "meta") "v") (.Member (hdrField "a") "x"),
      .AssignmentStatement (.Member (.PathExpression "meta") "w") (.Member (hdrField "a") "z"),
      .AssignmentStatement (.Member (.PathExpression "meta") "u")
        (.Member (hdrField "b") "y")] }] }

/-- A program with the given headers, the struct `headers { A a; B b; }`, a parser with the
given states and the control `readingControl`. -/
def commoningProgram (hdrs : List Type_Header) (states : List ParserState) : P4Program :=
  { declarations := hdrs.map Declaration.header ++
      [.struct { name := "headers", fields := abFields },
       .parser { name := "ParserImpl", states := states }, readingControl] }

/-- Scenario 1: state `s0` goes to `s1`, which extracts `A`, and to `s2`, which extracts
`B`. -/
def commoningScenario1 : P4Program :=
  commoningProgram [headerA, headerB]
    [selectState "s0" ["s1", "s2"], extractState "s1" "A" "a" "accept",
     extractState "s2" "B" "b" "accept"]

/-- Scenario 2: scenario 1 where `B.y` is `bit<12>`. -/
def commoningScenario2 : P4Program :=
  commoningProgram [headerA, headerB12]
    [selectState "s0" ["s1", "s2"], extractState "s1" "A" "a" "accept",
     extractState "s2" "B" "b" "accept"]

/-- Both successors of `s0` extract the same header `A`. -/
def sameHeaderSuccessors : P4Program :=
  commoningProgram [headerA, headerB]
    [selectState "s0" ["s1", "s2"], extractState "s1" "A" "a" "accept",
     extractState "s2" "A" "a" "accept"]

/-- Scenario 3: the successors of `s0` extract `C`, with a `varbit` field, and `D`. -/
def varbitSuccessors : P4Program :=
  { declarations := [.header headerC, .header headerD,
      .struct { name := "headers", fields := [⟨"c", .Type_Name "C"⟩, ⟨"d", .Type_Name "D"⟩] },
      .parser { name := "ParserImpl", states := [
        selectState "s0" ["s1", "s2"], extractState "s1" "C" "c" "accept",
        extractState "s2" "D" "d" "accept"] }] }

/-- State `s0` goes to `s1`, which extracts nothing, to `s2`, which extracts `A`, and to
`s3`, which extracts `B`. -/
def emptySuccessorFirst : P4Program :=
  commoningProgram [headerA, headerB]
    [selectState "s0" ["s1", "s2", "s3"], emptyState "s1" "accept",
     extractState "s2" "A" "a" "accept", extractState "s3" "B" "b" "accept"]

/-- State `s0` goes to `s1`, which extracts `A`, to `s2`, which extracts `B`, and to `s3`,
which extracts nothing. -/
def emptySuccessorLast : P4Program :=
  commoningProgram [headerA, headerB]
    [selectState "s0" ["s1", "s2", "s3"], extractState "s1" "A" "a" "accept",
     extractState "s2" "B" "b" "accept", emptyState "s3" "accept"]

/-- Scenario 1 with a further state `s4` that extracts `A` and is reached from `s2`
only. -/
def extractElsewhere : P4Program :=
  commoningProgram [headerA, headerB]
    [selectState "s0" ["s1", "s2"], extractState "s1" "A" "a" "accept",
     extractState "s2" "B" "b" "s4", extractState "s4" "A" "a" "accept"]

/-- Scenario 1 in a program that already declares a header named `A_common_0`. -/
def reservedName : P4Program :=
  commoningProgram [{ name := "A_common_0", fields := [⟨"q", bit 8⟩] }, headerA, headerB]
    [selectState "s0" ["s1", "s2"], extractState "s1" "A" "a" "accept",
     extractState "s2" "B" "b" "accept"]

/-- The visitor state of scenario 1 when the parser states have been visited. -/
def scenario1Parsed : CommonFields :=
  parsedStatesOf [headerA, headerB] (parserStatesOf commoningScenario1)

/-- The record of the branching state `s0` of scenario 1. -/
def scenario1Branch : ParseStateInfo := (stateInfo scenario1Parsed "s0").getD {}

/-- The visitor state of the program `sameHeaderSuccessors` when the parser states have
been visited. -/
def sameHeaderParsed : CommonFields :=
  parsedStatesOf [headerA, headerB] (parserStatesOf sameHeaderSuccessors)

/-- The visitor state of the program `extractElsewhere` when the parser states have been
visited. -/
def extractElsewhereParsed : CommonFields :=
  parsedStatesOf [headerA, headerB] (parserStatesOf extractElsewhere)

/-- The record of the branching state `s0` of the program `extractElsewhere`. -/
def extractElsewhereBranch : ParseStateInfo := (stateInfo extractElsewhereParsed "s0").getD {}

/-- The values of `firstHeaderExtracted` and `lastHeaderExtracted` recorded for a
state. -/
def extractedHeaders (s : CommonFields) (name : String) : Option (String × String) :=
  (stateInfo s name).map (fun state => (state.firstHeaderExtracted, state.lastHeaderExtracted))

/-- The names of the successors of a state with their `firstHeaderExtracted`, in the
order the pass iterates them. -/
def successorHeaders (s : CommonFields) (name : String) : List (String × String) :=
  match stateInfo s name with
  | some state => (s.childrenOf state).map (fun c => (c.2.name, c.2.firstHeaderExtracted))
  | none => []

/-- Whether `sub` occurs in `s` as a substring. -/
def containsSubstring (s sub : String) : Bool :=
  s.data.tails.any (fun t => sub.data.isPrefixOf t)

/-- For each state of the rewritten program: its name, whether it starts with the extract
of `hdrName`, and the number of its components. -/
def extractReport (typeOf : Expression → Option String) (hdrName : String) (pp : P4Program) :
    List (String × Bool × Nat) :=
  (parserStatesOf (rewrittenProgram typeOf pp)).map (fun ps =>
    (ps.name, startsWithExtract hdrName ps, ps.components.length))

/-- The names of the states that are recorded in `headerExtractStates[hdrName]`. -/
def recordedExtractStates (s : CommonFields) (hdrName : String) : List String :=
  (s.parserStates.map Prod.fst).filter (fun name => ModifyHeaders.receivesExtract s hdrName name)

/-- The contribution of one action to the effect set of `var`, in the words of the
specification: the values of `edataflows[var]` and `NOCHANGE` when the action has
`edataflows` for `var`; else its scalar `dataflows[var]` when it has one; else
`NOCHANGE`. -/
def specContributes (action : FuncInfo) (var x : String) : Prop :=
  match action.edataflows var with
  | some vals => x ∈ vals ∨ x = DF_NOCHANGE
  | none =>
    match action.dataflows var with
    | some val => x = val
    | none => x = DF_NOCHANGE

/-- The visitor state `s2` agrees with `s` on what an assignment summary depends on: the
pointers `inferForFunc` and `inferForTable`, the name of the table behind
`inferForTable`, and the maps `dataflows` and `edataflows` of every action. -/
def ExtractVariables.sameDataflows (s s2 : ExtractVariables) : Prop :=
  s2.inferForFunc = s.inferForFunc ∧ s2.inferForTable = s.inferForTable ∧
    s2.tableName = s.tableName ∧
    ∀ k, (s2.maps.actions k).map (fun fi => (fi.dataflows, fi.edataflows))
      = (s.maps.actions k).map (fun fi => (fi.dataflows, fi.edataflows))

/-- The value an assignment records, in the words of the specification: the name of the
right-hand side when it is a path or a member access whose name starts with `hdr` or
`meta`, and `UNDEFINED` otherwise. -/
def specRecordedValue : Expression → String
  | .PathExpression name =>
    if startsWith name "hdr" ∨ startsWith name "meta" then name else DF_UNDEFINED
  | .Member expr member =>
    if startsWith (Expression.Member expr member).toString "hdr" ∨
        startsWith (Expression.Member expr member).toString "meta" then
      (Expression.Member expr member).toString
    else DF_UNDEFINED
  | _ => DF_UNDEFINED

/-- The value recorded by the last assignment to `L` in a sequence of assignments
`(left, right)`, if there is one. -/
def lastRecorded (assigns : List (Expression × Expression)) (L : String) : Option String :=
  (assigns.reverse.find? (fun p => getVariableName p.1 = L)).map (fun p =>
    specRecordedValue p.2)

/-- The values recorded by all the assignments to `L` in a sequence of assignments. -/
def allRecorded (assigns : List (Expression × Expression)) (L : String) : Finset String :=
  ((assigns.filter (fun p => getVariableName p.1 = L)).map (fun p =>
    specRecordedValue p.2)).toFinset

/-- The assignment statements of a sequence of pairs `(left, right)`. -/
def assignmentStatements (assigns : List (Expression × Expression)) : List Statement :=
  assigns.map (fun p => Statement.AssignmentStatement p.1 p.2)

/-! ## Reading the table-flow graph -/

/-- The predecessor set of node `n` (empty for a pointer outside the arena). -/
def parentsAt (heap : List TableInfo) (n : Nat) : Finset Nat :=
  ((heap[n]?).map (fun t => t.parents)).getD ∅

/-- The successor set of node `n`. -/
def childrenAt (heap : List TableInfo) (n : Nat) : Finset Nat :=
  ((heap[n]?).map (fun t => t.children)).getD ∅

/-- The flag `dataflowComputed` of node `n`. -/
def computedAt (heap : List TableInfo) (n : Nat) : Bool :=
  ((heap[n]?).map (fun t => t.dataflowComputed)).getD false

/-- The depth of node `n`. -/
def depthAt (heap : List TableInfo) (n : Nat) : Int :=
  ((heap[n]?).map (fun t => t.depth)).getD 0

/-- The entry `dataflows[var]` of node `n`, empty when there is none. -/
def postAt (heap : List TableInfo) (n : Nat) (var : String) : Finset String :=
  ((heap[n]?).bind (fun t => t.dataflows var)).getD ∅

/-- There is an edge `p → n` in the table-flow graph: `p` is a predecessor of `n`. -/
def flowEdge (heap : List TableInfo) (p n : Nat) : Prop := p ∈ parentsAt heap n

/-- The predecessor and successor sets describe one graph on the nodes of the arena:
every pointer is allocated, and `p` is a predecessor of `n` exactly when `n` is a
successor of `p`. -/
def FlowGraph (heap : List TableInfo) : Prop :=
  ∀ n, n < heap.length →
    (∀ p ∈ parentsAt heap n, p < heap.length ∧ n ∈ childrenAt heap p) ∧
    (∀ c ∈ childrenAt heap n, c < heap.length ∧ n ∈ parentsAt heap c)

/-- The table-flow graph has no directed cycle (and so no self-loop). -/
def Acyclic (heap : List TableInfo) : Prop :=
  ∀ n, ¬ Relation.TransGen (flowEdge heap) n n

/-- Every node of the arena is reachable from `start`. -/
def AllReachable (heap : List TableInfo) (start : Nat) : Prop :=
  ∀ n, n < heap.length → Relation.ReflTransGen (flowEdge heap) start n

/-- The merge of the specification over the predecessors of `n`: `{UNDEFINED}` when the
post-state of a predecessor contains `UNDEFINED`, otherwise the union of the post-states
of the predecessors. -/
def specMergePreds (heap : List TableInfo) (n : Nat) (var : String) : Finset String :=
  if ∃ p ∈ parentsAt heap n, DF_UNDEFINED ∈ postAt heap p var then {DF_UNDEFINED}
  else (parentsAt heap n).biUnion (fun p => postAt heap p var)

/-- Node `n` is uncomputed and all its predecessors are computed. -/
def readyAt (heap : List TableInfo) (n : Nat) : Prop :=
  n < heap.length ∧ computedAt heap n = false ∧ ∀ p ∈ parentsAt heap n, computedAt heap p = true

/-- The number of uncomputed nodes. -/
def uncomputed (heap : List TableInfo) : Nat :=
  ((Finset.range heap.length).filter (fun n => computedAt heap n = false)).card

/-- Every computed node has a post-state for every variable of the solver. -/
def hasDataflows (variableSet : Finset String) (heap : List TableInfo) : Prop :=
  ∀ (n : Nat) (t : TableInfo), heap[n]? = some t → t.dataflowComputed = true →
    ∀ var ∈ variableSet, (t.dataflows var).isSome = true

/-- The solver equations at node `n` of `heap2`, with the effect sets read from `heap`:
the predecessors of `n` are computed, `keyDataflows[var]` is the merge over the
predecessors and `dataflows[var]` is the transfer of it through the effect set of the
table (`{NOCHANGE}` when the table has none), for every variable of the solver. -/
def solvedAt (variableSet : Finset String) (heap heap2 : List TableInfo) (n : Nat) : Prop :=
  ∃ (t0 t : TableInfo), heap[n]? = some t0 ∧ heap2[n]? = some t ∧
    (∀ p ∈ parentsAt heap2 n, computedAt heap2 p = true) ∧
    ∀ var ∈ variableSet,
      t.keyDataflows var = some (specMergePreds heap2 n var) ∧
      t.dataflows var = some (specTransfer (specMergePreds heap2 n var)
        ((t0.dataflows var).getD {DF_NOCHANGE})) ∧
      (t0.dataflows var = none → t.dataflows var = t.keyDataflows var)

/-- The arena `heap2` is a later stage of the solver than `heap`: the graph is the same,
computed nodes are frozen, uncomputed nodes are untouched, and the nodes computed in
between satisfy the solver equations. -/
def solverStep (variableSet : Finset String) (heap heap2 : List TableInfo) : Prop :=
  heap2.length = heap.length ∧
    (∀ n, parentsAt heap2 n = parentsAt heap n ∧ childrenAt heap2 n = childrenAt heap n) ∧
    (∀ n, computedAt heap n = true → heap2[n]? = heap[n]?) ∧
    (∀ n, computedAt heap2 n = false → heap2[n]? = heap[n]?) ∧
    (∀ n, computedAt heap n = false → computedAt heap2 n = true →
      solvedAt variableSet heap heap2 n)

instance FlowGraph_decidable (heap : List TableInfo) : Decidable (FlowGraph heap) :=
  inferInstanceAs (Decidable (∀ n, n < heap.length →
    (∀ p ∈ parentsAt heap n, p < heap.length ∧ n ∈ childrenAt heap p) ∧
    (∀ c ∈ childrenAt heap n, c < heap.length ∧ n ∈ parentsAt heap c)))

instance flowEdge_decidable (heap : List TableInfo) (p n : Nat) : Decidable (flowEdge heap p n) :=
  inferInstanceAs (Decidable (p ∈ parentsAt heap n))

/-- The names of the nodes of the arena, by pointer. -/
def nodeNames (heap : List TableInfo) : List String := heap.map (fun t => t.name)

/-- The edges `(p, n)` of the table-flow graph read from the successor sets, by
pointers. -/
def flowEdges (heap : List TableInfo) : List (Nat × Nat) :=
  ((List.range heap.length).map (fun p =>
    (orderedPtrs heap (childrenAt heap p)).map (fun n => (p, n)))).flatten

/-- The depths of the nodes of the arena, by pointer. -/
def depthsOf (heap : List TableInfo) : List Int := heap.map (fun t => t.depth)

/-- The flags `dataflowComputed` of the nodes of the arena, by pointer. -/
def computedOf (heap : List TableInfo) : List Bool := heap.map (fun t => t.dataflowComputed)

/-- The list of nodes is a directed path of the table-flow graph. -/
def isFlowPath (heap : List TableInfo) : List Nat → Bool
  | [] => true
  | [_] => true
  | p :: n :: rest => decide (n ∈ childrenAt heap p) && isFlowPath heap (n :: rest)

/-- Statement `if (x) { t.apply(); ... } else { t.apply(); ... }` with the tables of each
branch. -/
def ifElse (id : Int) (thenTables elseTables : List String) : Statement :=
  .IfStatement id (.PathExpression "x") (.BlockStatement (thenTables.map applyStatement))
    (some (.BlockStatement (elseTables.map applyStatement)))

/-- A program with an empty parser and an ingress control that declares the given tables
(keyed on `meta.a`, no action but `NoAction`) and has the given body. -/
def flowProgram (tables : List String) (body : List Statement) : P4Program :=
  { declarations := [
      parserWith [],
      .control { name := "ingress", controlLocals := tables.map keyTable,
                 body := .BlockStatement body }] }

/-- Program `if (x) { B.apply(); C.apply(); } else { C.apply(); B.apply(); }`. -/
def cyclicFlow : P4Program := flowProgram ["B", "C"] [ifElse 7 ["B", "C"] ["C", "B"]]

/-- Program `if (x) { A.apply(); B.apply(); } else { B.apply(); }`. -/
def shallowFlow : P4Program := flowProgram ["A", "B"] [ifElse 7 ["A", "B"] ["B"]]

/-- Statement `switch (t.apply().action_run) { a1: { } default: { } }`. -/
def switchOn (id : Int) (t : String) : Statement :=
  .SwitchStatement id
    (.Member (.MethodCallExpression (.Member (.PathExpression t) "apply") [] [] []) "action_run")
    [(.PathExpression "a1", some (.BlockStatement [])),
     (.DefaultExpression, some (.BlockStatement []))]

/-- Program `if (x) switch (t1.apply().action_run) {...} else switch
(t2.apply().action_run) {...}; t3.apply();`. -/
def twoSwitches : P4Program :=
  flowProgram ["t1", "t2", "t3"]
    [.IfStatement 7 (.PathExpression "x") (switchOn 8 "t1") (some (switchOn 9 "t2")),
     applyStatement "t3"]

/-- Header `A { bit<8> x; bit<8> y; bit<4> z; }`. -/
def headerA8 : Type_Header :=
  { name := "A", fields := [⟨"x", bit 8⟩, ⟨"y", bit 8⟩, ⟨"z", bit 4⟩] }

/-- Header `B { bit<8> x; bit<8> y; bit<8> w; }`. -/
def headerB8 : Type_Header :=
  { name := "B", fields := [⟨"x", bit 8⟩, ⟨"y", bit 8⟩, ⟨"w", bit 8⟩] }

/-- Header `C { bit<8> x; bit<16> v; }`. -/
def headerC16 : Type_Header :=
  { name := "C", fields := [⟨"x", bit 8⟩, ⟨"v", bit 16⟩] }

/-- The fields `A a; B b; C c;` of the struct `headers`. -/
def abcFields : List StructField :=
  [⟨"a", .Type_Name "A"⟩, ⟨"b", .Type_Name "B"⟩, ⟨"c", .Type_Name "C"⟩]

/-- The header `A` is first-extracted by a successor of two branching states: `s0` goes
to `s1`, which extracts `A`, and to `s2`, which extracts `B`; `s2` goes to `s3`, which
extracts `A`, and to `s4`, which extracts `C`. -/
def sharedHeader : P4Program :=
  { declarations := [.header headerA8, .header headerB8, .header headerC16,
      .struct { name := "headers", fields := abcFields },
      .parser { name := "ParserImpl", states := [
        selectState "s0" ["s1", "s2"], extractState "s1" "A" "a" "accept",
        { name := "s2", components := [extractCall "B" "b"],
          selectExpression := (selectState "s2" ["s3", "s4"]).selectExpression },
        extractState "s3" "A" "a" "accept", extractState "s4" "C" "c" "accept"] }] }

/-- A parser whose state `s1` extracts `A`, then `B`. -/
def twoExtracts : P4Program :=
  commoningProgram [headerA, headerB]
    [{ name := "s1", components := [extractCall "A" "a", extractCall "B" "b"],
       selectExpression := some (.PathExpression "accept") }]

/-- The names and field names of the headers in `newHeaders`. -/
def newHeaderFields (s : CommonFields) : List (String × List String) :=
  s.newHeaders.map (fun p => (p.1, p.2.fields.map (fun f => f.name)))

/-- The names and field names of the headers in `modifiedHeaders`. -/
def modifiedHeaderFields (s : CommonFields) : List (String × List String) :=
  s.modifiedHeaders.map (fun p => (p.1, p.2.fields.map (fun f => f.name)))

/-- The outcome of `flow_merge` on two visitors: the current node and the number of nodes
of the arena afterwards. -/
def mergeOutcome (v a : GenerateTableFlow) : Option (Nat × Nat) :=
  match v.flow_merge a with
  | .ok v2 => some (v2.curr, v2.heap.length)
  | .error _ => none

/-- The visitor of `GenerateTableFlow` on scenario 6 when the table flow is built:
`StartTable → parser → t1 → t2`. -/
def scenario6Flow : GenerateTableFlow := builtFlow scenario6

/-- The visitor of `GenerateTableFlow` on the program `scenario4_actionRead` when the table
flow is built: `StartTable → parser → t`, where the parser has the effect set
`{hdr.h.f, NOCHANGE}` for `meta.a`. -/
def actionReadFlow : GenerateTableFlow := builtFlow scenario4_actionRead

/-- The visitor state of `ExtractVariables` inside the action `a1` of a program whose
summaries are still empty, as `preorder(const IR::P4Action *)` sets it up. -/
def insideAction_a1 : ExtractVariables :=
  { maps := { actions := setKey (fun _ => none) "a1" {} }, inferForFunc := some "a1" }

/-! ## Harmless tables: the upstream check of `ModifyHarmlessTable` -/

/-- The set `actions[act]->reads`, empty for a null pointer. -/
def readsOf (actions : String → Option FuncInfo) (act : String) : Finset String :=
  match actions act with
  | some fi => fi.reads
  | none => ∅

/-- The set `actions[act]->writes`, empty for a null pointer. -/
def writesOf (actions : String → Option FuncInfo) (act : String) : Finset String :=
  match actions act with
  | some fi => fi.writes
  | none => ∅

/-- The loops over the actions in `ModifyHarmlessTable::checkUpstreamTables`
(copyVariableDetection.cpp, lines 535-545): an action of `tbl` reads a variable that an
action of `curr` writes.  `actions[act]` of an action that was never visited is a null
pointer, and reading through it is an error (`none`). -/
def ModifyHarmlessTable.upstreamConflict (actions : String → Option FuncInfo)
    (t c : TableInfo) : Option Bool :=
  if (∀ act ∈ t.actions, (actions act).isSome) ∧ (∀ act ∈ c.actions, (actions act).isSome) then
    if ∃ act1 ∈ t.actions, ∃ act2 ∈ c.actions, ∃ varr ∈ readsOf actions act1,
        count (writesOf actions act2) varr > 0 then some true
    else some false
  else none

/-- The loop `for (auto parent : curr->parents) noConflict = noConflict & visit(parent);`
(copyVariableDetection.cpp, lines 547-550): every parent is visited, also after a
conflict. -/
def ModifyHarmlessTable.parentsLoop (visit : Nat → Except String Bool) :
    List Nat → Bool → Except String Bool
  | [], noConflict => .ok noConflict
  | parent :: parents, noConflict =>
    match visit parent with
    | .error e => .error e
    | .ok r => ModifyHarmlessTable.parentsLoop visit parents (noConflict && r)

/-- Function `ModifyHarmlessTable::checkUpstreamTables` (copyVariableDetection.cpp, lines
528-552).  The depth of the recursion is bounded by `fuel`. -/
def ModifyHarmlessTable.checkUpstreamTables (m : Maps) : Nat → Nat → Nat → Except String Bool
  | 0, _, _ => .error "out of fuel"
  | fuel + 1, tbl, curr =>
    match m.heap[tbl]?, m.heap[curr]? with
    | some t, some c =>
      if c.ifId ≠ t.ifId then .ok true
      else
        match ModifyHarmlessTable.upstreamConflict m.actions t c with
        | none => .error "null action"
        | some true => .ok false
        | some false =>
          ModifyHarmlessTable.parentsLoop (ModifyHarmlessTable.checkUpstreamTables m fuel tbl)
            (orderedPtrs m.heap c.parents) true
    | _, _ => .error "null table"

/-- The upstream check of `ModifyHarmlessTable::checkHarmless` (copyVariableDetection.cpp,
lines 473-475): `upstream` is false for a table without parents and otherwise the result
of `checkUpstreamTables` on the first parent, `*(tbl->parents.begin())`. -/
def ModifyHarmlessTable.upstream (m : Maps) (fuel : Nat) (tbl : Nat) : Except String Bool :=
  match m.heap[tbl]? with
  | none => .error "null table"
  | some t =>
    match (orderedPtrs m.heap t.parents).head? with
    | none => .ok false
    | some parent => ModifyHarmlessTable.checkUpstreamTables m fuel tbl parent

/-- The `ifId` of node `n`. -/
def ifIdAt (heap : List TableInfo) (n : Nat) : Int :=
  ((heap[n]?).map (fun t => t.ifId)).getD 0

/-- The action names of node `n`. -/
def actionsAt (heap : List TableInfo) (n : Nat) : Finset String :=
  ((heap[n]?).map (fun t => t.actions)).getD ∅

/-- An action of node `p` writes a variable that an action of node `n` reads. -/
def writesWhatReads (m : Maps) (p n : Nat) : Prop :=
  ∃ act1 ∈ actionsAt m.heap n, ∃ act2 ∈ actionsAt m.heap p,
    ∃ varr ∈ readsOf m.actions act1, varr ∈ writesOf m.actions act2

instance writesWhatReads_decidable (m : Maps) (p n : Nat) : Decidable (writesWhatReads m p n) :=
  inferInstanceAs (Decidable (∃ act1 ∈ actionsAt m.heap n, ∃ act2 ∈ actionsAt m.heap p,
    ∃ varr ∈ readsOf m.actions act1, varr ∈ writesOf m.actions act2))

/-- Upstream safety of the specification: no transitive predecessor of `tbl` with the
`ifId` of `tbl` has an action that writes a variable that an action of `tbl` reads. -/
def specUpstreamSafe (m : Maps) (tbl : Nat) : Prop :=
  ∀ p, Relation.TransGen (flowEdge m.heap) p tbl → ifIdAt m.heap p = ifIdAt m.heap tbl →
    ¬ writesWhatReads m p tbl

/-- The result of the upstream check on the table with the given name, with as much fuel
as the arena has nodes. -/
def upstreamOf (m : Maps) (name : String) : Option Bool :=
  match m.tables name with
  | none => none
  | some tbl =>
    match ModifyHarmlessTable.upstream m m.heap.length tbl with
    | .ok r => some r
    | .error _ => none

/-- The `ifId`s of the nodes of the arena, by pointer. -/
def ifIdsOf (heap : List TableInfo) : List Int := heap.map (fun t => t.ifId)

/-- The reads and the writes of the summary of an action. -/
def actionReadsWrites (m : Maps) (action : String) : Option (Finset String × Finset String) :=
  (m.actions action).map (fun fi : FuncInfo => (fi.reads, fi.writes))

/-- Expression `meta.b`. -/
def meta_b : Expression := .Member (.PathExpression "meta") "b"

/-- An ingress control with the tables `Y` (action `aY`: `meta.a = hdr.h.f;`), `A` (no
action but `NoAction`) and `T` (action `aT`: `meta.b = meta.a;`), in the given order of
declaration, and the given body. -/
def harmlessProgram (tables : List LocalDeclaration) (body : List Statement) : P4Program :=
  { declarations := [
      parserWith [],
      .control { name := "ingress",
                 controlLocals :=
                   [assignAction "aY" meta_a hdr_h_f, assignAction "aT" meta_b meta_a] ++ tables,
                 body := .BlockStatement body }] }

/-- Program `if (x) { Y.apply(); if (y) { A.apply(); } T.apply(); }`. -/
def cutShort : P4Program :=
  harmlessProgram [actionTable "Y" "aY", keyTable "A", actionTable "T" "aT"]
    [.IfStatement 7 (.PathExpression "x")
      (.BlockStatement [applyStatement "Y",
        .IfStatement 8 (.PathExpression "y") (applyStatement "A") none,
        applyStatement "T"]) none]

/-- Program `if (x) { A.apply(); T.apply(); } else { Y.apply(); T.apply(); }`, with `A`
declared before `Y`. -/
def secondParent : P4Program :=
  harmlessProgram [keyTable "A", actionTable "Y" "aY", actionTable "T" "aT"]
    [ifElse 7 ["A", "T"] ["Y", "T"]]

/-- Program `if (x) { Y.apply(); T.apply(); }`. -/
def directParent : P4Program :=
  harmlessProgram [actionTable "Y" "aY", keyTable "A", actionTable "T" "aT"]
    [.IfStatement 7 (.PathExpression "x")
      (.BlockStatement [applyStatement "Y", applyStatement "T"]) none]

/-! ## The solver with a log of the computed nodes -/

/-- The loop `for (auto child : tbl->children) computeDataflows(child);` on the arena and
the log. -/
def forEachChildLogged
    (visit : List TableInfo × List Nat → Nat → Except String (List TableInfo × List Nat)) :
    List TableInfo × List Nat → List Nat → Except String (List TableInfo × List Nat)
  | s, [] => .ok s
  | s, child :: children =>
    match visit s child with
    | .error e => .error e
    | .ok s => forEachChildLogged visit s children

/-- Function `GenerateTableFlow::computeDataflows` (copyVariableDetection.cpp, lines
185-211) with a ghost log: a node is appended to the log when the call passes the two
early returns and its dataflows are computed (lines 193-207). -/
def computeDataflowsLogged (variableSet : Finset String) :
    Nat → List TableInfo × List Nat → Nat → Except String (List TableInfo × List Nat)
  | 0, _, _ => .error "out of fuel"
  | fuel + 1, (heap, log), tbl =>
    match heap[tbl]? with
    | none => .error "null table"
    | some t =>
      if t.dataflowComputed then .ok (heap, log)
      else if (orderedPtrs heap t.parents).any (fun parent =>
          match heap[parent]? with
          | some pt => !pt.dataflowComputed
          | none => true) then .ok (heap, log)
      else
        match computeNode variableSet heap t with
        | none => .error "null dataflow"
        | some t2 =>
          forEachChildLogged (computeDataflowsLogged variableSet fuel)
            (heap.set tbl t2, log ++ [tbl]) (orderedPtrs heap t.children)

/-- The solver phase `solveDataflows` with the ghost log, which starts empty. -/
def solveDataflowsLogged (variableSet : Finset String) (heap : List TableInfo) (start : Nat) :
    Except String (List TableInfo × List Nat) :=
  let heap := seedStart variableSet heap start
  match heap[start]? with
  | none => .error "null table"
  | some st =>
    forEachChildLogged (computeDataflowsLogged variableSet (heap.length + 1)) (heap, [])
      (orderedPtrs heap st.children)

/-- The log of the solver phase on the table flow of a program (empty when it fails). -/
def solverLog (pp : P4Program) : List Nat :=
  match solveDataflowsLogged (builtFlow pp).variableSet (builtFlow pp).heap (builtFlow pp).start with
  | .ok (_, log) => log
  | .error _ => []

/-- Every computed node of the arena has, for every variable of the solver, a post-state
that is a normalised lattice element. -/
def normalisedPosts (variableSet : Finset String) (heap : List TableInfo) : Prop :=
  ∀ (n : Nat) (t : TableInfo), heap[n]? = some t → t.dataflowComputed = true →
    ∀ var ∈ variableSet, ∃ D, t.dataflows var = some D ∧ normalised D

/-- The nodes of `added` are the nodes computed between the arena `heap` and the later
arena `heap2`: each occurs once, was uncomputed in `heap` and is computed in `heap2`; the
computed nodes of `heap` stay computed, and no other node is computed in `heap2`. -/
def loggedStep (heap heap2 : List TableInfo) (added : List Nat) : Prop :=
  added.Nodup ∧
    (∀ n ∈ added, computedAt heap n = false ∧ computedAt heap2 n = true) ∧
    (∀ n, computedAt heap n = true → computedAt heap2 n = true) ∧
    (∀ n, computedAt heap2 n = true → computedAt heap n = true ∨ n ∈ added)

/-! ## Basic facts about the set loops -/

theorem foldr_insertVal (df1 df2 : Finset String) :
    Multiset.foldr insertVal df1 df2.val = df1 ∪ df2 := by
  induction df2 using Finset.induction_on with
  | empty => simp
  | insert h ih =>
    rw [Finset.insert_val_of_not_mem h, Multiset.foldr_cons, ih, insertVal]
    ext t
    simp only [Finset.mem_insert, Finset.mem_union]
    tauto

theorem foldr_insertValUnlessNoChange (df1 df2 : Finset String) :
    Multiset.foldr insertValUnlessNoChange df1 df2.val
      = df1 ∪ df2.filter (fun t => t ≠ DF_NOCHANGE) := by
  induction df2 using Finset.induction_on with
  | empty => simp
  | insert h ih =>
    rename_i a s
    rw [Finset.insert_val_of_not_mem h, Multiset.foldr_cons, ih, insertValUnlessNoChange]
    ext t
    by_cases ha : a = DF_NOCHANGE
    · subst ha
      simp only [ne_eq, not_true_eq_false, if_false, Finset.mem_union, Finset.mem_filter,
        Finset.mem_insert]
      tauto
    · simp only [ne_eq, ha, not_false_eq_true, if_true, Finset.mem_union, Finset.mem_filter,
        Finset.mem_insert]
      constructor
      · rintro (rfl | h1 | h2)
        · exact Or.inr ⟨Or.inl rfl, ha⟩
        · exact Or.inl h1
        · exact Or.inr ⟨Or.inr h2.1, h2.2⟩
      · rintro (h1 | ⟨rfl | h2, h3⟩)
        · exact Or.inr (Or.inl h1)
        · exact Or.inl rfl
        · exact Or.inr (Or.inr ⟨h2, h3⟩)

theorem count_pos_iff (s : Finset String) (x : String) : count s x > 0 ↔ x ∈ s := by
  unfold count; split_ifs with h <;> simp [h]

theorem count_eq_zero_iff (s : Finset String) (x : String) : count s x = 0 ↔ x ∉ s := by
  unfold count; split_ifs with h <;> simp [h]

theorem count_eq_one_iff (s : Finset String) (x : String) : count s x = 1 ↔ x ∈ s := by
  unfold count; split_ifs with h <;> simp [h]

theorem mergeDataflow_eq_specMerge (A B : Finset String) :
    mergeDataflow A B = specMerge A B := by
  unfold mergeDataflow specMerge
  have hc : count A DF_UNDEFINED + count B DF_UNDEFINED > 0 ↔
      (DF_UNDEFINED ∈ A ∨ DF_UNDEFINED ∈ B) := by
    rw [← count_pos_iff, ← count_pos_iff]; omega
  by_cases h : DF_UNDEFINED ∈ A ∨ DF_UNDEFINED ∈ B
  · rw [if_pos (hc.mpr h), if_pos h]; rfl
  · rw [if_neg (fun h1 => h (hc.mp h1)), if_neg h, foldr_insertVal]

theorem applyDataflow_eq_specTransfer (X E : Finset String) :
    applyDataflow X E = specTransfer X E := by
  unfold applyDataflow specTransfer
  simp only [foldr_insertValUnlessNoChange, count_eq_zero_iff, count_pos_iff]
  split_ifs <;> rfl

/-! ## The lattice operations -/

/-- C7: `mergeDataflow` is the merge of the lattice: for all token sets `A` and `B` the
result is `{UNDEFINED}` if `A` or `B` contains `UNDEFINED` and the set union of `A` and
`B` otherwise; in particular merging any set with `{UNDEFINED}` gives `{UNDEFINED}`. -/
theorem mergeDataflow_is_lattice_merge (A B : Finset String) :
    mergeDataflow A B
        = (if DF_UNDEFINED ∈ A ∨ DF_UNDEFINED ∈ B then {DF_UNDEFINED} else A ∪ B) ∧
      mergeDataflow A {DF_UNDEFINED} = {DF_UNDEFINED} := by
  refine ⟨mergeDataflow_eq_specMerge A B, ?_⟩
  rw [mergeDataflow_eq_specMerge, specMerge, if_pos (Or.inr (Finset.mem_singleton_self _))]

theorem specTransfer_absorb (X E : Finset String) (h : DF_UNDEFINED ∈ E) :
    specTransfer X E = {DF_UNDEFINED} := by
  unfold specTransfer
  have hne : DF_UNDEFINED ≠ DF_NOCHANGE := by decide
  have hmem : DF_UNDEFINED ∈
      (if DF_NOCHANGE ∉ E then ∅ else X) ∪ E.filter (fun t => t ≠ DF_NOCHANGE) :=
    Finset.mem_union_right _ (Finset.mem_filter.mpr ⟨h, hne⟩)
  simp only [hmem, if_true]

/-- C8: `applyDataflow` is the transfer of the specification (clear `X` when `E` does not
contain `NOCHANGE`, add every token of `E` other than `NOCHANGE`, collapse to
`{UNDEFINED}` if the result contains `UNDEFINED`); in particular the result is
`{UNDEFINED}` for every `X` whenever `E` contains `UNDEFINED`. -/
theorem applyDataflow_is_transfer (X E : Finset String) :
    applyDataflow X E = specTransfer X E ∧
      (DF_UNDEFINED ∈ E → applyDataflow X E = {DF_UNDEFINED}) := by
  refine ⟨applyDataflow_eq_specTransfer X E, fun h => ?_⟩
  rw [applyDataflow_eq_specTransfer]
  exact specTransfer_absorb X E h

/-- Witness of C8 on an effect set that holds `UNDEFINED` and `NOCHANGE`. -/
theorem applyDataflow_is_transfer_witness :
    DF_UNDEFINED ∈ ({DF_UNDEFINED, DF_NOCHANGE} : Finset String) ∧
      applyDataflow {"hdr.h.f"} {DF_UNDEFINED, DF_NOCHANGE} = {DF_UNDEFINED} :=
  ⟨by decide, (applyDataflow_is_transfer {"hdr.h.f"} {DF_UNDEFINED, DF_NOCHANGE}).2 (by decide)⟩

theorem specTransfer_of_noChange (X E : Finset String) (h : DF_NOCHANGE ∈ E) :
    specTransfer X E =
      if DF_UNDEFINED ∈ X ∨ DF_UNDEFINED ∈ E then {DF_UNDEFINED}
      else X ∪ E.filter (fun t => t ≠ DF_NOCHANGE) := by
  unfold specTransfer
  have hne : DF_UNDEFINED ≠ DF_NOCHANGE := by decide
  simp only [h, not_true_eq_false, if_false, Finset.mem_union, Finset.mem_filter, ne_eq, hne,
    not_false_eq_true, and_true]

/-- On a set that holds both `NOCHANGE` and `UNDEFINED`, which `prepareDataflow` never
builds, the transfer is not monotone: the transfer of `{INITIAL}` through
`{NOCHANGE, UNDEFINED}` is `{UNDEFINED}`, which is no superset of `{INITIAL}`. -/
theorem applyDataflow_not_superset :
    DF_NOCHANGE ∈ ({DF_NOCHANGE, DF_UNDEFINED} : Finset String) ∧
      applyDataflow {DF_INITIAL} {DF_NOCHANGE, DF_UNDEFINED} = {DF_UNDEFINED} ∧
      ¬ ({DF_INITIAL} ⊆ applyDataflow {DF_INITIAL} {DF_NOCHANGE, DF_UNDEFINED}) := by
  decide

/-- The transfer as a function of arbitrary sets: for every set `X` and every set `E`
that contains `NOCHANGE`, the result is a superset of `X` exactly when neither `X` nor `E`
contains `UNDEFINED`, or `X` is empty or `{UNDEFINED}`; in particular it is a superset
of every normalised `X` when `E` does not contain `UNDEFINED`. -/
theorem applyDataflow_superset_iff (X E : Finset String) (h : DF_NOCHANGE ∈ E) :
    (X ⊆ applyDataflow X E ↔
        (DF_UNDEFINED ∉ X ∧ DF_UNDEFINED ∉ E) ∨ X ⊆ {DF_UNDEFINED}) ∧
      (normalised X → DF_UNDEFINED ∉ E → X ⊆ applyDataflow X E) := by
  have key : X ⊆ applyDataflow X E ↔
      (DF_UNDEFINED ∉ X ∧ DF_UNDEFINED ∉ E) ∨ X ⊆ {DF_UNDEFINED} := by
    rw [applyDataflow_eq_specTransfer, specTransfer_of_noChange X E h]
    by_cases hu : DF_UNDEFINED ∈ X ∨ DF_UNDEFINED ∈ E
    · rw [if_pos hu]
      constructor
      · intro hs; exact Or.inr hs
      · rintro (⟨h1, h2⟩ | hs)
        · exact absurd hu (by tauto)
        · exact hs
    · rw [if_neg hu]
      constructor
      · intro _; exact Or.inl (by tauto)
      · intro _; exact Finset.subset_union_left
  refine ⟨key, fun hn hE => ?_⟩
  rw [key]
  by_cases hX : DF_UNDEFINED ∈ X
  · exact Or.inr (by rw [hn.2 hX])
  · exact Or.inl ⟨hX, hE⟩

/-- The characterisation of the monotone case on the parser effect of a copy. -/
theorem applyDataflow_superset_iff_witness :
    DF_NOCHANGE ∈ ({"hdr.h.f", DF_NOCHANGE} : Finset String) ∧
      (({DF_INITIAL} : Finset String) ⊆ applyDataflow {DF_INITIAL} {"hdr.h.f", DF_NOCHANGE} ↔
        (DF_UNDEFINED ∉ ({DF_INITIAL} : Finset String) ∧
          DF_UNDEFINED ∉ ({"hdr.h.f", DF_NOCHANGE} : Finset String)) ∨
        ({DF_INITIAL} : Finset String) ⊆ {DF_UNDEFINED}) :=
  ⟨by decide, (applyDataflow_superset_iff {DF_INITIAL} {"hdr.h.f", DF_NOCHANGE} (by decide)).1⟩

/-- C10, amended: if the input contains `UNDEFINED`, the transfer result is
`{UNDEFINED}` exactly when the effect set contains `NOCHANGE` or `UNDEFINED`; an effect
set with neither replaces the input. -/
theorem applyDataflow_undefined_iff (X E : Finset String) (h : DF_UNDEFINED ∈ X) :
    (applyDataflow X E = {DF_UNDEFINED} ↔ DF_NOCHANGE ∈ E ∨ DF_UNDEFINED ∈ E) ∧
      (DF_NOCHANGE ∉ E → DF_UNDEFINED ∉ E → applyDataflow X E = E) := by
  have hne : DF_UNDEFINED ≠ DF_NOCHANGE := by decide
  have hrepl : DF_NOCHANGE ∉ E → DF_UNDEFINED ∉ E → applyDataflow X E = E := by
    intro hn hu
    rw [applyDataflow_eq_specTransfer]
    unfold specTransfer
    have hf : E.filter (fun t => t ≠ DF_NOCHANGE) = E := by
      apply Finset.filter_true_of_mem
      intro t ht hc
      exact hn (hc ▸ ht)
    simp only [hn, not_false_eq_true, if_true, Finset.empty_union, hf, hu, if_false]
  refine ⟨?_, hrepl⟩
  constructor
  · intro heq
    by_contra hc
    push_neg at hc
    rw [hrepl hc.1 hc.2] at heq
    exact hc.2 (heq ▸ Finset.mem_singleton_self _)
  · rintro (hn | hu)
    · rw [applyDataflow_eq_specTransfer, specTransfer_of_noChange X E hn, if_pos (Or.inl h)]
    · rw [applyDataflow_eq_specTransfer]
      exact specTransfer_absorb X E hu

/-- Witness of the amended C10 on a pass-through effect set. -/
theorem applyDataflow_undefined_iff_witness :
    DF_UNDEFINED ∈ ({DF_UNDEFINED} : Finset String) ∧
      applyDataflow {DF_UNDEFINED} {"hdr.h.g", DF_NOCHANGE} = {DF_UNDEFINED} :=
  ⟨by decide,
    ((applyDataflow_undefined_iff {DF_UNDEFINED} {"hdr.h.g", DF_NOCHANGE} (by decide)).1).mpr
      (Or.inl (by decide))⟩

/-- C10 fails as stated: the transfer of `{UNDEFINED}` through the effect set
`{hdr.h.g}` is `{hdr.h.g}`; in the program `overwrite` the table `t2` has the input
`{UNDEFINED}` and the post-state `{hdr.h.g}` for `meta.a`. -/
theorem applyDataflow_undefined_overwritten :
    DF_UNDEFINED ∈ ({DF_UNDEFINED} : Finset String) ∧
      applyDataflow {DF_UNDEFINED} {"hdr.h.g"} = {"hdr.h.g"} ∧
      applyDataflow {DF_UNDEFINED} {"hdr.h.g"} ≠ {DF_UNDEFINED} ∧
      keyDataflowAt (mapsOf overwrite) "t2" "meta.a" = some {DF_UNDEFINED} ∧
      dataflowAt (summaryOf overwrite) "t2" "meta.a" = some {"hdr.h.g"} ∧
      dataflowAt (mapsOf overwrite) "t2" "meta.a" = some {"hdr.h.g"} := by
  decide

/-! ## Copy detection -/

theorem isCopyObservation_iff (D : Finset String) :
    isCopyObservation D = true ↔
      (∃ t, t ≠ DF_UNDEFINED ∧ D = {t}) ∨ (∃ t, t ≠ DF_INITIAL ∧ D = {DF_INITIAL, t}) := by
  unfold isCopyObservation
  simp only [decide_eq_true_eq, count_eq_zero_iff, count_eq_one_iff]
  constructor
  · rintro (⟨h1, h2⟩ | ⟨h1, h2⟩)
    · obtain ⟨a, rfl⟩ := Finset.card_eq_one.mp h1
      refine Or.inl ⟨a, ?_, rfl⟩
      intro ha
      exact h2 (ha ▸ Finset.mem_singleton_self a)
    · obtain ⟨x, y, hxy, rfl⟩ := Finset.card_eq_two.mp h1
      rcases Finset.mem_insert.mp h2 with h | h
      · exact Or.inr ⟨y, fun hy => hxy (h ▸ hy.symm), by rw [h]⟩
      · have hy : DF_INITIAL = y := Finset.mem_singleton.mp h
        exact Or.inr ⟨x, fun hx => hxy (hx.trans hy), by rw [hy, Finset.pair_comm]⟩
  · rintro (⟨t, ht, rfl⟩ | ⟨t, ht, rfl⟩)
    · refine Or.inl ⟨Finset.card_singleton t, ?_⟩
      intro h
      exact ht (Finset.mem_singleton.mp h).symm
    · exact Or.inr ⟨Finset.card_pair (fun h => ht h.symm), Finset.mem_insert_self _ _⟩

theorem isCopyObservation_normalised (D : Finset String) (hD : normalised D) :
    isCopyObservation D = true ↔ D = {DF_INITIAL} ∨ specCopyObservation D := by
  have hIU : DF_INITIAL ≠ DF_UNDEFINED := by decide
  rw [isCopyObservation_iff]
  constructor
  · rintro (⟨t, ht, rfl⟩ | ⟨t, ht, rfl⟩)
    · by_cases hI : t = DF_INITIAL
      · exact Or.inl (by rw [hI])
      · refine Or.inr (Or.inl ⟨t, ⟨hI, ht, ?_⟩, rfl⟩)
        intro hN
        exact hD.1 (hN ▸ Finset.mem_singleton_self t)
    · refine Or.inr (Or.inr ⟨t, ⟨ht, ?_, ?_⟩, rfl⟩)
      · intro hU
        have hmem : DF_UNDEFINED ∈ ({DF_INITIAL, t} : Finset String) := by
          rw [hU]; exact Finset.mem_insert_of_mem (Finset.mem_singleton_self _)
        have heq := hD.2 hmem
        have : DF_INITIAL ∈ ({DF_UNDEFINED} : Finset String) := by
          rw [← heq]; exact Finset.mem_insert_self _ _
        exact hIU (Finset.mem_singleton.mp this)
      · intro hN
        exact hD.1 (hN ▸ Finset.mem_insert_of_mem (Finset.mem_singleton_self t))
  · rintro (rfl | ⟨src, hs, rfl⟩ | ⟨src, hs, rfl⟩)
    · exact Or.inl ⟨DF_INITIAL, hIU, rfl⟩
    · exact Or.inl ⟨src, hs.2.1, rfl⟩
    · exact Or.inr ⟨src, hs.1, rfl⟩

/-- C1 fails as stated: the lattice element `{INITIAL}` is classified as a copy
observation although it is neither a singleton source field nor `{INITIAL, src}`; in the
program `readBeforeWrite` the key of `t0` observes `{INITIAL}` for `meta.a`, no other
observation is made, and `meta.a` ends in `copyCandidates`. -/
theorem initial_is_copy_observation :
    isCopyObservation {DF_INITIAL} = true ∧ ¬ specCopyObservation {DF_INITIAL} ∧
      observations (mapsOf readBeforeWrite) readBeforeWrite = [("meta.a", {DF_INITIAL})] ∧
      candidates readBeforeWrite = some ({"meta.a"}, ∅) := by
  refine ⟨by decide, ?_, by decide, by decide⟩
  rintro (⟨src, hs, h⟩ | ⟨src, hs, h⟩)
  · have : src = DF_INITIAL := by
      have hm : src ∈ ({DF_INITIAL} : Finset String) := h ▸ Finset.mem_singleton_self src
      exact Finset.mem_singleton.mp hm
    exact hs.1 this
  · have hc : ({DF_INITIAL, src} : Finset String).card = 2 :=
      Finset.card_pair (fun e => hs.1 e.symm)
    rw [← h] at hc
    exact absurd hc (by decide)

/-- C1, amended: a lattice element `D` is classified as a copy observation if and only
if `D` is a singleton other than `{UNDEFINED}` or a two-element set that contains
`INITIAL`, and as a non-copy observation otherwise; for a normalised lattice element
that is: `D` is `{INITIAL}`, a singleton source field, or `{INITIAL, src}` for a source
field `src`. -/
theorem isCopyObservation_classification (D : Finset String) :
    (isCopyObservation D = true ↔
        (∃ t, t ≠ DF_UNDEFINED ∧ D = {t}) ∨ (∃ t, t ≠ DF_INITIAL ∧ D = {DF_INITIAL, t})) ∧
      (normalised D →
        (isCopyObservation D = true ↔ D = {DF_INITIAL} ∨ specCopyObservation D)) :=
  ⟨isCopyObservation_iff D, isCopyObservation_normalised D⟩

/-- Witness of the amended C1 on the lattice element `{INITIAL, hdr.h.f}`. -/
theorem isCopyObservation_classification_witness :
    normalised {DF_INITIAL, "hdr.h.f"} ∧
      (isCopyObservation {DF_INITIAL, "hdr.h.f"} = true ↔
        ({DF_INITIAL, "hdr.h.f"} : Finset String) = {DF_INITIAL} ∨
          specCopyObservation {DF_INITIAL, "hdr.h.f"}) :=
  ⟨⟨by decide, by decide⟩,
    (isCopyObservation_classification {DF_INITIAL, "hdr.h.f"}).2 ⟨by decide, by decide⟩⟩

theorem DetectCopy.run_append (obs : List (String × Finset String)) (o : String × Finset String) :
    DetectCopy.run (obs ++ [o]) = (DetectCopy.run obs).observe o.1 o.2 := by
  simp [DetectCopy.run, List.foldl_append]

/-- The invariant of the candidate sets: `nonCopyCandidates` holds the variables with a
non-copy observation, and `copyCandidates` those with a copy observation that are not
in `nonCopyCandidates`. -/
theorem DetectCopy.run_invariant (obs : List (String × Finset String)) (v : String) :
    (v ∈ (DetectCopy.run obs).nonCopyCandidates ↔
        ∃ o ∈ obs, o.1 = v ∧ isCopyObservation o.2 = false) ∧
      (v ∈ (DetectCopy.run obs).copyCandidates ↔
        (∃ o ∈ obs, o.1 = v ∧ isCopyObservation o.2 = true) ∧
          v ∉ (DetectCopy.run obs).nonCopyCandidates) := by
  induction obs using List.reverseRecOn with
  | nil => simp [DetectCopy.run]
  | append_singleton obs o ih =>
    obtain ⟨ihn, ihc⟩ := ih
    rw [DetectCopy.run_append]
    unfold DetectCopy.observe
    by_cases hcopy : isCopyObservation o.2 = true
    · rw [if_pos hcopy]
      have hnon : ∀ s : DetectCopy, (v ∈ s.nonCopyCandidates ↔
          ∃ o2 ∈ obs, o2.1 = v ∧ isCopyObservation o2.2 = false) →
          (v ∈ s.nonCopyCandidates ↔
            ∃ o2 ∈ obs ++ [o], o2.1 = v ∧ isCopyObservation o2.2 = false) := by
        intro s hs
        rw [hs]
        constructor
        · rintro ⟨o2, h1, h2⟩
          exact ⟨o2, List.mem_append_left _ h1, h2⟩
        · rintro ⟨o2, h1, h2, h3⟩
          rcases List.mem_append.mp h1 with h | h
          · exact ⟨o2, h, h2, h3⟩
          · rw [List.mem_singleton.mp h, hcopy] at h3
            exact absurd h3 (by decide)
      by_cases hv : count (DetectCopy.run obs).nonCopyCandidates o.1 = 0
      · rw [if_pos hv]
        rw [count_eq_zero_iff] at hv
        refine ⟨hnon _ ihn, ?_⟩
        simp only [Finset.mem_insert]
        constructor
        · rintro (rfl | h)
          · exact ⟨⟨o, List.mem_append_right _ (List.mem_singleton_self o), rfl, hcopy⟩, hv⟩
          · obtain ⟨⟨o2, h1, h2⟩, h3⟩ := ihc.mp h
            exact ⟨⟨o2, List.mem_append_left _ h1, h2⟩, h3⟩
        · rintro ⟨⟨o2, h1, h2, h3⟩, h4⟩
          rcases List.mem_append.mp h1 with h | h
          · exact Or.inr (ihc.mpr ⟨⟨o2, h, h2, h3⟩, h4⟩)
          · rw [List.mem_singleton.mp h] at h2
            exact Or.inl h2.symm
      · rw [if_neg hv]
        have hv2 : o.1 ∈ (DetectCopy.run obs).nonCopyCandidates := by
          by_contra hc
          exact hv ((count_eq_zero_iff _ _).mpr hc)
        refine ⟨hnon _ ihn, ?_⟩
        rw [ihc]
        constructor
        · rintro ⟨⟨o2, h1, h2⟩, h3⟩
          exact ⟨⟨o2, List.mem_append_left _ h1, h2⟩, h3⟩
        · rintro ⟨⟨o2, h1, h2, h3⟩, h4⟩
          rcases List.mem_append.mp h1 with h | h
          · exact ⟨⟨o2, h, h2, h3⟩, h4⟩
          · rw [List.mem_singleton.mp h] at h2
            exact absurd (h2 ▸ hv2) h4
    · rw [if_neg hcopy]
      have hfalse : isCopyObservation o.2 = false := by
        cases h : isCopyObservation o.2
        · rfl
        · exact absurd h hcopy
      have hn : v ∈ insert o.1 (DetectCopy.run obs).nonCopyCandidates ↔
          ∃ o2 ∈ obs ++ [o], o2.1 = v ∧ isCopyObservation o2.2 = false := by
        rw [Finset.mem_insert, ihn]
        constructor
        · rintro (rfl | ⟨o2, h1, h2⟩)
          · exact ⟨o, List.mem_append_right _ (List.mem_singleton_self o), rfl, hfalse⟩
          · exact ⟨o2, List.mem_append_left _ h1, h2⟩
        · rintro ⟨o2, h1, h2, h3⟩
          rcases List.mem_append.mp h1 with h | h
          · exact Or.inr ⟨o2, h, h2, h3⟩
          · rw [List.mem_singleton.mp h] at h2
            exact Or.inl h2.symm
      refine ⟨hn, ?_⟩
      simp only [Finset.mem_erase, Finset.mem_insert, ihc]
      constructor
      · rintro ⟨h1, ⟨o2, h2, h3⟩, h4⟩
        refine ⟨⟨o2, List.mem_append_left _ h2, h3⟩, ?_⟩
        rintro (h | h)
        · exact h1 h
        · exact h4 h
      · rintro ⟨⟨o2, h1, h2, h3⟩, h4⟩
        push_neg at h4
        refine ⟨h4.1, ?_, h4.2⟩
        rcases List.mem_append.mp h1 with h | h
        · exact ⟨o2, h, h2, h3⟩
        · rw [List.mem_singleton.mp h, hfalse] at h3
          exact absurd h3 (by decide)

theorem foldl_filterMap_observe (m : Maps) (sites : List (Context × Expression))
    (s : DetectCopy) :
    sites.foldl (DetectCopy.postorder m) s =
      (sites.filterMap (fun site => observation m site.1 site.2)).foldl
        (fun s o => s.observe o.1 o.2) s := by
  induction sites generalizing s with
  | nil => rfl
  | cons site sites ih =>
    rw [List.foldl_cons, ih]
    unfold DetectCopy.postorder
    cases h : observation m site.1 site.2 with
    | none => simp [List.filterMap_cons, h]
    | some o => simp [List.filterMap_cons, h]

/-- The pass makes exactly the updates of its observations, in order. -/
theorem DetectCopy.apply_eq_run (m : Maps) (pp : P4Program) :
    DetectCopy.apply m pp = DetectCopy.run (observations m pp) := by
  unfold DetectCopy.apply DetectCopy.run observations
  exact foldl_filterMap_observe m (programSites pp) {}

theorem DetectCopy.mem_copyCandidates_iff (obs : List (String × Finset String)) (v : String) :
    v ∈ (DetectCopy.run obs).copyCandidates ↔
      (∃ o ∈ obs, o.1 = v ∧ isCopyObservation o.2 = true) ∧
        (∀ o ∈ obs, o.1 = v → isCopyObservation o.2 = true) := by
  obtain ⟨hn, hc⟩ := DetectCopy.run_invariant obs v
  rw [hc, hn]
  constructor
  · rintro ⟨h1, h2⟩
    refine ⟨h1, fun o ho hv => ?_⟩
    cases h : isCopyObservation o.2
    · exact absurd ⟨o, ho, hv, h⟩ h2
    · rfl
  · rintro ⟨h1, h2⟩
    refine ⟨h1, ?_⟩
    rintro ⟨o, ho, hv, hf⟩
    rw [h2 o ho hv] at hf
    exact absurd hf (by decide)

theorem DetectCopy.disjoint_candidates (obs : List (String × Finset String)) :
    Disjoint (DetectCopy.run obs).copyCandidates (DetectCopy.run obs).nonCopyCandidates := by
  rw [Finset.disjoint_left]
  intro v hv
  exact ((DetectCopy.run_invariant obs v).2.mp hv).2

/-- C2: for every sequence of observations, in whatever order, the final
`copyCandidates` contains `v` if and only if `v` has at least one copy observation and no
non-copy observation; `copyCandidates` and `nonCopyCandidates` are disjoint after every
step (after every prefix of the sequence); and the pass on a program is the run over its
observations. -/
theorem copyCandidates_characterisation (obs : List (String × Finset String)) (v : String) :
    (v ∈ (DetectCopy.run obs).copyCandidates ↔
        (∃ o ∈ obs, o.1 = v ∧ isCopyObservation o.2 = true) ∧
          ¬ (∃ o ∈ obs, o.1 = v ∧ isCopyObservation o.2 = false)) ∧
      (∀ k, Disjoint (DetectCopy.run (obs.take k)).copyCandidates
        (DetectCopy.run (obs.take k)).nonCopyCandidates) ∧
      (∀ m pp, DetectCopy.apply m pp = DetectCopy.run (observations m pp)) := by
  refine ⟨?_, fun k => DetectCopy.disjoint_candidates _, DetectCopy.apply_eq_run⟩
  obtain ⟨hn, hc⟩ := DetectCopy.run_invariant obs v
  rw [hc, hn]

/-- C3 fails as stated: in the program `twoSources` the variable `meta.a` ends in
`copyCandidates`, its observations are `{hdr.h.f}` and then `{hdr.h.g}`, and no single
`src` makes every observation `{src}` or `{INITIAL, src}`. -/
theorem copy_candidate_with_two_sources :
    candidates twoSources = some ({"meta.a"}, ∅) ∧
      observations (mapsOf twoSources) twoSources
        = [("meta.a", {"hdr.h.f"}), ("meta.a", {"hdr.h.g"})] ∧
      ¬ ∃ src : String, ∀ o ∈ observations (mapsOf twoSources) twoSources,
          o.1 = "meta.a" → o.2 = {src} ∨ o.2 = {DF_INITIAL, src} := by
  have hobs : observations (mapsOf twoSources) twoSources
      = [("meta.a", {"hdr.h.f"}), ("meta.a", {"hdr.h.g"})] := by decide!
  refine ⟨by decide!, hobs, ?_⟩
  rw [hobs]
  rintro ⟨src, h⟩
  have hf : ({"hdr.h.f"} : Finset String) = {src} ∨ ({"hdr.h.f"} : Finset String) = {DF_INITIAL, src} :=
    h ("meta.a", {"hdr.h.f"}) (by simp) rfl
  have hg : ({"hdr.h.g"} : Finset String) = {src} ∨ ({"hdr.h.g"} : Finset String) = {DF_INITIAL, src} :=
    h ("meta.a", {"hdr.h.g"}) (by simp) rfl
  have hIf : DF_INITIAL ≠ "hdr.h.f" := by decide
  have hIg : DF_INITIAL ≠ "hdr.h.g" := by decide
  have hfg : ("hdr.h.f" : String) ≠ "hdr.h.g" := by decide
  have e1 : src = "hdr.h.f" := by
    rcases hf with hf | hf
    · exact (Finset.singleton_injective hf).symm
    · exact absurd (Finset.mem_singleton.mp (hf ▸ Finset.mem_insert_self DF_INITIAL {src})) hIf
  have e2 : src = "hdr.h.g" := by
    rcases hg with hg | hg
    · exact (Finset.singleton_injective hg).symm
    · exact absurd (Finset.mem_singleton.mp (hg ▸ Finset.mem_insert_self DF_INITIAL {src})) hIg
  exact hfg (e1.symm.trans e2)

/-- C3, amended: whenever `v` is in the final `copyCandidates` of the pass, `v` has been
observed, and at every observation of `v` the observed lattice element was a singleton
other than `{UNDEFINED}` or a two-element set `{INITIAL, t}`; the token `t` may differ
from one observation to the next. -/
theorem copy_soundness (m : Maps) (pp : P4Program) (v : String)
    (h : v ∈ (DetectCopy.apply m pp).copyCandidates) :
    (∃ o ∈ observations m pp, o.1 = v) ∧
      ∀ o ∈ observations m pp, o.1 = v →
        (∃ t, t ≠ DF_UNDEFINED ∧ o.2 = {t}) ∨ (∃ t, t ≠ DF_INITIAL ∧ o.2 = {DF_INITIAL, t}) := by
  rw [DetectCopy.apply_eq_run, DetectCopy.mem_copyCandidates_iff] at h
  obtain ⟨⟨o, ho, hv, _⟩, hall⟩ := h
  exact ⟨⟨o, ho, hv⟩, fun o2 ho2 hv2 => (isCopyObservation_iff o2.2).mp (hall o2 ho2 hv2)⟩

/-- Witness of the amended C3 on the program `scenario4_actionRead`. -/
theorem copy_soundness_witness :
    "meta.a" ∈ (DetectCopy.apply (mapsOf scenario4_actionRead) scenario4_actionRead).copyCandidates ∧
      ∀ o ∈ observations (mapsOf scenario4_actionRead) scenario4_actionRead, o.1 = "meta.a" →
        (∃ t, t ≠ DF_UNDEFINED ∧ o.2 = {t}) ∨ (∃ t, t ≠ DF_INITIAL ∧ o.2 = {DF_INITIAL, t}) :=
  ⟨by decide,
    (copy_soundness (mapsOf scenario4_actionRead) scenario4_actionRead "meta.a" (by decide)).2⟩

/-! ## The end-to-end scenarios -/

/-- C4 on the code: in scenario 4 no applied action reads or writes `meta.a`, so the
solver's variable set is empty and no node gets a key dataflow for `meta.a`; the key of
`t` makes no observation, the parser observes its own unsolved effect set
`{hdr.h.f, NOCHANGE}`, and `meta.a` ends in `nonCopyCandidates`, not in
`copyCandidates`.  When an action of `t` also reads `meta.a`, the key of `t` observes
`{INITIAL, hdr.h.f}` and `meta.a` is a copy candidate. -/
theorem scenario4_not_copy_candidate :
    solverVariables scenario4 = some ∅ ∧
      dataflowAt (summaryOf scenario4) "parser" "meta.a" = some {DF_NOCHANGE, "hdr.h.f"} ∧
      keyDataflowAt (mapsOf scenario4) "t" "meta.a" = none ∧
      dataflowAt (mapsOf scenario4) "t" "meta.a" = none ∧
      observations (mapsOf scenario4) scenario4 = [("meta.a", {DF_NOCHANGE, "hdr.h.f"})] ∧
      isCopyObservation {DF_NOCHANGE, "hdr.h.f"} = false ∧
      candidates scenario4 = some (∅, {"meta.a"}) ∧
      keyDataflowAt (mapsOf scenario4_actionRead) "t" "meta.a" = some {"hdr.h.f", DF_INITIAL} ∧
      candidates scenario4_actionRead = some ({"meta.a"}, ∅) := by
  decide!

/-- C5: in scenario 5 the value of `meta.a` merged at the if-converge node is
`{hdr.h.f, hdr.h.g}`, the key of the downstream table `t3` observes that set, it is the
only observation, it is a non-copy observation, and `meta.a` is not in `copyCandidates`
(it is in `nonCopyCandidates`). -/
theorem scenario5_branch_defeats_copy :
    dataflowAt (mapsOf scenario5) "t1" "meta.a" = some {"hdr.h.f"} ∧
      dataflowAt (mapsOf scenario5) "t2" "meta.a" = some {"hdr.h.g"} ∧
      keyDataflowAt (mapsOf scenario5) "ifConvergeTable7" "meta.a"
        = some {"hdr.h.g", "hdr.h.f"} ∧
      dataflowAt (mapsOf scenario5) "ifConvergeTable7" "meta.a" = some {"hdr.h.g", "hdr.h.f"} ∧
      keyDataflowAt (mapsOf scenario5) "t3" "meta.a" = some {"hdr.h.g", "hdr.h.f"} ∧
      observations (mapsOf scenario5) scenario5 = [("meta.a", {"hdr.h.g", "hdr.h.f"})] ∧
      isCopyObservation {"hdr.h.g", "hdr.h.f"} = false ∧
      candidates scenario5 = some (∅, {"meta.a"}) := by
  decide!

/-- C6: an assignment whose right-hand side is an operation records `UNDEFINED`; in
scenario 6 the action records `UNDEFINED` for `meta.a`, the effect set and the post-state
of the enclosing table `t1` for `meta.a` are `{UNDEFINED}`, the observation of `meta.a`
taken after it (at the key of `t2`) is `{UNDEFINED}`, every observation of `meta.a` is a
non-copy observation, and `meta.a` is not in `copyCandidates`. -/
theorem scenario6_undefined_poisons_copy :
    (∀ str operands, assignedValue (.Operation str operands) = DF_UNDEFINED) ∧
      actionDataflow (summaryOf scenario6) "a1" "meta.a" = some DF_UNDEFINED ∧
      dataflowAt (summaryOf scenario6) "t1" "meta.a" = some {DF_UNDEFINED} ∧
      dataflowAt (mapsOf scenario6) "t1" "meta.a" = some {DF_UNDEFINED} ∧
      keyDataflowAt (mapsOf scenario6) "t2" "meta.a" = some {DF_UNDEFINED} ∧
      observations (mapsOf scenario6) scenario6 = [("meta.a", {DF_UNDEFINED})] ∧
      (∀ o ∈ observations (mapsOf scenario6) scenario6,
        o.1 = "meta.a" → isCopyObservation o.2 = false) ∧
      candidates scenario6 = some (∅, {"meta.a"}) := by
  have hobs : observations (mapsOf scenario6) scenario6 = [("meta.a", {DF_UNDEFINED})] := by
    decide!
  refine ⟨fun str operands => rfl, by decide!, by decide!, by decide!, by decide!, hobs, ?_,
    by decide!⟩
  rw [hobs]
  intro o ho _
  rw [List.mem_singleton.mp ho]
  decide

/-! ## Table-flow construction: general facts -/

theorem modifyNode_length (heap : List TableInfo) (p : Nat) (f : TableInfo → TableInfo) :
    (modifyNode heap p f).length = heap.length := by
  unfold modifyNode
  cases heap[p]? <;> simp

theorem getElem?_modifyNode (heap : List TableInfo) (p : Nat) (f : TableInfo → TableInfo)
    (q : Nat) :
    (modifyNode heap p f)[q]? = if q = p then (heap[q]?).map f else heap[q]? := by
  unfold modifyNode
  cases h : heap[p]? with
  | none =>
    by_cases hq : q = p
    · subst hq; simp [h]
    · simp [hq]
  | some t =>
    by_cases hq : q = p
    · subst hq
      have hlt : q < heap.length := by
        by_contra hc
        rw [List.getElem?_eq_none (by omega)] at h
        simp at h
      simp [List.getElem?_set, h, hlt]
    · have hpq : ¬ p = q := fun e => hq e.symm
      simp [List.getElem?_set, hq, hpq]

/-- Claim C23.  Applying the table node `tbl` while the current node is `curr` (both
allocated, every action of the table summarised, the if-stack non-empty inside a
conditional) fails if and only if `tbl` is `curr` or `tbl` has a positive depth strictly
smaller than the depth of `curr`; otherwise it returns, `curr` is added to the parents of
`tbl` and `tbl` to the children of `curr`, the depth of `tbl` becomes the depth of `curr`
plus one, `tbl` is the current node, and no other parent set, children set or depth of
the graph changes. -/
theorem applyTable_fails_iff (actions : String → Option FuncInfo) (v : GenerateTableFlow)
    (ctx : Context) (tbl : Nat) (t c : TableInfo)
    (ht : v.heap[tbl]? = some t) (hc : v.heap[v.curr]? = some c)
    (hacts : ∀ act ∈ t.actions, (actions act).isSome = true)
    (hstack : ctx.ifStatement = true ∨ v.insideSwitch = true →
      v.ifIds ≠ [] ∧ v.ifConditions ≠ []) :
    (succeeds (v.applyTable actions ctx tbl) = false ↔
      tbl = v.curr ∨ (0 < t.depth ∧ t.depth < c.depth)) ∧
      (¬ (tbl = v.curr ∨ (0 < t.depth ∧ t.depth < c.depth)) →
        ∃ v2 t2 c2, v.applyTable actions ctx tbl = .ok v2 ∧ v2.curr = tbl ∧
          v2.heap.length = v.heap.length ∧
          v2.heap[tbl]? = some t2 ∧ v2.heap[v.curr]? = some c2 ∧
          t2.parents = insert v.curr t.parents ∧ t2.children = t.children ∧
          t2.depth = c.depth + 1 ∧
          c2.children = insert tbl c.children ∧ c2.parents = c.parents ∧
          c2.depth = c.depth ∧
          ∀ p, p ≠ tbl → p ≠ v.curr → v2.heap[p]? = v.heap[p]?) := by
  by_cases hfail : tbl = v.curr ∨ (0 < t.depth ∧ t.depth < c.depth)
  · refine ⟨⟨fun _ => hfail, fun _ => ?_⟩, fun hn => absurd hfail hn⟩
    unfold GenerateTableFlow.applyTable
    simp only [ht, hc]
    rw [if_pos hacts]
    by_cases hback : ¬ (t.depth ≤ 0 ∨ t.depth ≥ c.depth)
    · rw [if_pos hback]; rfl
    · rw [if_neg hback]
      have hself : tbl = v.curr := by
        rcases hfail with h | ⟨h1, h2⟩
        · exact h
        · exfalso
          apply hback
          intro h3
          rcases h3 with h3 | h3 <;> omega
      rw [if_pos hself]; rfl
  · have hne : tbl ≠ v.curr := fun h => hfail (Or.inl h)
    have hback : ¬ ¬ (t.depth ≤ 0 ∨ t.depth ≥ c.depth) := by
      intro h
      apply hfail
      right
      constructor
      · by_contra h1
        exact h (Or.inl (by omega))
      · by_contra h1
        exact h (Or.inr (by omega))
    have hok : ∃ v2 t2 c2, v.applyTable actions ctx tbl = .ok v2 ∧ v2.curr = tbl ∧
        v2.heap.length = v.heap.length ∧
        v2.heap[tbl]? = some t2 ∧ v2.heap[v.curr]? = some c2 ∧
        t2.parents = insert v.curr t.parents ∧ t2.children = t.children ∧
        t2.depth = c.depth + 1 ∧
        c2.children = insert tbl c.children ∧ c2.parents = c.parents ∧
        c2.depth = c.depth ∧
        ∀ p, p ≠ tbl → p ≠ v.curr → v2.heap[p]? = v.heap[p]? := by
      unfold GenerateTableFlow.applyTable
      simp only [ht, hc]
      rw [if_pos hacts, if_neg hback, if_neg hne]
      have hne2 : v.curr ≠ tbl := fun h => hne h.symm
      by_cases hcond : ctx.ifStatement = true ∨ v.insideSwitch = true
      · rw [if_pos hcond]
        obtain ⟨h1, h2⟩ := hstack hcond
        obtain ⟨ifId, ids, hids⟩ := List.exists_cons_of_ne_nil h1
        obtain ⟨ifCondition, conds, hconds⟩ := List.exists_cons_of_ne_nil h2
        simp only [hids, hconds, List.head?_cons]
        refine ⟨_,
          (fun t : TableInfo =>
            { t with insideConditional := ctx.ifStatement,
                     insideSwitch := if v.insideSwitch then true else t.insideSwitch,
                     ifId := ifId, ifCondition := some ifCondition })
            ((fun t : TableInfo =>
              { t with parents := insert v.curr t.parents, depth := c.depth + 1 }) t),
          (fun c : TableInfo => { c with children := insert tbl c.children }) c,
          rfl, rfl, ?_, ?_, ?_, rfl, rfl, rfl, rfl, rfl, rfl, ?_⟩
        · simp only [modifyNode_length]
        · simp only [getElem?_modifyNode, if_true, if_neg hne, ht, Option.map_some']
        · simp only [getElem?_modifyNode, if_true, if_neg hne2, hc, Option.map_some']
        · intro p hp1 hp2
          simp only [getElem?_modifyNode, if_neg hp1, if_neg hp2]
      · rw [if_neg hcond]
        refine ⟨_,
          (fun t : TableInfo =>
            { t with parents := insert v.curr t.parents, depth := c.depth + 1 }) t,
          (fun c : TableInfo => { c with children := insert tbl c.children }) c,
          rfl, rfl, ?_, ?_, ?_, rfl, rfl, rfl, rfl, rfl, rfl, ?_⟩
        · simp only [modifyNode_length]
        · simp only [getElem?_modifyNode, if_true, if_neg hne, ht, Option.map_some']
        · simp only [getElem?_modifyNode, if_true, if_neg hne2, hc, Option.map_some']
        · intro p hp1 hp2
          simp only [getElem?_modifyNode, if_neg hp1, if_neg hp2]
    refine ⟨⟨fun hs => ?_, fun h => absurd h hfail⟩, fun _ => hok⟩
    obtain ⟨v2, _, _, h, _⟩ := hok
    rw [h] at hs
    simp [succeeds] at hs

theorem mem_actionValues (action : FuncInfo) (var x : String) :
    x ∈ actionValues action var ↔ specContributes action var x := by
  unfold actionValues specContributes
  cases action.edataflows var with
  | some vals => simp only [Finset.mem_insert]; tauto
  | none =>
    cases action.dataflows var with
    | some val => simp only [Finset.mem_singleton]
    | none => simp only [Finset.mem_singleton]

/-- Claim C26.  For a table whose actions are all summarised, `prepareDataflow` returns;
it assigns an effect set to `var` exactly when some action of the table writes `var`, and
leaves the entry of every other variable as it was.  The assigned set is `{UNDEFINED}`
when some action contributes `UNDEFINED`, and otherwise it is the union of the
contributions of the actions: the values of `edataflows[var]` and `NOCHANGE` for an
action that has `edataflows` for `var`, else the scalar `dataflows[var]` of the action
when it has one, else `NOCHANGE`. -/
theorem prepareDataflow_effect_sets (m : Maps) (tbl : Nat) (t : TableInfo)
    (ht : m.heap[tbl]? = some t)
    (hacts : ∀ act ∈ t.actions, (m.actions act).isSome = true) :
    ∃ m2 t2, prepareDataflow m tbl = .ok m2 ∧ m2.heap[tbl]? = some t2 ∧
      m2.actions = m.actions ∧
      ∀ var,
        ((∃ act ∈ t.actions, ∃ action, m.actions act = some action ∧ var ∈ action.writes) →
          ∃ E, t2.dataflows var = some E ∧
            ((∃ act ∈ t.actions, ∃ action, m.actions act = some action ∧
                specContributes action var DF_UNDEFINED) → E = {DF_UNDEFINED}) ∧
            ((¬ ∃ act ∈ t.actions, ∃ action, m.actions act = some action ∧
                specContributes action var DF_UNDEFINED) →
              ∀ x, x ∈ E ↔ ∃ act ∈ t.actions, ∃ action, m.actions act = some action ∧
                specContributes action var x)) ∧
        ((¬ ∃ act ∈ t.actions, ∃ action, m.actions act = some action ∧ var ∈ action.writes) →
          t2.dataflows var = t.dataflows var) := by
  have hmemU : ∀ var x, x ∈ t.actions.biUnion (fun act =>
      match m.actions act with
      | some action => actionValues action var
      | none => ∅) ↔
      ∃ act ∈ t.actions, ∃ action, m.actions act = some action ∧
        specContributes action var x := by
    intro var x
    simp only [Finset.mem_biUnion]
    constructor
    · rintro ⟨act, hact, hx⟩
      cases ha : m.actions act with
      | none => rw [ha] at hx; simp at hx
      | some action =>
        rw [ha] at hx
        exact ⟨act, hact, action, ha, (mem_actionValues _ _ _).mp hx⟩
    · rintro ⟨act, hact, action, ha, hx⟩
      refine ⟨act, hact, ?_⟩
      rw [ha]
      exact (mem_actionValues _ _ _).mpr hx
  have hmemW : ∀ var, var ∈ t.actions.biUnion (fun act =>
      match m.actions act with
      | some action => action.writes
      | none => ∅) ↔
      ∃ act ∈ t.actions, ∃ action, m.actions act = some action ∧ var ∈ action.writes := by
    intro var
    simp only [Finset.mem_biUnion]
    constructor
    · rintro ⟨act, hact, hx⟩
      cases ha : m.actions act with
      | none => rw [ha] at hx; simp at hx
      | some action =>
        rw [ha] at hx
        exact ⟨act, hact, action, ha, hx⟩
    · rintro ⟨act, hact, action, ha, hx⟩
      refine ⟨act, hact, ?_⟩
      rw [ha]
      exact hx
  refine ⟨{ m with heap := modifyNode m.heap tbl (fun t2 =>
      { t2 with dataflows := fun var =>
          if var ∈ t.actions.biUnion (fun act =>
            match m.actions act with
            | some action => action.writes
            | none => ∅) then some (effectSet m.actions t2.actions var)
          else t2.dataflows var }) },
    { t with dataflows := fun var =>
        if var ∈ t.actions.biUnion (fun act =>
          match m.actions act with
          | some action => action.writes
          | none => ∅) then some (effectSet m.actions t.actions var)
        else t.dataflows var }, ?_, ?_, rfl, ?_⟩
  · unfold prepareDataflow
    simp only [ht]
    rw [if_pos hacts]
  · simp only [getElem?_modifyNode, if_true, ht, Option.map_some']
  · intro var
    constructor
    · intro hw
      refine ⟨effectSet m.actions t.actions var, ?_, ?_, ?_⟩
      · simp only [if_pos ((hmemW var).mpr hw)]
      · intro hu
        unfold effectSet
        have : DF_UNDEFINED ∈ t.actions.biUnion (fun act =>
            match m.actions act with
            | some action => actionValues action var
            | none => ∅) := (hmemU var DF_UNDEFINED).mpr hu
        simp only [count, if_pos this]
        rfl
      · intro hu x
        unfold effectSet
        have : DF_UNDEFINED ∉ t.actions.biUnion (fun act =>
            match m.actions act with
            | some action => actionValues action var
            | none => ∅) := fun h => hu ((hmemU var DF_UNDEFINED).mp h)
        simp only [count, if_neg this, gt_iff_lt, lt_self_iff_false, if_false]
        exact hmemU var x
    · intro hw
      simp only [if_neg (fun h => hw ((hmemW var).mp h))]

/-! ## Summary extraction: general facts -/

theorem sameDataflows_refl (s : ExtractVariables) : s.sameDataflows s :=
  ⟨rfl, rfl, rfl, fun _ => rfl⟩

theorem sameDataflows_trans (s s2 s3 : ExtractVariables) (h1 : s.sameDataflows s2)
    (h2 : s2.sameDataflows s3) : s.sameDataflows s3 :=
  ⟨h2.1.trans h1.1, h2.2.1.trans h1.2.1, h2.2.2.1.trans h1.2.2.1,
    fun k => (h2.2.2.2 k).trans (h1.2.2.2 k)⟩

/-- An update of the current action summary that keeps its `dataflows` and `edataflows`
keeps what an assignment summary depends on. -/
theorem modifyFunc_sameDataflows (s : ExtractVariables) (f : FuncInfo → FuncInfo)
    (hf : ∀ fi, (f fi).dataflows = fi.dataflows ∧ (f fi).edataflows = fi.edataflows) :
    s.sameDataflows (s.modifyFunc f) := by
  unfold ExtractVariables.modifyFunc
  split
  · exact sameDataflows_refl s
  · rename_i key hk
    split
    · exact sameDataflows_refl s
    · rename_i fi ha
      refine ⟨rfl, rfl, rfl, fun k => ?_⟩
      simp only [setKey]
      by_cases hkk : k = key
      · subst hkk
        simp only [if_true, ha, Option.map_some', (hf fi).1, (hf fi).2]
      · simp only [if_neg hkk]

theorem postorder_Member_sameDataflows (s : ExtractVariables) (ctx : Context)
    (member : Expression) : s.sameDataflows (s.postorder_Member ctx member) := by
  have hkey : ∀ (s : ExtractVariables) (p : Nat) (x : String), s.inferForTable = some p →
      s.sameDataflows { s with maps := { s.maps with heap := modifyNode s.maps.heap p (fun t =>
        { t with keyreads := insert x t.keyreads }) } } := by
    intro s p x hp
    refine ⟨rfl, rfl, ?_, fun _ => rfl⟩
    simp only [ExtractVariables.tableName, hp, getElem?_modifyNode, if_true]
    cases s.maps.heap[p]? <;> rfl
  have hstep1 : s.sameDataflows
      (match s.inferForTable with
        | some p =>
          if ctx.keyElement = some 1 then
            { s with maps := { s.maps with heap := modifyNode s.maps.heap p (fun t =>
                { t with keyreads := insert (getVariableName member) t.keyreads }) } }
          else s
        | none => s) := by
    split
    · rename_i p hp
      split_ifs
      · exact hkey s p _ hp
      · exact sameDataflows_refl s
    · exact sameDataflows_refl s
  have htail : ∀ s1 : ExtractVariables, s1.sameDataflows
      (if ctx.isWrite then
        if ctx.isRead || ctx.methodCall then
          (s1.modifyFunc (fun fi =>
            { fi with writes := insert (getVariableName member) fi.writes })).modifyFunc
            (fun fi => { fi with reads := insert (getVariableName member) fi.reads })
        else s1.modifyFunc (fun fi =>
          { fi with writes := insert (getVariableName member) fi.writes })
      else s1.modifyFunc (fun fi =>
        { fi with reads := insert (getVariableName member) fi.reads })) := by
    intro s1
    by_cases hw : ctx.isWrite = true
    · rw [if_pos hw]
      by_cases hr : (ctx.isRead || ctx.methodCall) = true
      · rw [if_pos hr]
        refine sameDataflows_trans _ _ _ (modifyFunc_sameDataflows _ _ ?_)
          (modifyFunc_sameDataflows _ _ ?_)
        · exact fun _ => ⟨rfl, rfl⟩
        · exact fun _ => ⟨rfl, rfl⟩
      · rw [if_neg hr]
        refine modifyFunc_sameDataflows _ _ ?_
        exact fun _ => ⟨rfl, rfl⟩
    · rw [if_neg hw]
      refine modifyFunc_sameDataflows _ _ ?_
      exact fun _ => ⟨rfl, rfl⟩
  unfold ExtractVariables.postorder_Member
  by_cases hm : ctx.member = true
  · rw [if_pos hm]
    exact sameDataflows_refl s
  · rw [if_neg hm]
    exact sameDataflows_trans _ _ _ hstep1 (htail _)

mutual
/-- The traversal of an expression by `ExtractVariables` changes no `dataflows` and no
`edataflows`. -/
theorem visitExpression_sameDataflows :
    ∀ (e : Expression) (s : ExtractVariables) (ctx : Context),
      s.sameDataflows (s.visitExpression ctx e)
  | .PathExpression _, s, _ => by
    rw [ExtractVariables.visitExpression]; exact sameDataflows_refl s
  | .Member expr member, s, ctx => by
    rw [ExtractVariables.visitExpression]
    exact sameDataflows_trans _ _ _ (visitExpression_sameDataflows expr s _)
      (postorder_Member_sameDataflows _ _ _)
  | .MethodCallExpression method _ dirs arguments, s, ctx => by
    rw [ExtractVariables.visitExpression]
    exact sameDataflows_trans _ _ _ (visitExpression_sameDataflows method s _)
      (visitArguments_sameDataflows arguments _ ctx dirs 0)
  | .DefaultExpression, s, _ => by
    rw [ExtractVariables.visitExpression]; exact sameDataflows_refl s
  | .Operation _ operands, s, ctx => by
    rw [ExtractVariables.visitExpression]
    exact visitOperands_sameDataflows operands s _
  | .SelectExpression select selectCases, s, ctx => by
    rw [ExtractVariables.visitExpression]
    exact sameDataflows_trans _ _ _ (visitOperands_sameDataflows select s _)
      (visitSelectCases_sameDataflows selectCases _ _)
theorem visitArguments_sameDataflows :
    ∀ (es : List Expression) (s : ExtractVariables) (ctx : Context) (dirs : List Direction)
      (i : Nat), s.sameDataflows (s.visitArguments ctx dirs i es)
  | [], s, _, _, _ => by
    rw [ExtractVariables.visitArguments]; exact sameDataflows_refl s
  | e :: es, s, ctx, dirs, i => by
    rw [ExtractVariables.visitArguments]
    exact sameDataflows_trans _ _ _ (visitExpression_sameDataflows e s _)
      (visitArguments_sameDataflows es _ ctx dirs (i + 1))
theorem visitOperands_sameDataflows :
    ∀ (es : List Expression) (s : ExtractVariables) (ctx : Context),
      s.sameDataflows (s.visitOperands ctx es)
  | [], s, _ => by
    rw [ExtractVariables.visitOperands]; exact sameDataflows_refl s
  | e :: es, s, ctx => by
    rw [ExtractVariables.visitOperands]
    exact sameDataflows_trans _ _ _ (visitExpression_sameDataflows e s _)
      (visitOperands_sameDataflows es _ ctx)
theorem visitSelectCases_sameDataflows :
    ∀ (cs : List (Expression × Expression)) (s : ExtractVariables) (ctx : Context),
      s.sameDataflows (s.visitSelectCases ctx cs)
  | [], s, _ => by
    rw [ExtractVariables.visitSelectCases]; exact sameDataflows_refl s
  | (keyset, state) :: cs, s, ctx => by
    rw [ExtractVariables.visitSelectCases]
    exact sameDataflows_trans _ _ _
      (sameDataflows_trans _ _ _ (visitExpression_sameDataflows keyset s _)
        (visitExpression_sameDataflows state _ _))
      (visitSelectCases_sameDataflows cs _ ctx)
end

theorem assignedValue_eq_spec (right : Expression) :
    assignedValue right = specRecordedValue right := by
  have hempty : ¬ (startsWith "" "hdr" = true ∨ startsWith "" "meta" = true) := by decide
  have key : ∀ r : String,
      (if r ≠ "" ∧ (startsWith r "hdr" = true ∨ startsWith r "meta" = true) then r
        else DF_UNDEFINED)
      = (if startsWith r "hdr" = true ∨ startsWith r "meta" = true then r
        else DF_UNDEFINED) := by
    intro r
    by_cases hr : r = ""
    · subst hr
      rw [if_neg hempty, if_neg (fun h => hempty h.2)]
    · by_cases hp : startsWith r "hdr" = true ∨ startsWith r "meta" = true
      · rw [if_pos hp, if_pos ⟨hr, hp⟩]
      · rw [if_neg hp, if_neg (fun h => hp h.2)]
  cases right with
  | PathExpression name => exact key name
  | Member expr member => exact key _
  | MethodCallExpression _ _ _ _ =>
    simp only [assignedValue, getVariableName, specRecordedValue]
    rw [if_neg (fun h => h.1 rfl)]
  | DefaultExpression =>
    simp only [assignedValue, getVariableName, specRecordedValue]
    rw [if_neg (fun h => h.1 rfl)]
  | Operation _ _ =>
    simp only [assignedValue, getVariableName, specRecordedValue]
    rw [if_neg (fun h => h.1 rfl)]
  | SelectExpression _ _ =>
    simp only [assignedValue, getVariableName, specRecordedValue]
    rw [if_neg (fun h => h.1 rfl)]

theorem modifyFunc_eq (s : ExtractVariables) (f : FuncInfo → FuncInfo) (key : String)
    (fi : FuncInfo) (hfunc : s.inferForFunc = some key) (hfi : s.maps.actions key = some fi) :
    s.modifyFunc f
      = { s with maps := { s.maps with actions := setKey s.maps.actions key (f fi) } } := by
  unfold ExtractVariables.modifyFunc
  simp only [hfunc, hfi]

/-- The effect of `preorder(const IR::AssignmentStatement *)` on the summary of the
current action. -/
theorem preorder_AssignmentStatement_summary (s : ExtractVariables) (ctx : Context)
    (key : String) (fi : FuncInfo) (left right : Expression)
    (hfunc : s.inferForFunc = some key) (hfi : s.maps.actions key = some fi) :
    ∃ fi1, (s.preorder_AssignmentStatement ctx left right).maps.actions key = some fi1 ∧
      (s.preorder_AssignmentStatement ctx left right).inferForFunc = some key ∧
      (s.preorder_AssignmentStatement ctx left right).tableName = s.tableName ∧
      fi1.dataflows = (if getVariableName left ≠ "" then
          setKey fi.dataflows (getVariableName left) (assignedValue right)
        else fi.dataflows) ∧
      fi1.edataflows = (if getVariableName left ≠ "" ∧ s.tableName = some "parser" then
          setKey fi.edataflows (getVariableName left)
            (insert (assignedValue right) ((fi.edataflows (getVariableName left)).getD ∅))
        else fi.edataflows) := by
  -- the state after the update of the summary, before the operands are visited
  have hupd : ∃ (s1 : ExtractVariables) (fi1 : FuncInfo), s1.maps.actions key = some fi1 ∧ s1.inferForFunc = some key ∧
      s1.tableName = s.tableName ∧
      fi1.dataflows = (if getVariableName left ≠ "" then
          setKey fi.dataflows (getVariableName left) (assignedValue right)
        else fi.dataflows) ∧
      fi1.edataflows = (if getVariableName left ≠ "" ∧ s.tableName = some "parser" then
          setKey fi.edataflows (getVariableName left)
            (insert (assignedValue right) ((fi.edataflows (getVariableName left)).getD ∅))
        else fi.edataflows) ∧
      s.preorder_AssignmentStatement ctx left right
        = (s1.visitExpression { ctx with isWrite := false, isRead := true } right).visitExpression
            { ctx with isWrite := true, isRead := false } left := by
    by_cases hl : getVariableName left ≠ ""
    · have h1 := modifyFunc_eq s
        (fun fi => { fi with
          dataflows := setKey fi.dataflows (getVariableName left) (assignedValue right) })
        key fi hfunc hfi
      by_cases hp : s.tableName = some "parser"
      · have hp1 : (s.modifyFunc
            (fun fi => { fi with
              dataflows := setKey fi.dataflows (getVariableName left)
                (assignedValue right) })).tableName = some "parser" := by
          rw [h1]; exact hp
        have h2 := modifyFunc_eq
          (s.modifyFunc
            (fun fi => { fi with
              dataflows := setKey fi.dataflows (getVariableName left) (assignedValue right) }))
          (fun fi => { fi with
            edataflows := setKey fi.edataflows (getVariableName left)
              (insert (assignedValue right) ((fi.edataflows (getVariableName left)).getD ∅)) })
          key
          { fi with
            dataflows := setKey fi.dataflows (getVariableName left) (assignedValue right) }
          (by rw [h1]; exact hfunc) (by rw [h1]; simp [setKey])
        refine ⟨(s.modifyFunc
            (fun fi => { fi with
              dataflows := setKey fi.dataflows (getVariableName left)
                (assignedValue right) })).modifyFunc
            (fun fi => { fi with
              edataflows := setKey fi.edataflows (getVariableName left)
                (insert (assignedValue right)
                  ((fi.edataflows (getVariableName left)).getD ∅)) }),
          { fi with
            dataflows := setKey fi.dataflows (getVariableName left) (assignedValue right),
            edataflows := setKey fi.edataflows (getVariableName left)
              (insert (assignedValue right) ((fi.edataflows (getVariableName left)).getD ∅)) },
          ?_, ?_, ?_, ?_, ?_, ?_⟩
        · rw [h2]; simp only [setKey, if_true]
        · rw [h2, h1]; exact hfunc
        · rw [h2, h1]; rfl
        · rw [if_pos hl]
        · rw [if_pos ⟨hl, hp⟩]
        · unfold ExtractVariables.preorder_AssignmentStatement
          simp only [if_pos hl, if_pos hp1]
      · have hp1 : ¬ (s.modifyFunc
            (fun fi => { fi with
              dataflows := setKey fi.dataflows (getVariableName left)
                (assignedValue right) })).tableName = some "parser" := by
          rw [h1]; exact hp
        refine ⟨s.modifyFunc
            (fun fi => { fi with
              dataflows := setKey fi.dataflows (getVariableName left) (assignedValue right) }),
          { fi with
            dataflows := setKey fi.dataflows (getVariableName left) (assignedValue right) },
          ?_, ?_, ?_, ?_, ?_, ?_⟩
        · rw [h1]; simp only [setKey, if_true]
        · rw [h1]; exact hfunc
        · rw [h1]; rfl
        · rw [if_pos hl]
        · rw [if_neg (fun h => hp h.2)]
        · unfold ExtractVariables.preorder_AssignmentStatement
          simp only [if_pos hl, if_neg hp1]
    · refine ⟨s, fi, hfi, hfunc, rfl, ?_, ?_, ?_⟩
      · rw [if_neg hl]
      · rw [if_neg (fun h => hl h.1)]
      · unfold ExtractVariables.preorder_AssignmentStatement
        simp only [if_neg hl]
  obtain ⟨s1, fi1, h1, h2, h3, h4, h5, h6⟩ := hupd
  have hsame := sameDataflows_trans _ _ _
    (visitExpression_sameDataflows right s1 { ctx with isWrite := false, isRead := true })
    (visitExpression_sameDataflows left _ { ctx with isWrite := true, isRead := false })
  rw [← h6] at hsame
  obtain ⟨g1, _, g3, g4⟩ := hsame
  have hk := g4 key
  rw [h1] at hk
  cases ha : (s.preorder_AssignmentStatement ctx left right).maps.actions key with
  | none => rw [ha] at hk; simp at hk
  | some fi2 =>
    rw [ha] at hk
    simp only [Option.map_some', Option.some.injEq, Prod.mk.injEq] at hk
    exact ⟨fi2, rfl, g1.trans h2, g3.trans h3, hk.1.trans h4, hk.2.trans h5⟩

theorem lastRecorded_cons (p : Expression × Expression) (rest : List (Expression × Expression))
    (L : String) :
    lastRecorded (p :: rest) L =
      match lastRecorded rest L with
      | some v => some v
      | none => if getVariableName p.1 = L then some (specRecordedValue p.2) else none := by
  unfold lastRecorded
  rw [List.reverse_cons, List.find?_append]
  cases List.find? (fun p => decide (getVariableName p.1 = L)) rest.reverse with
  | some q => rfl
  | none =>
    by_cases h : getVariableName p.1 = L
    · simp [List.find?, h]
    · simp [List.find?, h]

theorem allRecorded_cons (p : Expression × Expression) (rest : List (Expression × Expression))
    (L : String) :
    allRecorded (p :: rest) L =
      if getVariableName p.1 = L then insert (specRecordedValue p.2) (allRecorded rest L)
      else allRecorded rest L := by
  unfold allRecorded
  by_cases h : getVariableName p.1 = L
  · simp [List.filter, h]
  · simp [List.filter, h]

/-- Claim C27.  For a sequence of assignments visited inside one action (`inferForFunc`
points to the summary `fi`), the summary afterwards holds, for every left-hand side name
`L`, in `dataflows[L]` the value recorded by the last assignment to `L` (the entry is
unchanged when there is none); the recorded value is the name of the right-hand side
when it is a path or member access whose name starts with `hdr` or `meta`, and
`UNDEFINED` otherwise.  When the table under construction is the parser,
`edataflows[L]` holds the values recorded by all the assignments to `L`, added to the
values it held; otherwise `edataflows` is unchanged. -/
theorem assignment_summary (assigns : List (Expression × Expression)) :
    ∀ (s : ExtractVariables) (ctx : Context) (key : String) (fi : FuncInfo),
      s.inferForFunc = some key → s.maps.actions key = some fi →
      ∃ fi2, (s.visitStatements ctx (assignmentStatements assigns)).maps.actions key
          = some fi2 ∧
        (∀ L, L ≠ "" →
          (∀ v, lastRecorded assigns L = some v → fi2.dataflows L = some v) ∧
          (lastRecorded assigns L = none → fi2.dataflows L = fi.dataflows L)) ∧
        (s.tableName = some "parser" → ∀ L, L ≠ "" →
          ((∃ p ∈ assigns, getVariableName p.1 = L) →
            fi2.edataflows L = some ((fi.edataflows L).getD ∅ ∪ allRecorded assigns L)) ∧
          ((¬ ∃ p ∈ assigns, getVariableName p.1 = L) →
            fi2.edataflows L = fi.edataflows L)) ∧
        (s.tableName ≠ some "parser" → fi2.edataflows = fi.edataflows) := by
  induction assigns with
  | nil =>
    intro s ctx key fi _ hfi
    refine ⟨fi, ?_, ?_, ?_, ?_⟩
    · simp only [assignmentStatements, List.map_nil, ExtractVariables.visitStatements]
      exact hfi
    · intro L _
      exact ⟨fun v hv => by simp [lastRecorded] at hv, fun _ => rfl⟩
    · intro _ L _
      exact ⟨fun ⟨p, hp, _⟩ => absurd hp (List.not_mem_nil p), fun _ => rfl⟩
    · intro _; rfl
  | cons p rest ih =>
    intro s ctx key fi hfunc hfi
    obtain ⟨fi1, a1, a2, a3, a4, a5⟩ :=
      preorder_AssignmentStatement_summary s ctx key fi p.1 p.2 hfunc hfi
    obtain ⟨fi2, b1, b2, b3, b4⟩ := ih (s.preorder_AssignmentStatement ctx p.1 p.2) ctx key fi1 a2 a1
    have hvisit : s.visitStatements ctx (assignmentStatements (p :: rest))
        = (s.preorder_AssignmentStatement ctx p.1 p.2).visitStatements ctx
            (assignmentStatements rest) := by
      simp only [assignmentStatements, List.map_cons, ExtractVariables.visitStatements,
        ExtractVariables.visitStatement]
    rw [hvisit]
    refine ⟨fi2, b1, ?_, ?_, ?_⟩
    · intro L hL
      obtain ⟨c1, c2⟩ := b2 L hL
      rw [lastRecorded_cons]
      cases hrest : lastRecorded rest L with
      | some w =>
        simp only
        exact ⟨fun v hv => by rw [← hv]; exact c1 w hrest, fun h => by simp at h⟩
      | none =>
        simp only
        have hfi2 := c2 hrest
        by_cases hp : getVariableName p.1 = L
        · rw [if_pos hp]
          refine ⟨fun v hv => ?_, fun h => by simp at h⟩
          simp only [Option.some.injEq] at hv
          rw [hfi2, a4, if_pos (hp ▸ hL), setKey, if_pos hp.symm, ← hv,
            assignedValue_eq_spec]
        · rw [if_neg hp]
          refine ⟨fun v hv => by simp at hv, fun _ => ?_⟩
          rw [hfi2, a4]
          by_cases hl : getVariableName p.1 ≠ ""
          · rw [if_pos hl, setKey, if_neg (fun h => hp h.symm)]
          · rw [if_neg hl]
    · intro hparser L hL
      obtain ⟨c1, c2⟩ := b3 (a3.trans hparser) L hL
      rw [allRecorded_cons]
      by_cases hp : getVariableName p.1 = L
      · have hl : getVariableName p.1 ≠ "" := hp ▸ hL
        have hfi1 : fi1.edataflows L
            = some (insert (assignedValue p.2) ((fi.edataflows L).getD ∅)) := by
          rw [a5, if_pos ⟨hl, hparser⟩, setKey, if_pos hp.symm, hp]
        refine ⟨fun _ => ?_, fun h => absurd ⟨p, List.mem_cons_self _ _, hp⟩ h⟩
        rw [if_pos hp]
        by_cases hrest : ∃ q ∈ rest, getVariableName q.1 = L
        · rw [c1 hrest, hfi1, assignedValue_eq_spec]
          simp only [Option.getD_some, Option.some.injEq]
          ext x
          simp only [Finset.mem_union, Finset.mem_insert]
          tauto
        · rw [c2 hrest, hfi1, assignedValue_eq_spec]
          have hnone : allRecorded rest L = ∅ := by
            unfold allRecorded
            rw [List.filter_eq_nil_iff.mpr]
            · rfl
            · intro q hq hq2
              exact hrest ⟨q, hq, by simpa using hq2⟩
          rw [hnone]
          simp only [Option.some.injEq]
          ext x
          simp only [Finset.mem_union, Finset.mem_insert, Finset.not_mem_empty, or_false]
          tauto
      · rw [if_neg hp]
        have hfi1 : fi1.edataflows L = fi.edataflows L := by
          rw [a5]
          by_cases hl : getVariableName p.1 ≠ "" ∧ s.tableName = some "parser"
          · rw [if_pos hl, setKey, if_neg (fun h => hp h.symm)]
          · rw [if_neg hl]
        constructor
        · rintro ⟨q, hq, hq2⟩
          rcases List.mem_cons.mp hq with rfl | hq
          · exact absurd hq2 hp
          · rw [c1 ⟨q, hq, hq2⟩, hfi1]
        · intro hno
          rw [c2 (fun ⟨q, hq, hq2⟩ => hno ⟨q, List.mem_cons_of_mem _ hq, hq2⟩), hfi1]
    · intro hparser
      rw [b4 (fun h => hparser (a3 ▸ h)), a5, if_neg (fun h => hparser h.2)]

/-! ## The dataflow solver: general facts -/

theorem mem_orderedPtrs (heap : List TableInfo) (s : Finset Nat) (p : Nat) :
    p ∈ orderedPtrs heap s ↔ p < heap.length ∧ p ∈ s := by
  simp [orderedPtrs]

theorem getElem?_lt_of_some {α : Type} (l : List α) (n : Nat) (a : α) (h : l[n]? = some a) :
    n < l.length := by
  by_contra hc
  rw [List.getElem?_eq_none (by omega)] at h
  simp at h

theorem parentsAt_of_some (heap : List TableInfo) (n : Nat) (t : TableInfo)
    (h : heap[n]? = some t) : parentsAt heap n = t.parents := by
  simp [parentsAt, h]

theorem childrenAt_of_some (heap : List TableInfo) (n : Nat) (t : TableInfo)
    (h : heap[n]? = some t) : childrenAt heap n = t.children := by
  simp [childrenAt, h]

theorem computedAt_of_some (heap : List TableInfo) (n : Nat) (t : TableInfo)
    (h : heap[n]? = some t) : computedAt heap n = t.dataflowComputed := by
  simp [computedAt, h]

theorem computedAt_true_iff (heap : List TableInfo) (n : Nat) :
    computedAt heap n = true ↔ ∃ t, heap[n]? = some t ∧ t.dataflowComputed = true := by
  unfold computedAt
  cases heap[n]? with
  | none => simp
  | some t => simp

theorem postAt_of_some (heap : List TableInfo) (n : Nat) (t : TableInfo) (var : String)
    (df : Finset String) (h : heap[n]? = some t) (hd : t.dataflows var = some df) :
    postAt heap n var = df := by
  simp [postAt, h, hd]

/-- The fold of `mergeDataflow` over the post-states of a list of nodes, each of which
has a post-state for `var`, from a normalised accumulator: `{UNDEFINED}` when the
accumulator or one of the post-states contains `UNDEFINED`, otherwise the union. -/
theorem mergeParents_fold (heap : List TableInfo) (var : String) :
    ∀ (ps : List Nat) (acc : Finset String),
      (DF_UNDEFINED ∈ acc → acc = {DF_UNDEFINED}) →
      (∀ p ∈ ps, ∃ pt, heap[p]? = some pt ∧ (pt.dataflows var).isSome = true) →
      ps.foldl (fun dataflow parent =>
        match dataflow, heap[parent]? with
        | some df, some pt =>
          match pt.dataflows var with
          | some pdf => some (mergeDataflow df pdf)
          | none => none
        | _, _ => none) (some acc)
      = some (if DF_UNDEFINED ∈ acc ∨ ∃ p ∈ ps, DF_UNDEFINED ∈ postAt heap p var then
          {DF_UNDEFINED}
        else acc ∪ ps.toFinset.biUnion (fun p => postAt heap p var)) := by
  intro ps
  induction ps with
  | nil =>
    intro acc hacc _
    by_cases h : DF_UNDEFINED ∈ acc
    · simp only [List.foldl_nil, h, true_or, if_true, Option.some.injEq]
      exact hacc h
    · simp [h]
  | cons p rest ih =>
    intro acc hacc hps
    obtain ⟨pt, hpt, hsome⟩ := hps p (List.mem_cons_self _ _)
    obtain ⟨pdf, hpdf⟩ := Option.isSome_iff_exists.mp hsome
    have hpost : postAt heap p var = pdf := postAt_of_some heap p pt var pdf hpt hpdf
    have hrest : ∀ q ∈ rest, ∃ pt, heap[q]? = some pt ∧ (pt.dataflows var).isSome = true :=
      fun q hq => hps q (List.mem_cons_of_mem _ hq)
    simp only [List.foldl_cons, hpt, hpdf]
    rw [mergeDataflow_eq_specMerge]
    have hnorm : DF_UNDEFINED ∈ specMerge acc pdf → specMerge acc pdf = {DF_UNDEFINED} := by
      unfold specMerge
      by_cases hu : DF_UNDEFINED ∈ acc ∨ DF_UNDEFINED ∈ pdf
      · rw [if_pos hu]; intro _; rfl
      · rw [if_neg hu]
        intro hm
        exact absurd (Finset.mem_union.mp hm) hu
    rw [ih (specMerge acc pdf) hnorm hrest]
    congr 1
    by_cases hu : DF_UNDEFINED ∈ acc ∨ DF_UNDEFINED ∈ pdf
    · have h1 : DF_UNDEFINED ∈ specMerge acc pdf := by
        unfold specMerge; rw [if_pos hu]; exact Finset.mem_singleton_self _
      have h2 : DF_UNDEFINED ∈ acc ∨ ∃ q ∈ p :: rest, DF_UNDEFINED ∈ postAt heap q var := by
        rcases hu with hu | hu
        · exact Or.inl hu
        · exact Or.inr ⟨p, List.mem_cons_self _ _, hpost ▸ hu⟩
      rw [if_pos (Or.inl h1), if_pos h2]
    · have hsm : specMerge acc pdf = acc ∪ pdf := by
        unfold specMerge; rw [if_neg hu]
      have h1 : DF_UNDEFINED ∉ specMerge acc pdf := by
        rw [hsm]
        exact fun hm => hu (Finset.mem_union.mp hm)
      by_cases hr : ∃ q ∈ rest, DF_UNDEFINED ∈ postAt heap q var
      · obtain ⟨q, hq, hq2⟩ := hr
        rw [if_pos (Or.inr ⟨q, hq, hq2⟩), if_pos (Or.inr ⟨q, List.mem_cons_of_mem _ hq, hq2⟩)]
      · have h2 : ¬ (DF_UNDEFINED ∈ acc ∨ ∃ q ∈ p :: rest, DF_UNDEFINED ∈ postAt heap q var) := by
          rintro (h | ⟨q, hq, hq2⟩)
          · exact hu (Or.inl h)
          · rcases List.mem_cons.mp hq with rfl | hq
            · exact hu (Or.inr (hpost ▸ hq2))
            · exact hr ⟨q, hq, hq2⟩
        rw [if_neg (fun h => h.elim h1 hr), if_neg h2, hsm]
        ext x
        simp only [Finset.mem_union, Finset.mem_biUnion, List.mem_toFinset, List.mem_cons,
          exists_eq_or_imp, hpost]
        tauto

/-- The merge of the predecessors computed by the code is the merge of the
specification, when every predecessor is allocated and has a post-state. -/
theorem mergeParents_eq_spec (heap : List TableInfo) (n : Nat) (t : TableInfo) (var : String)
    (ht : heap[n]? = some t)
    (hps : ∀ p ∈ t.parents, ∃ pt, heap[p]? = some pt ∧ (pt.dataflows var).isSome = true) :
    mergeParents heap (orderedPtrs heap t.parents) var = some (specMergePreds heap n var) := by
  have hmem : ∀ p, p ∈ orderedPtrs heap t.parents ↔ p ∈ t.parents := by
    intro p
    rw [mem_orderedPtrs]
    constructor
    · exact fun h => h.2
    · intro h
      obtain ⟨pt, hpt, _⟩ := hps p h
      exact ⟨getElem?_lt_of_some _ _ _ hpt, h⟩
  unfold mergeParents
  rw [mergeParents_fold heap var (orderedPtrs heap t.parents) ∅ (fun h => by simp at h)
    (fun p hp => hps p ((hmem p).mp hp))]
  congr 1
  unfold specMergePreds
  rw [parentsAt_of_some heap n t ht]
  have hfin : (orderedPtrs heap t.parents).toFinset = t.parents := by
    ext p
    rw [List.mem_toFinset, hmem]
  have hiff : (DF_UNDEFINED ∈ (∅ : Finset String) ∨
      ∃ p ∈ orderedPtrs heap t.parents, DF_UNDEFINED ∈ postAt heap p var) ↔
      ∃ p ∈ t.parents, DF_UNDEFINED ∈ postAt heap p var := by
    constructor
    · rintro (h | ⟨p, hp, hp2⟩)
      · simp at h
      · exact ⟨p, (hmem p).mp hp, hp2⟩
    · rintro ⟨p, hp, hp2⟩
      exact Or.inr ⟨p, (hmem p).mpr hp, hp2⟩
  by_cases h : ∃ p ∈ t.parents, DF_UNDEFINED ∈ postAt heap p var
  · rw [if_pos h, if_pos (hiff.mpr h)]
  · rw [if_neg h, if_neg (fun h2 => h (hiff.mp h2)), hfin, Finset.empty_union]

theorem specMergePreds_normalised (heap : List TableInfo) (n : Nat) (var : String) :
    DF_UNDEFINED ∈ specMergePreds heap n var → specMergePreds heap n var = {DF_UNDEFINED} := by
  unfold specMergePreds
  by_cases h : ∃ p ∈ parentsAt heap n, DF_UNDEFINED ∈ postAt heap p var
  · rw [if_pos h]; intro _; rfl
  · rw [if_neg h]
    intro hm
    obtain ⟨p, hp, hp2⟩ := Finset.mem_biUnion.mp hm
    exact absurd ⟨p, hp, hp2⟩ h

/-- Skipping the transfer gives the value of the transfer through `{NOCHANGE}`, on a
normalised input. -/
theorem specTransfer_noChange_only (X : Finset String)
    (hX : DF_UNDEFINED ∈ X → X = {DF_UNDEFINED}) : specTransfer X {DF_NOCHANGE} = X := by
  rw [specTransfer_of_noChange X {DF_NOCHANGE} (Finset.mem_singleton_self _)]
  have hne : DF_UNDEFINED ≠ DF_NOCHANGE := by decide
  by_cases h : DF_UNDEFINED ∈ X
  · rw [if_pos (Or.inl h)]; exact (hX h).symm
  · rw [if_neg (fun h2 => h2.elim h (fun h3 => hne (Finset.mem_singleton.mp h3)))]
    ext x
    simp only [Finset.mem_union, Finset.mem_filter, Finset.mem_singleton]
    tauto

/-- The loop over the variables at a node whose predecessors are allocated and have
post-states: the node gets, for every variable of the solver, the merge over its
predecessors as key dataflow and the transfer of it as post-state, and is marked
computed; its place in the graph is unchanged. -/
theorem computeNode_spec (variableSet : Finset String) (heap : List TableInfo) (n : Nat)
    (t : TableInfo) (ht : heap[n]? = some t)
    (hps : ∀ p ∈ t.parents, ∃ pt, heap[p]? = some pt ∧
      ∀ var ∈ variableSet, (pt.dataflows var).isSome = true) :
    ∃ t2, computeNode variableSet heap t = some t2 ∧
      t2.parents = t.parents ∧ t2.children = t.children ∧ t2.dataflowComputed = true ∧
      ∀ var ∈ variableSet,
        t2.keyDataflows var = some (specMergePreds heap n var) ∧
        t2.dataflows var = some (specTransfer (specMergePreds heap n var)
          ((t.dataflows var).getD {DF_NOCHANGE})) ∧
        (t.dataflows var = none → t2.dataflows var = t2.keyDataflows var) := by
  have hmerge : ∀ var ∈ variableSet,
      mergeParents heap (orderedPtrs heap t.parents) var = some (specMergePreds heap n var) := by
    intro var hvar
    exact mergeParents_eq_spec heap n t var ht (fun p hp => by
      obtain ⟨pt, hpt, hd⟩ := hps p hp
      exact ⟨pt, hpt, hd var hvar⟩)
  have hall : ∀ var ∈ variableSet,
      (mergeParents heap (orderedPtrs heap t.parents) var).isSome = true := by
    intro var hvar
    rw [hmerge var hvar]; rfl
  cases hcn : computeNode variableSet heap t with
  | none =>
    unfold computeNode at hcn
    simp only at hcn
    rw [if_pos hall] at hcn
    simp at hcn
  | some t2 =>
    unfold computeNode at hcn
    simp only at hcn
    rw [if_pos hall] at hcn
    simp only [Option.some.injEq] at hcn
    subst hcn
    refine ⟨_, rfl, rfl, rfl, rfl, ?_⟩
    intro var hvar
    simp only [if_pos hvar, hmerge var hvar, Option.map_some']
    refine ⟨trivial, ?_, ?_⟩
    · cases he : t.dataflows var with
      | none =>
        simp only [Option.getD_none]
        rw [specTransfer_noChange_only _ (specMergePreds_normalised heap n var)]
      | some effect =>
        simp only [Option.getD_some]
        rw [applyDataflow_eq_specTransfer]
    · intro he
      simp only [he]

/-- The merge over the predecessors is the fold of the binary merge of the
specification over any enumeration of the predecessors. -/
theorem specMergePreds_eq_foldl (heap : List TableInfo) (n : Nat) (var : String)
    (ps : List Nat) (hps : ps.toFinset = parentsAt heap n) :
    ps.foldl (fun acc p => specMerge acc (postAt heap p var)) ∅
      = specMergePreds heap n var := by
  have key : ∀ (ps : List Nat) (acc : Finset String),
      (DF_UNDEFINED ∈ acc → acc = {DF_UNDEFINED}) →
      ps.foldl (fun acc p => specMerge acc (postAt heap p var)) acc
        = if DF_UNDEFINED ∈ acc ∨ ∃ p ∈ ps, DF_UNDEFINED ∈ postAt heap p var then
            {DF_UNDEFINED}
          else acc ∪ ps.toFinset.biUnion (fun p => postAt heap p var) := by
    intro ps
    induction ps with
    | nil =>
      intro acc hacc
      by_cases h : DF_UNDEFINED ∈ acc
      · simp only [List.foldl_nil, h, true_or, if_true]
        exact hacc h
      · simp [h]
    | cons p rest ih =>
      intro acc hacc
      have hnorm : DF_UNDEFINED ∈ specMerge acc (postAt heap p var) →
          specMerge acc (postAt heap p var) = {DF_UNDEFINED} := by
        unfold specMerge
        by_cases hu : DF_UNDEFINED ∈ acc ∨ DF_UNDEFINED ∈ postAt heap p var
        · rw [if_pos hu]; intro _; rfl
        · rw [if_neg hu]
          intro hm
          exact absurd (Finset.mem_union.mp hm) hu
      rw [List.foldl_cons, ih _ hnorm]
      by_cases hu : DF_UNDEFINED ∈ acc ∨ DF_UNDEFINED ∈ postAt heap p var
      · have h1 : DF_UNDEFINED ∈ specMerge acc (postAt heap p var) := by
          unfold specMerge; rw [if_pos hu]; exact Finset.mem_singleton_self _
        have h2 : DF_UNDEFINED ∈ acc ∨ ∃ q ∈ p :: rest, DF_UNDEFINED ∈ postAt heap q var := by
          rcases hu with hu | hu
          · exact Or.inl hu
          · exact Or.inr ⟨p, List.mem_cons_self _ _, hu⟩
        rw [if_pos (Or.inl h1), if_pos h2]
      · have hsm : specMerge acc (postAt heap p var) = acc ∪ postAt heap p var := by
          unfold specMerge; rw [if_neg hu]
        have h1 : DF_UNDEFINED ∉ specMerge acc (postAt heap p var) := by
          rw [hsm]
          exact fun hm => hu (Finset.mem_union.mp hm)
        by_cases hr : ∃ q ∈ rest, DF_UNDEFINED ∈ postAt heap q var
        · obtain ⟨q, hq, hq2⟩ := hr
          rw [if_pos (Or.inr ⟨q, hq, hq2⟩),
            if_pos (Or.inr ⟨q, List.mem_cons_of_mem _ hq, hq2⟩)]
        · have h2 : ¬ (DF_UNDEFINED ∈ acc ∨
              ∃ q ∈ p :: rest, DF_UNDEFINED ∈ postAt heap q var) := by
            rintro (h | ⟨q, hq, hq2⟩)
            · exact hu (Or.inl h)
            · rcases List.mem_cons.mp hq with rfl | hq
              · exact hu (Or.inr hq2)
              · exact hr ⟨q, hq, hq2⟩
          rw [if_neg (fun h => h.elim h1 hr), if_neg h2, hsm]
          ext x
          simp only [Finset.mem_union, Finset.mem_biUnion, List.mem_toFinset, List.mem_cons,
            exists_eq_or_imp]
          tauto
  rw [key ps ∅ (fun h => by simp at h)]
  unfold specMergePreds
  rw [← hps]
  have hiff : (DF_UNDEFINED ∈ (∅ : Finset String) ∨
      ∃ p ∈ ps, DF_UNDEFINED ∈ postAt heap p var) ↔
      ∃ p ∈ ps.toFinset, DF_UNDEFINED ∈ postAt heap p var := by
    constructor
    · rintro (h | ⟨p, hp, hp2⟩)
      · simp at h
      · exact ⟨p, List.mem_toFinset.mpr hp, hp2⟩
    · rintro ⟨p, hp, hp2⟩
      exact Or.inr ⟨p, List.mem_toFinset.mp hp, hp2⟩
  by_cases h : ∃ p ∈ ps.toFinset, DF_UNDEFINED ∈ postAt heap p var
  · rw [if_pos h, if_pos (hiff.mpr h)]
  · rw [if_neg h, if_neg (fun h2 => h (hiff.mp h2)), Finset.empty_union]

theorem specMergePreds_congr (h1 h2 : List TableInfo) (n : Nat) (var : String)
    (hp : parentsAt h2 n = parentsAt h1 n)
    (hsame : ∀ p ∈ parentsAt h1 n, h2[p]? = h1[p]?) :
    specMergePreds h2 n var = specMergePreds h1 n var := by
  have hpost : ∀ p ∈ parentsAt h1 n, postAt h2 p var = postAt h1 p var := by
    intro p hp1
    unfold postAt
    rw [hsame p hp1]
  unfold specMergePreds
  rw [hp]
  have hiff : (∃ p ∈ parentsAt h1 n, DF_UNDEFINED ∈ postAt h2 p var) ↔
      ∃ p ∈ parentsAt h1 n, DF_UNDEFINED ∈ postAt h1 p var := by
    constructor
    · rintro ⟨p, hp1, hp2⟩
      exact ⟨p, hp1, hpost p hp1 ▸ hp2⟩
    · rintro ⟨p, hp1, hp2⟩
      exact ⟨p, hp1, (hpost p hp1).symm ▸ hp2⟩
  by_cases h : ∃ p ∈ parentsAt h1 n, DF_UNDEFINED ∈ postAt h1 p var
  · rw [if_pos h, if_pos (hiff.mpr h)]
  · rw [if_neg h, if_neg (fun h2 => h (hiff.mp h2))]
    exact Finset.biUnion_congr rfl hpost

theorem computedAt_congr (h1 h2 : List TableInfo) (n : Nat) (h : h2[n]? = h1[n]?) :
    computedAt h2 n = computedAt h1 n := by
  unfold computedAt
  rw [h]

theorem solverStep_refl (variableSet : Finset String) (heap : List TableInfo) :
    solverStep variableSet heap heap := by
  refine ⟨rfl, fun _ => ⟨rfl, rfl⟩, fun _ _ => rfl, fun _ _ => rfl, fun n h1 h2 => ?_⟩
  rw [h1] at h2
  exact absurd h2 (by simp)

theorem solverStep_trans (variableSet : Finset String) (h0 h1 h2 : List TableInfo)
    (s1 : solverStep variableSet h0 h1) (s2 : solverStep variableSet h1 h2) :
    solverStep variableSet h0 h2 := by
  obtain ⟨a1, a2, a3, a4, a5⟩ := s1
  obtain ⟨b1, b2, b3, b4, b5⟩ := s2
  refine ⟨b1.trans a1, fun n => ⟨(b2 n).1.trans (a2 n).1, (b2 n).2.trans (a2 n).2⟩, ?_, ?_, ?_⟩
  · intro n hn
    have h01 := a3 n hn
    have hc1 : computedAt h1 n = true := by rw [computedAt_congr h0 h1 n h01]; exact hn
    exact (b3 n hc1).trans h01
  · intro n hn
    have h12 := b4 n hn
    have hc1 : computedAt h1 n = false := by rw [← computedAt_congr h1 h2 n h12]; exact hn
    exact h12.trans (a4 n hc1)
  · intro n hn0 hn2
    by_cases hc1 : computedAt h1 n = true
    · obtain ⟨t0, t, e0, e1, ep, eq⟩ := a5 n hn0 hc1
      have hfrozen : ∀ p ∈ parentsAt h1 n, h2[p]? = h1[p]? := fun p hp => b3 p (ep p hp)
      refine ⟨t0, t, e0, (b3 n hc1).trans e1, ?_, ?_⟩
      · intro p hp
        rw [(b2 n).1] at hp
        rw [computedAt_congr h1 h2 p (hfrozen p hp)]
        exact ep p hp
      · intro var hvar
        rw [specMergePreds_congr h1 h2 n var (b2 n).1 hfrozen]
        exact eq var hvar
    · have hc1f : computedAt h1 n = false := by
        cases h : computedAt h1 n
        · rfl
        · exact absurd h hc1
      obtain ⟨t0, t, e0, e1, ep, eq⟩ := b5 n hc1f hn2
      exact ⟨t0, t, (a4 n hc1f).symm.trans e0, e1, ep, eq⟩

theorem computedAt_false_of_not_true (heap : List TableInfo) (n : Nat)
    (h : ¬ computedAt heap n = true) : computedAt heap n = false := by
  cases hc : computedAt heap n
  · rfl
  · exact absurd hc h

theorem solverStep_flowGraph (variableSet : Finset String) (h0 h1 : List TableInfo)
    (s1 : solverStep variableSet h0 h1) (hg : FlowGraph h0) : FlowGraph h1 := by
  obtain ⟨a1, a2, _, _, _⟩ := s1
  intro n hn
  rw [a1] at hn
  obtain ⟨g1, g2⟩ := hg n hn
  constructor
  · intro p hp
    rw [(a2 n).1] at hp
    rw [a1, (a2 p).2]
    exact g1 p hp
  · intro c hc
    rw [(a2 n).2] at hc
    rw [a1, (a2 c).1]
    exact g2 c hc

theorem solverStep_computed (variableSet : Finset String) (h0 h1 : List TableInfo)
    (s1 : solverStep variableSet h0 h1) (n : Nat) (hn : computedAt h0 n = true) :
    computedAt h1 n = true := by
  rw [computedAt_congr h0 h1 n (s1.2.2.1 n hn)]
  exact hn

theorem solverStep_hasDataflows (variableSet : Finset String) (h0 h1 : List TableInfo)
    (s1 : solverStep variableSet h0 h1) (hd : hasDataflows variableSet h0) :
    hasDataflows variableSet h1 := by
  intro n t ht hc var hvar
  by_cases h0c : computedAt h0 n = true
  · have hsame := s1.2.2.1 n h0c
    rw [ht] at hsame
    exact hd n t hsame.symm hc var hvar
  · have h1c : computedAt h1 n = true := by
      rw [computedAt_of_some h1 n t ht]; exact hc
    obtain ⟨_, t2, _, e1, _, eq⟩ :=
      s1.2.2.2.2 n (computedAt_false_of_not_true h0 n h0c) h1c
    rw [ht] at e1
    simp only [Option.some.injEq] at e1
    subst e1
    rw [(eq var hvar).2.1]
    rfl

theorem solverStep_uncomputed (variableSet : Finset String) (h0 h1 : List TableInfo)
    (s1 : solverStep variableSet h0 h1) : uncomputed h1 ≤ uncomputed h0 := by
  unfold uncomputed
  rw [s1.1]
  apply Finset.card_le_card
  intro n hn
  simp only [Finset.mem_filter, Finset.mem_range] at hn ⊢
  refine ⟨hn.1, ?_⟩
  by_contra hc
  have := solverStep_computed variableSet h0 h1 s1 n (by
    cases h : computedAt h0 n
    · exact absurd h hc
    · rfl)
  rw [hn.2] at this
  exact absurd this (by simp)

theorem getElem?_set_self_of_some (heap : List TableInfo) (n : Nat) (t t2 : TableInfo)
    (ht : heap[n]? = some t) : (heap.set n t2)[n]? = some t2 := by
  have hlt := getElem?_lt_of_some heap n t ht
  simp [List.getElem?_set, hlt]

theorem getElem?_set_of_ne (heap : List TableInfo) (n m : Nat) (t2 : TableInfo) (h : m ≠ n) :
    (heap.set n t2)[m]? = heap[m]? := by
  simp [List.getElem?_set, Ne.symm h]

/-- Computing one ready node is a stage of the solver. -/
theorem solverStep_set (variableSet : Finset String) (heap : List TableInfo) (n : Nat)
    (t t2 : TableInfo) (ht : heap[n]? = some t) (hun : t.dataflowComputed = false)
    (hpar : ∀ p ∈ t.parents, computedAt heap p = true)
    (h1 : t2.parents = t.parents) (h2 : t2.children = t.children)
    (h3 : t2.dataflowComputed = true)
    (h4 : ∀ var ∈ variableSet,
      t2.keyDataflows var = some (specMergePreds heap n var) ∧
      t2.dataflows var = some (specTransfer (specMergePreds heap n var)
        ((t.dataflows var).getD {DF_NOCHANGE})) ∧
      (t.dataflows var = none → t2.dataflows var = t2.keyDataflows var)) :
    solverStep variableSet heap (heap.set n t2) := by
  have hself := getElem?_set_self_of_some heap n t t2 ht
  have hunc : computedAt heap n = false := by
    rw [computedAt_of_some heap n t ht]; exact hun
  have hne : ∀ p ∈ t.parents, p ≠ n := by
    intro p hp he
    have := hpar p hp
    rw [he, hunc] at this
    exact absurd this (by simp)
  refine ⟨List.length_set _ _ _, ?_, ?_, ?_, ?_⟩
  · intro m
    by_cases hm : m = n
    · subst hm
      constructor
      · rw [parentsAt_of_some _ _ _ hself, parentsAt_of_some _ _ _ ht, h1]
      · rw [childrenAt_of_some _ _ _ hself, childrenAt_of_some _ _ _ ht, h2]
    · unfold parentsAt childrenAt
      rw [getElem?_set_of_ne heap n m t2 hm]
      exact ⟨rfl, rfl⟩
  · intro m hm
    have hmn : m ≠ n := by
      intro he
      rw [he, hunc] at hm
      exact absurd hm (by simp)
    exact getElem?_set_of_ne heap n m t2 hmn
  · intro m hm
    have hmn : m ≠ n := by
      intro he
      rw [he, computedAt_of_some _ _ _ hself, h3] at hm
      exact absurd hm (by simp)
    exact getElem?_set_of_ne heap n m t2 hmn
  · intro m hm0 hm1
    have hmn : m = n := by
      by_contra hc
      rw [computedAt_congr heap (heap.set n t2) m (getElem?_set_of_ne heap n m t2 hc), hm0] at hm1
      exact absurd hm1 (by simp)
    subst hmn
    have hpa : parentsAt (heap.set m t2) m = parentsAt heap m := by
      rw [parentsAt_of_some _ _ _ hself, parentsAt_of_some _ _ _ ht, h1]
    have hsame : ∀ p ∈ parentsAt heap m, (heap.set m t2)[p]? = heap[p]? := by
      intro p hp
      rw [parentsAt_of_some _ _ _ ht] at hp
      exact getElem?_set_of_ne heap m p t2 (hne p hp)
    refine ⟨t, t2, ht, hself, ?_, ?_⟩
    · intro p hp
      rw [hpa] at hp
      rw [computedAt_congr heap _ p (hsame p hp)]
      rw [parentsAt_of_some _ _ _ ht] at hp
      exact hpar p hp
    · intro var hvar
      rw [specMergePreds_congr heap (heap.set m t2) m var hpa hsame]
      exact h4 var hvar

/-- Computing a node strictly decreases the number of uncomputed nodes. -/
theorem uncomputed_set_lt (heap : List TableInfo) (n : Nat) (t t2 : TableInfo)
    (ht : heap[n]? = some t) (hun : t.dataflowComputed = false)
    (h3 : t2.dataflowComputed = true) :
    uncomputed (heap.set n t2) < uncomputed heap := by
  unfold uncomputed
  rw [List.length_set]
  apply Finset.card_lt_card
  have hlt := getElem?_lt_of_some heap n t ht
  have hself := getElem?_set_self_of_some heap n t t2 ht
  constructor
  · intro m hm
    simp only [Finset.mem_filter, Finset.mem_range] at hm ⊢
    refine ⟨hm.1, ?_⟩
    by_cases hmn : m = n
    · subst hmn
      rw [computedAt_of_some _ _ _ ht]; exact hun
    · rw [← computedAt_congr heap _ m (getElem?_set_of_ne heap n m t2 hmn)]
      exact hm.2
  · intro hsub
    have hin : n ∈ (Finset.range heap.length).filter (fun n => computedAt heap n = false) := by
      simp only [Finset.mem_filter, Finset.mem_range]
      exact ⟨hlt, by rw [computedAt_of_some _ _ _ ht]; exact hun⟩
    have := hsub hin
    simp only [Finset.mem_filter, Finset.mem_range] at this
    rw [computedAt_of_some _ _ _ hself, h3] at this
    exact absurd this.2 (by simp)

/-- A node that is ready after `n` has been computed was ready before, or is a successor
of `n`. -/
theorem readyAt_set (heap : List TableInfo) (n : Nat) (t t2 : TableInfo)
    (hg : FlowGraph heap) (ht : heap[n]? = some t)
    (h3 : t2.dataflowComputed = true) (m : Nat)
    (hr : readyAt (heap.set n t2) m) :
    (readyAt heap m ∧ m ≠ n) ∨ m ∈ t.children := by
  have hself := getElem?_set_self_of_some heap n t t2 ht
  obtain ⟨r1, r2, r3⟩ := hr
  rw [List.length_set] at r1
  have hmn : m ≠ n := by
    intro he
    rw [he, computedAt_of_some _ _ _ hself, h3] at r2
    exact absurd r2 (by simp)
  have hm := getElem?_set_of_ne heap n m t2 hmn
  have hpm : parentsAt (heap.set n t2) m = parentsAt heap m := by
    unfold parentsAt; rw [hm]
  by_cases hn : n ∈ parentsAt heap m
  · right
    have := ((hg m r1).1 n hn).2
    rw [childrenAt_of_some _ _ _ ht] at this
    exact this
  · left
    refine ⟨⟨r1, ?_, ?_⟩, hmn⟩
    · rw [← computedAt_congr heap _ m hm]; exact r2
    · intro p hp
      have hpn : p ≠ n := fun he => hn (he ▸ hp)
      rw [← computedAt_congr heap _ p (getElem?_set_of_ne heap n p t2 hpn)]
      exact r3 p (hpm ▸ hp)

/-- The loop over the children, for a visit that is a stage of the solver and leaves no
new ready node: the loop returns, is a stage of the solver, and no node that is ready
afterwards is one of the children. -/
theorem forEachChild_solver (variableSet : Finset String) (B : Nat)
    (visit : List TableInfo → Nat → Except String (List TableInfo))
    (hvisit : ∀ heap tbl, FlowGraph heap → hasDataflows variableSet heap →
      tbl < heap.length → uncomputed heap < B →
      ∃ heap2, visit heap tbl = .ok heap2 ∧ solverStep variableSet heap heap2 ∧
        ∀ m, readyAt heap2 m → readyAt heap m ∧ m ≠ tbl) :
    ∀ (children : List Nat) (heap : List TableInfo), FlowGraph heap →
      hasDataflows variableSet heap → (∀ c ∈ children, c < heap.length) →
      uncomputed heap < B →
      ∃ heap2, forEachChild visit heap children = .ok heap2 ∧
        solverStep variableSet heap heap2 ∧
        ∀ m, readyAt heap2 m → readyAt heap m ∧ m ∉ children := by
  intro children
  induction children with
  | nil =>
    intro heap _ _ _ _
    exact ⟨heap, by rw [forEachChild], solverStep_refl _ _,
      fun m hm => ⟨hm, List.not_mem_nil m⟩⟩
  | cons c rest ih =>
    intro heap hg hd hlt hB
    obtain ⟨h1, e1, s1, r1⟩ := hvisit heap c hg hd (hlt c (List.mem_cons_self _ _)) hB
    obtain ⟨h2, e2, s2, r2⟩ := ih h1 (solverStep_flowGraph _ _ _ s1 hg)
      (solverStep_hasDataflows _ _ _ s1 hd)
      (fun c2 hc2 => by rw [s1.1]; exact hlt c2 (List.mem_cons_of_mem _ hc2))
      (lt_of_le_of_lt (solverStep_uncomputed _ _ _ s1) hB)
    refine ⟨h2, ?_, solverStep_trans _ _ _ _ s1 s2, ?_⟩
    · rw [forEachChild, e1]
      exact e2
    · intro m hm
      obtain ⟨q1, q2⟩ := r2 m hm
      obtain ⟨q3, q4⟩ := r1 m q1
      refine ⟨q3, ?_⟩
      intro hmem
      rcases List.mem_cons.mp hmem with h | h
      · exact q4 h
      · exact q2 h

/-- With more fuel than uncomputed nodes, `computeDataflows` returns on a well-formed
graph whose computed nodes have post-states; the result is a stage of the solver, and no
node that is ready afterwards is new or is the visited node. -/
theorem computeDataflows_solver (variableSet : Finset String) :
    ∀ (fuel : Nat) (heap : List TableInfo) (tbl : Nat), FlowGraph heap →
      hasDataflows variableSet heap → tbl < heap.length → uncomputed heap < fuel →
      ∃ heap2, computeDataflows variableSet fuel heap tbl = .ok heap2 ∧
        solverStep variableSet heap heap2 ∧
        ∀ m, readyAt heap2 m → readyAt heap m ∧ m ≠ tbl := by
  intro fuel
  induction fuel with
  | zero => intro heap tbl _ _ _ h; exact absurd h (Nat.not_lt_zero _)
  | succ fuel ih =>
    intro heap tbl hg hd hlt hB
    obtain ⟨t, ht⟩ : ∃ t, heap[tbl]? = some t := ⟨heap[tbl], List.getElem?_eq_getElem hlt⟩
    rw [computeDataflows]
    simp only [ht]
    by_cases hc : t.dataflowComputed = true
    · rw [if_pos hc]
      refine ⟨heap, rfl, solverStep_refl _ _, fun m hm => ⟨hm, ?_⟩⟩
      intro he
      have := hm.2.1
      rw [he, computedAt_of_some _ _ _ ht, hc] at this
      exact absurd this (by simp)
    · rw [if_neg hc]
      have hun : t.dataflowComputed = false := by
        cases h : t.dataflowComputed
        · rfl
        · exact absurd h hc
      by_cases hany : (orderedPtrs heap t.parents).any (fun parent =>
          match heap[parent]? with
          | some pt => !pt.dataflowComputed
          | none => true) = true
      · rw [if_pos hany]
        refine ⟨heap, rfl, solverStep_refl _ _, fun m hm => ⟨hm, ?_⟩⟩
        intro he
        obtain ⟨p, hp, hp2⟩ := List.any_eq_true.mp hany
        obtain ⟨hplt, hpmem⟩ := (mem_orderedPtrs _ _ _).mp hp
        have hpt : heap[p]? = some heap[p] := List.getElem?_eq_getElem hplt
        rw [hpt] at hp2
        have hpc := hm.2.2 p (by rw [he, parentsAt_of_some _ _ _ ht]; exact hpmem)
        rw [computedAt_of_some _ _ _ hpt] at hpc
        simp only [hpc] at hp2
        exact absurd hp2 (by simp)
      · rw [if_neg hany]
        have hpar : ∀ p ∈ t.parents, computedAt heap p = true := by
          intro p hp
          have hplt : p < heap.length :=
            ((hg tbl hlt).1 p (by rw [parentsAt_of_some _ _ _ ht]; exact hp)).1
          have hpt : heap[p]? = some heap[p] := List.getElem?_eq_getElem hplt
          by_contra hnc
          apply hany
          refine List.any_eq_true.mpr ⟨p, (mem_orderedPtrs _ _ _).mpr ⟨hplt, hp⟩, ?_⟩
          rw [hpt]
          rw [computedAt_of_some _ _ _ hpt] at hnc
          simpa using hnc
        have hps : ∀ p ∈ t.parents, ∃ pt, heap[p]? = some pt ∧
            ∀ var ∈ variableSet, (pt.dataflows var).isSome = true := by
          intro p hp
          obtain ⟨pt, hpt, hptc⟩ := (computedAt_true_iff heap p).mp (hpar p hp)
          exact ⟨pt, hpt, hd p pt hpt hptc⟩
        obtain ⟨t2, hcn, c1, c2, c3, c4⟩ := computeNode_spec variableSet heap tbl t ht hps
        rw [hcn]
        simp only
        have s1 := solverStep_set variableSet heap tbl t t2 ht hun hpar c1 c2 c3 c4
        have hlt1 := uncomputed_set_lt heap tbl t t2 ht hun c3
        obtain ⟨h2, e2, s2, r2⟩ := forEachChild_solver variableSet fuel
          (computeDataflows variableSet fuel) ih (orderedPtrs heap t.children)
          (heap.set tbl t2) (solverStep_flowGraph _ _ _ s1 hg)
          (solverStep_hasDataflows _ _ _ s1 hd)
          (fun c hc => by
            rw [List.length_set]
            exact ((mem_orderedPtrs _ _ _).mp hc).1)
          (by omega)
        refine ⟨h2, e2, solverStep_trans _ _ _ _ s1 s2, ?_⟩
        intro m hm
        obtain ⟨q1, q2⟩ := r2 m hm
        rcases readyAt_set heap tbl t t2 hg ht c3 m q1 with h | h
        · exact h
        · exfalso
          apply q2
          have hmlt := q1.1
          rw [List.length_set] at hmlt
          exact (mem_orderedPtrs _ _ _).mpr ⟨hmlt, h⟩

/-- A node with an allocated uncomputed predecessor is not processed: `computeDataflows`
returns the arena unchanged. -/
theorem computeDataflows_waits (variableSet : Finset String) (fuel : Nat)
    (heap : List TableInfo) (tbl : Nat) (t : TableInfo) (ht : heap[tbl]? = some t)
    (hwait : ∃ p ∈ t.parents, p < heap.length ∧ computedAt heap p = false) :
    computeDataflows variableSet (fuel + 1) heap tbl = .ok heap := by
  rw [computeDataflows]
  simp only [ht]
  by_cases hc : t.dataflowComputed = true
  · rw [if_pos hc]
  · rw [if_neg hc]
    obtain ⟨p, hp, hplt, hpc⟩ := hwait
    have hpt : heap[p]? = some heap[p] := List.getElem?_eq_getElem hplt
    have hany : (orderedPtrs heap t.parents).any (fun parent =>
        match heap[parent]? with
        | some pt => !pt.dataflowComputed
        | none => true) = true := by
      refine List.any_eq_true.mpr ⟨p, (mem_orderedPtrs _ _ _).mpr ⟨hplt, hp⟩, ?_⟩
      rw [computedAt_of_some _ _ _ hpt] at hpc
      simp only [hpt, hpc]
      rfl
    rw [if_pos hany]

theorem seedStart_length (variableSet : Finset String) (heap : List TableInfo) (start : Nat) :
    (seedStart variableSet heap start).length = heap.length :=
  modifyNode_length _ _ _

theorem seedStart_of_ne (variableSet : Finset String) (heap : List TableInfo) (start n : Nat)
    (h : n ≠ start) : (seedStart variableSet heap start)[n]? = heap[n]? := by
  unfold seedStart
  rw [getElem?_modifyNode, if_neg h]

theorem seedStart_graph (variableSet : Finset String) (heap : List TableInfo) (start n : Nat) :
    parentsAt (seedStart variableSet heap start) n = parentsAt heap n ∧
      childrenAt (seedStart variableSet heap start) n = childrenAt heap n := by
  unfold parentsAt childrenAt seedStart
  rw [getElem?_modifyNode]
  by_cases h : n = start
  · rw [if_pos h]
    cases heap[n]? <;> exact ⟨rfl, rfl⟩
  · rw [if_neg h]
    exact ⟨rfl, rfl⟩

theorem seedStart_start (variableSet : Finset String) (heap : List TableInfo) (start : Nat)
    (hstart : start < heap.length) :
    ∃ st, (seedStart variableSet heap start)[start]? = some st ∧
      st.dataflowComputed = true ∧ st.children = childrenAt heap start ∧
      ∀ var ∈ variableSet, st.dataflows var = some {DF_INITIAL} := by
  have hst : heap[start]? = some heap[start] := List.getElem?_eq_getElem hstart
  unfold seedStart
  rw [getElem?_modifyNode, if_pos rfl, hst]
  refine ⟨_, rfl, rfl, ?_, ?_⟩
  · rw [childrenAt_of_some _ _ _ hst]
  · intro var hvar
    simp only [if_pos hvar]
    rfl

/-- The solver phase on a well-formed graph whose nodes are all uncomputed: it returns,
the result is a later stage of the seeded arena, and every node that is ready afterwards
was ready in the seeded arena and is no successor of the start node. -/
theorem solveDataflows_spec (variableSet : Finset String) (heap : List TableInfo) (start : Nat)
    (hg : FlowGraph heap) (hstart : start < heap.length)
    (hfresh : ∀ n, n < heap.length → n ≠ start → computedAt heap n = false) :
    ∃ heap2, solveDataflows variableSet heap start = .ok heap2 ∧
      solverStep variableSet (seedStart variableSet heap start) heap2 ∧
      ∀ m, readyAt heap2 m →
        readyAt (seedStart variableSet heap start) m ∧ m ∉ childrenAt heap start := by
  obtain ⟨st, hst, hstc, hstch, hstd⟩ := seedStart_start variableSet heap start hstart
  have hlen := seedStart_length variableSet heap start
  have hgs : FlowGraph (seedStart variableSet heap start) := by
    intro n hn
    rw [hlen] at hn
    obtain ⟨g1, g2⟩ := hg n hn
    constructor
    · intro p hp
      rw [(seedStart_graph variableSet heap start n).1] at hp
      rw [hlen, (seedStart_graph variableSet heap start p).2]
      exact g1 p hp
    · intro c hc
      rw [(seedStart_graph variableSet heap start n).2] at hc
      rw [hlen, (seedStart_graph variableSet heap start c).1]
      exact g2 c hc
  have hds : hasDataflows variableSet (seedStart variableSet heap start) := by
    intro n t ht htc var hvar
    by_cases hn : n = start
    · subst hn
      rw [hst] at ht
      simp only [Option.some.injEq] at ht
      subst ht
      rw [hstd var hvar]
      rfl
    · exfalso
      have hlt : n < heap.length := by
        rw [← hlen]; exact getElem?_lt_of_some _ _ _ ht
      have hc := hfresh n hlt hn
      rw [← computedAt_congr heap _ n (seedStart_of_ne variableSet heap start n hn),
        computedAt_of_some _ _ _ ht, htc] at hc
      exact absurd hc (by simp)
  have hunc : uncomputed (seedStart variableSet heap start)
      < (seedStart variableSet heap start).length + 1 := by
    unfold uncomputed
    have := Finset.card_filter_le (Finset.range (seedStart variableSet heap start).length)
      (fun n => computedAt (seedStart variableSet heap start) n = false)
    rw [Finset.card_range] at this
    omega
  obtain ⟨heap2, e2, s2, r2⟩ := forEachChild_solver variableSet
    ((seedStart variableSet heap start).length + 1)
    (computeDataflows variableSet ((seedStart variableSet heap start).length + 1))
    (computeDataflows_solver variableSet ((seedStart variableSet heap start).length + 1))
    (orderedPtrs (seedStart variableSet heap start) st.children)
    (seedStart variableSet heap start) hgs hds
    (fun c hc => ((mem_orderedPtrs _ _ _).mp hc).1) hunc
  refine ⟨heap2, ?_, s2, ?_⟩
  · unfold solveDataflows
    simp only [hst]
    exact e2
  · intro m hm
    obtain ⟨q1, q2⟩ := r2 m hm
    refine ⟨q1, ?_⟩
    intro hmem
    apply q2
    rw [hstch]
    exact (mem_orderedPtrs _ _ _).mpr ⟨q1.1, hmem⟩

/-- In a graph where every edge increases a rank there is no directed cycle. -/
theorem acyclic_of_rank (heap : List TableInfo) (rank : Nat → Nat)
    (h : ∀ n, n < heap.length → ∀ p ∈ parentsAt heap n, rank p < rank n) : Acyclic heap := by
  have hedge : ∀ p n, flowEdge heap p n → rank p < rank n := by
    intro p n he
    by_cases hn : n < heap.length
    · exact h n hn p he
    · exfalso
      unfold flowEdge parentsAt at he
      rw [List.getElem?_eq_none (by omega)] at he
      simp at he
  have htrans : ∀ p n, Relation.TransGen (flowEdge heap) p n → rank p < rank n := by
    intro p n hpn
    induction hpn with
    | single he => exact hedge _ _ he
    | tail _ he ih => exact lt_trans ih (hedge _ _ he)
  intro n hn
  exact lt_irrefl _ (htrans n n hn)

/-- Claim C24.  Solver completeness.  On a well-formed acyclic table-flow graph in which
every node is reachable from the start node and no node but the start node is computed,
the solver phase (seeding of the start node, then `computeDataflows` on each child of
the start node) returns, and afterwards every node has `dataflowComputed = true`.  A
node is processed only after all its predecessors are computed: `computeDataflows`
returns the arena unchanged on a node that has an uncomputed predecessor, and every node
it computes has computed predecessors. -/
theorem solver_complete (variableSet : Finset String) (heap : List TableInfo) (start : Nat)
    (hg : FlowGraph heap) (hacyclic : Acyclic heap) (hreach : AllReachable heap start)
    (hstart : start < heap.length)
    (hfresh : ∀ n, n < heap.length → n ≠ start → computedAt heap n = false) :
    (∃ heap2, solveDataflows variableSet heap start = .ok heap2 ∧
      heap2.length = heap.length ∧
      (∀ n, n < heap.length → computedAt heap2 n = true) ∧
      (∀ n, parentsAt heap2 n = parentsAt heap n ∧ childrenAt heap2 n = childrenAt heap n)) ∧
      (∀ (fuel : Nat) (h : List TableInfo) (tbl : Nat) (t : TableInfo), h[tbl]? = some t →
        (∃ p ∈ t.parents, p < h.length ∧ computedAt h p = false) →
        computeDataflows variableSet (fuel + 1) h tbl = .ok h) := by
  refine ⟨?_, fun fuel h tbl t ht hw => computeDataflows_waits variableSet fuel h tbl t ht hw⟩
  obtain ⟨heap2, e2, s2, r2⟩ := solveDataflows_spec variableSet heap start hg hstart hfresh
  have hlen := seedStart_length variableSet heap start
  have hgraph : ∀ n, parentsAt heap2 n = parentsAt heap n ∧
      childrenAt heap2 n = childrenAt heap n := fun n =>
    ⟨(s2.2.1 n).1.trans (seedStart_graph variableSet heap start n).1,
      (s2.2.1 n).2.trans (seedStart_graph variableSet heap start n).2⟩
  refine ⟨heap2, e2, s2.1.trans hlen, ?_, hgraph⟩
  -- no node is ready at the end
  have hnoready : ∀ m, ¬ readyAt heap2 m := by
    intro m hm
    obtain ⟨⟨q1, q2, q3⟩, q4⟩ := r2 m hm
    rw [hlen] at q1
    obtain ⟨st, hst, hstc, _, _⟩ := seedStart_start variableSet heap start hstart
    have hms : m ≠ start := by
      intro he
      rw [he, computedAt_of_some _ _ _ hst, hstc] at q2
      exact absurd q2 (by simp)
    rcases Relation.ReflTransGen.cases_tail (hreach m q1) with he | ⟨p, _, hpm⟩
    · exact hms he
    · have hp : p ∈ parentsAt heap m := hpm
      have hplt : p < heap.length := ((hg m q1).1 p hp).1
      have hpc := q3 p (by rw [(seedStart_graph variableSet heap start m).1]; exact hp)
      have hps : p = start := by
        by_contra hne
        rw [computedAt_congr heap _ p (seedStart_of_ne variableSet heap start p hne),
          hfresh p hplt hne] at hpc
        exact absurd hpc (by simp)
      apply q4
      rw [← hps]
      exact ((hg m q1).1 p hp).2
  -- induction along the edges, which are well-founded on the finitely many nodes
  have hwf : WellFounded (fun a b : Fin heap.length =>
      Relation.TransGen (flowEdge heap) a.1 b.1) := by
    haveI : IsTrans (Fin heap.length) (fun a b : Fin heap.length =>
        Relation.TransGen (flowEdge heap) a.1 b.1) :=
      ⟨fun _ _ _ h1 h2 => Relation.TransGen.trans h1 h2⟩
    haveI : IsIrrefl (Fin heap.length) (fun a b : Fin heap.length =>
        Relation.TransGen (flowEdge heap) a.1 b.1) :=
      ⟨fun a h => hacyclic a.1 h⟩
    exact Finite.wellFounded_of_trans_of_irrefl _
  have hall : ∀ a : Fin heap.length, computedAt heap2 a.1 = true := by
    intro a
    induction a using hwf.induction with
    | _ a ih =>
      by_contra hnc
      apply hnoready a.1
      refine ⟨by rw [s2.1, hlen]; exact a.2, computedAt_false_of_not_true _ _ hnc, ?_⟩
      intro p hp
      rw [(hgraph a.1).1] at hp
      have hplt : p < heap.length := ((hg a.1 a.2).1 p hp).1
      exact ih ⟨p, hplt⟩ (Relation.TransGen.single hp)
  intro n hn
  exact hall ⟨n, hn⟩

/-- Claim C25.  The solver equations.  On a well-formed table-flow graph in which no node
but the start node is computed, the solver phase returns, and every node `n` that it
computes has computed predecessors and satisfies, for every variable `var` of the solver:
`keyDataflows[var]` is the merge of the post-states `dataflows[var]` of the predecessors
of `n`; `dataflows[var]` is the transfer of `keyDataflows[var]` through the effect set
that the table had for `var` before the solver ran, or through `{NOCHANGE}` when it had
none, in which case it is `keyDataflows[var]` itself (the transfer is skipped). -/
theorem solver_equations (variableSet : Finset String) (heap : List TableInfo) (start : Nat)
    (hg : FlowGraph heap) (hstart : start < heap.length)
    (hfresh : ∀ n, n < heap.length → n ≠ start → computedAt heap n = false) :
    ∃ heap2, solveDataflows variableSet heap start = .ok heap2 ∧
      ∀ n, n ≠ start → computedAt heap2 n = true →
        ∃ t0 t, heap[n]? = some t0 ∧ heap2[n]? = some t ∧
          (∀ p ∈ parentsAt heap2 n, computedAt heap2 p = true) ∧
          ∀ var ∈ variableSet,
            t.keyDataflows var = some (specMergePreds heap2 n var) ∧
            t.dataflows var = some (specTransfer (specMergePreds heap2 n var)
              ((t0.dataflows var).getD {DF_NOCHANGE})) ∧
            (t0.dataflows var = none → t.dataflows var = t.keyDataflows var) := by
  obtain ⟨heap2, e2, s2, _⟩ := solveDataflows_spec variableSet heap start hg hstart hfresh
  refine ⟨heap2, e2, ?_⟩
  intro n hn hc
  have hlen := seedStart_length variableSet heap start
  obtain ⟨t, ht, _⟩ := (computedAt_true_iff heap2 n).mp hc
  have hlt : n < heap.length := by
    rw [← hlen, ← s2.1]; exact getElem?_lt_of_some _ _ _ ht
  have hsame := seedStart_of_ne variableSet heap start n hn
  have hunc : computedAt (seedStart variableSet heap start) n = false := by
    rw [computedAt_congr heap _ n hsame]
    exact hfresh n hlt hn
  obtain ⟨t0, t1, a1, a2, a3, a4⟩ := s2.2.2.2.2 n hunc hc
  exact ⟨t0, t1, hsame ▸ a1, a2, a3, a4⟩

/-- What `flow_merge` does, by the names of the two tips: with equal names it returns the
visitor unchanged; with different names (and a non-empty if-stack) it allocates a node
named after the top of the if-stack, with the two tips as its predecessors, the depth one
more than the larger depth of the tips, added to the children of both tips, and makes it
the current node. -/
theorem flow_merge_by_names (v a : GenerateTableFlow) (c ac : TableInfo) (ifId : Int)
    (hc : v.heap[v.curr]? = some c) (hac : v.heap[a.curr]? = some ac)
    (hif : v.ifIds.head? = some ifId) :
    (c.name = ac.name → v.flow_merge a = .ok v) ∧
      (c.name ≠ ac.name →
        ∃ v2 node, v.flow_merge a = .ok v2 ∧ v2.curr = v.heap.length ∧
          v2.heap.length = v.heap.length + 1 ∧ v2.heap[v.heap.length]? = some node ∧
          node.name = "ifConvergeTable" ++ toString ifId ∧
          node.parents = {a.curr, v.curr} ∧ node.ifId = ifId ∧
          node.depth = max (c.depth + 1) (ac.depth + 1) ∧
          v.heap.length ∈ childrenAt v2.heap v.curr ∧
          v.heap.length ∈ childrenAt v2.heap a.curr) := by
  constructor
  · intro hn
    unfold GenerateTableFlow.flow_merge
    simp only [hc, hac]
    rw [if_pos hn]
  · intro hn
    have hlen : (modifyNode (modifyNode v.heap v.curr (fun c =>
        { c with children := insert v.heap.length c.children })) a.curr (fun c =>
        { c with children := insert v.heap.length c.children })).length = v.heap.length := by
      rw [modifyNode_length, modifyNode_length]
    have hclt := getElem?_lt_of_some _ _ _ hc
    have haclt := getElem?_lt_of_some _ _ _ hac
    have hm : v.flow_merge a = .ok { v with
        heap := modifyNode (modifyNode v.heap v.curr (fun c =>
            { c with children := insert v.heap.length c.children })) a.curr (fun c =>
            { c with children := insert v.heap.length c.children }) ++
          [{ name := "ifConvergeTable" ++ toString ifId,
             parents := insert a.curr (insert v.curr ∅),
             ifId := ifId,
             depth := max (c.depth + 1) (ac.depth + 1) }],
        curr := v.heap.length } := by
      unfold GenerateTableFlow.flow_merge
      simp only [hc, hac, hif]
      rw [if_neg hn]
    refine ⟨_,
      { name := "ifConvergeTable" ++ toString ifId,
        parents := insert a.curr (insert v.curr ∅),
        ifId := ifId,
        depth := max (c.depth + 1) (ac.depth + 1) },
      hm, rfl, ?_, ?_, rfl, ?_, rfl, rfl, ?_, ?_⟩
    · simp only [List.length_append, hlen, List.length_singleton]
    · rw [List.getElem?_append_right (by rw [hlen]), hlen]
      simp
    · simp
    · unfold childrenAt
      rw [List.getElem?_append_left (by rw [hlen]; exact hclt), getElem?_modifyNode,
        getElem?_modifyNode, if_pos rfl, hc]
      by_cases h : v.curr = a.curr
      · rw [if_pos h]
        simp
      · rw [if_neg h]
        simp
    · unfold childrenAt
      rw [List.getElem?_append_left (by rw [hlen]; exact haclt), getElem?_modifyNode,
        if_pos rfl, getElem?_modifyNode]
      by_cases h : a.curr = v.curr
      · rw [if_pos h, h, hc]
        simp
      · rw [if_neg h, hac]
        simp

theorem option_eq_some_getD {α : Type} (o : Option α) (d : α) (h : o.isSome = true) :
    o = some (o.getD d) := by
  cases o with
  | none => simp at h
  | some a => rfl

/-- Witness of C23: in the fresh visitor of scenario 6 the table `t1` (node 1) is applied
under the start node (node 3). -/
theorem applyTable_fails_iff_witness :
    ¬ (1 = (GenerateTableFlow.new (summaryOf scenario6)).curr ∨
        (0 < depthAt (GenerateTableFlow.new (summaryOf scenario6)).heap 1 ∧
          depthAt (GenerateTableFlow.new (summaryOf scenario6)).heap 1
            < depthAt (GenerateTableFlow.new (summaryOf scenario6)).heap 3)) ∧
      ∃ v2, (GenerateTableFlow.new (summaryOf scenario6)).applyTable
          (summaryOf scenario6).actions {} 1 = .ok v2 ∧
        v2.curr = 1 ∧ depthAt v2.heap 1 = 1 ∧ parentsAt v2.heap 1 = {3} ∧
        childrenAt v2.heap 3 = {1} := by
  have hthm := applyTable_fails_iff (summaryOf scenario6).actions
    (GenerateTableFlow.new (summaryOf scenario6)) {} 1
    (((GenerateTableFlow.new (summaryOf scenario6)).heap[1]?).getD {})
    (((GenerateTableFlow.new (summaryOf scenario6)).heap[
      (GenerateTableFlow.new (summaryOf scenario6)).curr]?).getD {})
    (option_eq_some_getD _ _ (by decide!)) (option_eq_some_getD _ _ (by decide!))
    (by decide!)
    (fun h => h.elim (fun h1 => absurd h1 (by decide)) (fun h2 => absurd h2 (by decide!)))
  have hno : ¬ (1 = (GenerateTableFlow.new (summaryOf scenario6)).curr ∨
      (0 < depthAt (GenerateTableFlow.new (summaryOf scenario6)).heap 1 ∧
        depthAt (GenerateTableFlow.new (summaryOf scenario6)).heap 1
          < depthAt (GenerateTableFlow.new (summaryOf scenario6)).heap 3)) := by decide!
  obtain ⟨v2, t2, c2, h1, h2, _, h4, h5, h6, _, h8, h9, _⟩ := hthm.2 (by decide!)
  refine ⟨hno, v2, h1, h2, ?_, ?_, ?_⟩
  · rw [depthAt, h4, Option.map_some', Option.getD_some, h8]
    decide!
  · rw [parentsAt_of_some _ _ _ h4, h6]
    decide!
  · have h5b : v2.heap[3]? = some c2 := h5
    rw [childrenAt_of_some _ _ _ h5b, h9]
    decide!

/-- Witness of C26 on the summaries of scenario 6: the only action of `t1` assigns a
computed value to `meta.a`, so the effect set of `meta.a` is `{UNDEFINED}`. -/
theorem prepareDataflow_effect_sets_witness :
    (∀ act ∈ (((summaryOf scenario6).heap[1]?).getD ({} : TableInfo)).actions,
        ((summaryOf scenario6).actions act).isSome = true) ∧
      ∃ m2 t2, prepareDataflow (summaryOf scenario6) 1 = .ok m2 ∧ m2.heap[1]? = some t2 ∧
        t2.dataflows "meta.a" = some {DF_UNDEFINED} := by
  refine ⟨by decide!, ?_⟩
  obtain ⟨m2, t2, h1, h2, _, h4⟩ := prepareDataflow_effect_sets (summaryOf scenario6) 1
    (((summaryOf scenario6).heap[1]?).getD {}) (option_eq_some_getD _ _ (by decide!))
    (by decide!)
  have hact : (summaryOf scenario6).actions "a1"
      = some (((summaryOf scenario6).actions "a1").getD {}) :=
    option_eq_some_getD _ _ (by decide!)
  have hcontrib : specContributes (((summaryOf scenario6).actions "a1").getD {}) "meta.a"
      DF_UNDEFINED := by
    have he : (((summaryOf scenario6).actions "a1").getD {}).edataflows "meta.a" = none := by
      decide!
    have hd : (((summaryOf scenario6).actions "a1").getD {}).dataflows "meta.a"
        = some DF_UNDEFINED := by decide!
    unfold specContributes
    rw [he, hd]
  obtain ⟨E, e1, e2, _⟩ := (h4 "meta.a").1
    ⟨"a1", by decide!, _, hact, by decide!⟩
  rw [e2 ⟨"a1", by decide!, _, hact, hcontrib⟩] at e1
  exact ⟨m2, t2, h1, h2, e1⟩

/-- Witness of C27: inside the action `a1`, after `meta.a = hdr.h.f; meta.a = hdr.h.g;`
the summary holds `hdr.h.g` for `meta.a`. -/
theorem assignment_summary_witness :
    (insideAction_a1.inferForFunc = some "a1" ∧
      (insideAction_a1.maps.actions "a1").isSome = true) ∧
      ∃ fi2, (insideAction_a1.visitStatements {}
          (assignmentStatements [(meta_a, hdr_h_f), (meta_a, hdr_h_g)])).maps.actions "a1"
          = some fi2 ∧
        fi2.dataflows "meta.a" = some "hdr.h.g" := by
  refine ⟨⟨rfl, by decide!⟩, ?_⟩
  obtain ⟨fi2, h1, h2, _⟩ := assignment_summary [(meta_a, hdr_h_f), (meta_a, hdr_h_g)]
    insideAction_a1 {} "a1" ((insideAction_a1.maps.actions "a1").getD {}) rfl
    (option_eq_some_getD _ _ (by decide!))
  exact ⟨fi2, h1, (h2 "meta.a" (by decide)).1 "hdr.h.g" (by decide!)⟩

/-- The table flow of scenario 6 is acyclic: the depth increases along every edge. -/
theorem scenario6Flow_acyclic : Acyclic scenario6Flow.heap :=
  acyclic_of_rank _ (fun n => (depthAt scenario6Flow.heap n).toNat) (by decide!)

/-- Every node of the table flow of scenario 6 is reachable from the start node along
`StartTable → parser → t1 → t2`. -/
theorem scenario6Flow_reachable : AllReachable scenario6Flow.heap scenario6Flow.start := by
  have hlen : scenario6Flow.heap.length = 4 := by decide!
  have hstart : scenario6Flow.start = 3 := by decide!
  have e30 : flowEdge scenario6Flow.heap 3 0 := by decide!
  have e01 : flowEdge scenario6Flow.heap 0 1 := by decide!
  have e12 : flowEdge scenario6Flow.heap 1 2 := by decide!
  intro n hn
  rw [hlen] at hn
  rw [hstart]
  have r0 : Relation.ReflTransGen (flowEdge scenario6Flow.heap) 3 0 :=
    Relation.ReflTransGen.single e30
  have r1 : Relation.ReflTransGen (flowEdge scenario6Flow.heap) 3 1 := r0.tail e01
  have r2 : Relation.ReflTransGen (flowEdge scenario6Flow.heap) 3 2 := r1.tail e12
  interval_cases n
  · exact r0
  · exact r1
  · exact r2
  · exact Relation.ReflTransGen.refl

/-- Witness of C24 on the table flow of scenario 6: the solver phase computes the four
nodes. -/
theorem solver_complete_witness :
    (FlowGraph scenario6Flow.heap ∧ scenario6Flow.start < scenario6Flow.heap.length ∧
      ∀ n, n < scenario6Flow.heap.length → n ≠ scenario6Flow.start →
        computedAt scenario6Flow.heap n = false) ∧
      ∃ heap2, solveDataflows scenario6Flow.variableSet scenario6Flow.heap scenario6Flow.start
          = .ok heap2 ∧
        heap2.length = scenario6Flow.heap.length ∧
        ∀ n, n < scenario6Flow.heap.length → computedAt heap2 n = true :=
  ⟨⟨by decide!, by decide!, by decide!⟩,
    (solver_complete scenario6Flow.variableSet scenario6Flow.heap scenario6Flow.start
      (by decide!) scenario6Flow_acyclic scenario6Flow_reachable (by decide!)
      (by decide!)).1.imp (fun _ h => ⟨h.1, h.2.1, h.2.2.1⟩)⟩

/-- Witness of C25 on the table flow of scenario 6: the solver phase returns and the
nodes it computes satisfy the equations. -/
theorem solver_equations_witness :
    (FlowGraph scenario6Flow.heap ∧ scenario6Flow.start < scenario6Flow.heap.length ∧
      ∀ n, n < scenario6Flow.heap.length → n ≠ scenario6Flow.start →
        computedAt scenario6Flow.heap n = false) ∧
      ∃ heap2, solveDataflows scenario6Flow.variableSet scenario6Flow.heap scenario6Flow.start
          = .ok heap2 ∧
        ∀ n, n ≠ scenario6Flow.start → computedAt heap2 n = true →
          ∃ t0 t, scenario6Flow.heap[n]? = some t0 ∧ heap2[n]? = some t ∧
            (∀ p ∈ parentsAt heap2 n, computedAt heap2 p = true) ∧
            ∀ var ∈ scenario6Flow.variableSet,
              t.keyDataflows var = some (specMergePreds heap2 n var) ∧
              t.dataflows var = some (specTransfer (specMergePreds heap2 n var)
                ((t0.dataflows var).getD {DF_NOCHANGE})) ∧
              (t0.dataflows var = none → t.dataflows var = t.keyDataflows var) :=
  ⟨⟨by decide!, by decide!, by decide!⟩,
    solver_equations scenario6Flow.variableSet scenario6Flow.heap scenario6Flow.start
      (by decide!) (by decide!) (by decide!)⟩

/-! ## Table flow, solver and summaries: the scenarios -/

/-- Two nodes that are predecessors of each other form a directed cycle. -/
theorem not_acyclic_of_two_cycle (heap : List TableInfo) (a b : Nat)
    (h1 : flowEdge heap a b) (h2 : flowEdge heap b a) : ¬ Acyclic heap :=
  fun h => h a (Relation.TransGen.tail (Relation.TransGen.single h1) h2)

/-- C22 on the code: the program `if (x) { B.apply(); C.apply(); } else { C.apply();
B.apply(); }` passes both bug checks (in the else-branch `C` has depth 3 under a current
node of depth 1, and `B` then has depth 2 under `C` of depth 2), the passes complete, and
the graph has the edges `B → C` and `C → B`: a directed cycle.  The solver computes
neither `B`, `C` nor the converge node. -/
theorem cyclic_flow_passes_bug_checks :
    succeeds (CopyVariableDetection cyclicFlow) = true ∧
      nodeNames (mapsOf cyclicFlow).heap
        = ["parser", "B", "C", "StartTable", "ifConvergeTable7"] ∧
      flowEdges (mapsOf cyclicFlow).heap
        = [(0, 1), (0, 2), (1, 2), (1, 4), (2, 1), (2, 4), (3, 0)] ∧
      FlowGraph (mapsOf cyclicFlow).heap ∧
      isFlowPath (mapsOf cyclicFlow).heap [1, 2, 1] = true ∧
      computedOf (mapsOf cyclicFlow).heap = [true, false, false, true, false] ∧
      ¬ Acyclic (mapsOf cyclicFlow).heap :=
  ⟨by decide!, by decide!, by decide!, by decide!, by decide!, by decide!,
    not_acyclic_of_two_cycle _ 1 2 (by decide!) (by decide!)⟩

/-- C30 on the code: in the program `if (x) { A.apply(); B.apply(); } else { B.apply(); }`
the passes complete; `StartTable → parser → A → B` is a path of length 3, but the second
application of `B`, under the parser, resets the depth of `B` to 2, which is also the
depth of its predecessor `A`. -/
theorem depth_reset_by_second_application :
    succeeds (CopyVariableDetection shallowFlow) = true ∧
      nodeNames (mapsOf shallowFlow).heap = ["parser", "A", "B", "StartTable"] ∧
      flowEdges (mapsOf shallowFlow).heap = [(0, 1), (0, 2), (1, 2), (3, 0)] ∧
      isFlowPath (mapsOf shallowFlow).heap [3, 0, 1, 2] = true ∧
      depthsOf (mapsOf shallowFlow).heap = [1, 2, 2, 0] ∧
      flowEdge (mapsOf shallowFlow).heap 1 2 ∧
      depthAt (mapsOf shallowFlow).heap 1 = depthAt (mapsOf shallowFlow).heap 2 := by
  decide!

/-- C29 on the code: in the program `twoSwitches` the tips of the two branches of the
`if` are the nodes 5 and 6, two different nodes that are both named
`switchConvergeTable`; `flow_merge` compares the names, allocates no converge node and
keeps node 5 as the current node, so `t3` gets node 5 as its only predecessor and node 6
has no successor.  In scenario 5, where the tips `t1` and `t2` have different names, the
converge node `ifConvergeTable7` is allocated. -/
theorem switch_tips_not_merged :
    succeeds (CopyVariableDetection twoSwitches) = true ∧
      nodeNames (mapsOf twoSwitches).heap
        = ["parser", "t1", "t2", "t3", "StartTable", "switchConvergeTable",
           "switchConvergeTable"] ∧
      flowEdges (mapsOf twoSwitches).heap = [(0, 1), (0, 2), (1, 5), (2, 6), (4, 0), (5, 3)] ∧
      parentsAt (mapsOf twoSwitches).heap 3 = {5} ∧
      childrenAt (mapsOf twoSwitches).heap 6 = ∅ ∧
      mergeOutcome { builtFlow twoSwitches with curr := 5, ifIds := [7] }
          { builtFlow twoSwitches with curr := 6, ifIds := [7] } = some (5, 7) ∧
      nodeNames (mapsOf scenario5).heap
        = ["parser", "t1", "t2", "t3", "StartTable", "ifConvergeTable7"] ∧
      flowEdges (mapsOf scenario5).heap = [(0, 1), (0, 2), (1, 5), (2, 5), (4, 0), (5, 3)] := by
  decide!

/-- C28 on the code: the state `s1` of the program `twoExtracts` extracts `A`, then `B`;
the counter `pos` starts at 0 in every call, so the second call overwrites
`firstHeaderExtracted`, and both `firstHeaderExtracted` and `lastHeaderExtracted` are
`B` after the state is visited. -/
theorem first_header_overwritten :
    succeeds (CommonFields.analyse twoExtracts) = true ∧
      (parserStatesOf twoExtracts).map (fun ps => (ps.name, ps.components.length))
        = [("s1", 2)] ∧
      extractedHeaders (analysisOf twoExtracts) "s1" = some ("B", "B") := by
  decide!

/-- C21 on the code: in the program `sharedHeader` the header `A` is a successor header
of the branching states `s0` (with `B`, common prefix 2) and `s2` (with `C`, common prefix
1).  The first run synthesizes `A_common_0 { x, y }` and `A_common_1 { x }` and keeps for
`A` the residual of the second commoning, `{ y, z }`, next to the residual `{ w }` of `B`.
On the output the analysis finds the common prefix 1 at `s0` and synthesizes a header
again.  On the output of scenario 1 it synthesizes and modifies nothing. -/
theorem commoning_not_idempotent :
    (allFixedWidth headerA8 ∧ allFixedWidth headerB8 ∧ allFixedWidth headerC16) ∧
      succeeds (CommonFields.apply (hdrTypeOf abcFields) sharedHeader) = true ∧
      newHeaderFields (analysisOf sharedHeader)
        = [("A_common_0", ["x", "y"]), ("A_common_1", ["x"])] ∧
      modifiedHeaderFields (analysisOf sharedHeader)
        = [("A", ["y", "z"]), ("B", ["w"]), ("C", ["v"])] ∧
      successorHeaders (analysisOf (rewrittenProgram (hdrTypeOf abcFields) sharedHeader)) "s0"
        = [("s1", "A"), ("s2", "B")] ∧
      prefixLengthAt (analysisOf (rewrittenProgram (hdrTypeOf abcFields) sharedHeader)) "s0"
        = some (1, "A") ∧
      newHeaderFields (analysisOf (rewrittenProgram (hdrTypeOf abcFields) sharedHeader))
        = [("A_common_0", ["y"])] ∧
      modifiedHeaderFields (analysisOf (rewrittenProgram (hdrTypeOf abcFields) sharedHeader))
        = [("A", ["z"]), ("B", [])] ∧
      prefixLengthAt (analysisOf (rewrittenProgram (hdrTypeOf abFields) commoningScenario1))
        "s0" = some (0, "A") ∧
      newHeaderFields (analysisOf (rewrittenProgram (hdrTypeOf abFields) commoningScenario1))
        = [] ∧
      modifiedHeaderFields
        (analysisOf (rewrittenProgram (hdrTypeOf abFields) commoningScenario1)) = [] := by
  decide!

/-! ## The lattice operations: order independence and normal forms -/

theorem specMerge_comm (A B : Finset String) : specMerge A B = specMerge B A := by
  unfold specMerge
  by_cases h : DF_UNDEFINED ∈ A ∨ DF_UNDEFINED ∈ B
  · rw [if_pos h, if_pos h.symm]
  · rw [if_neg h, if_neg (fun h2 => h h2.symm), Finset.union_comm]

theorem specMerge_undefined_iff (A B : Finset String) :
    DF_UNDEFINED ∈ specMerge A B ↔ (DF_UNDEFINED ∈ A ∨ DF_UNDEFINED ∈ B) := by
  unfold specMerge
  by_cases h : DF_UNDEFINED ∈ A ∨ DF_UNDEFINED ∈ B
  · rw [if_pos h]; simp [h]
  · rw [if_neg h, Finset.mem_union]

theorem specMerge_assoc (A B C : Finset String) :
    specMerge (specMerge A B) C = specMerge A (specMerge B C) := by
  by_cases h : DF_UNDEFINED ∈ A ∨ DF_UNDEFINED ∈ B ∨ DF_UNDEFINED ∈ C
  · have h1 : DF_UNDEFINED ∈ specMerge A B ∨ DF_UNDEFINED ∈ C := by
      rw [specMerge_undefined_iff]; tauto
    have h2 : DF_UNDEFINED ∈ A ∨ DF_UNDEFINED ∈ specMerge B C := by
      rw [specMerge_undefined_iff]; tauto
    rw [specMerge, if_pos h1, specMerge, if_pos h2]
  · have h1 : ¬ (DF_UNDEFINED ∈ specMerge A B ∨ DF_UNDEFINED ∈ C) := by
      rw [specMerge_undefined_iff]; tauto
    have h2 : ¬ (DF_UNDEFINED ∈ A ∨ DF_UNDEFINED ∈ specMerge B C) := by
      rw [specMerge_undefined_iff]; tauto
    have h3 : ¬ (DF_UNDEFINED ∈ A ∨ DF_UNDEFINED ∈ B) := by tauto
    have h4 : ¬ (DF_UNDEFINED ∈ B ∨ DF_UNDEFINED ∈ C) := by tauto
    rw [specMerge, if_neg h1, specMerge, if_neg h3]
    conv_rhs => rw [specMerge, if_neg h2, specMerge, if_neg h4]
    exact Finset.union_assoc A B C

/-- One step of the loop over the parents in `mergeParents` can be exchanged with the
next one. -/
theorem mergeParents_step_comm (heap : List TableInfo) (var : String)
    (a : Option (Finset String)) (p q : Nat) :
    (fun (dataflow : Option (Finset String)) (parent : Nat) =>
        match dataflow, heap[parent]? with
        | some df, some pt =>
          match pt.dataflows var with
          | some pdf => some (mergeDataflow df pdf)
          | none => none
        | _, _ => none)
      ((fun (dataflow : Option (Finset String)) (parent : Nat) =>
        match dataflow, heap[parent]? with
        | some df, some pt =>
          match pt.dataflows var with
          | some pdf => some (mergeDataflow df pdf)
          | none => none
        | _, _ => none) a p) q
    = (fun (dataflow : Option (Finset String)) (parent : Nat) =>
        match dataflow, heap[parent]? with
        | some df, some pt =>
          match pt.dataflows var with
          | some pdf => some (mergeDataflow df pdf)
          | none => none
        | _, _ => none)
      ((fun (dataflow : Option (Finset String)) (parent : Nat) =>
        match dataflow, heap[parent]? with
        | some df, some pt =>
          match pt.dataflows var with
          | some pdf => some (mergeDataflow df pdf)
          | none => none
        | _, _ => none) a q) p := by
  cases a with
  | none => cases hp : heap[p]? <;> cases hq : heap[q]? <;> simp [hp, hq]
  | some df =>
    cases hp : heap[p]? with
    | none => cases hq : heap[q]? with
      | none => simp [hp, hq]
      | some qt => cases hqd : qt.dataflows var <;> simp [hp, hq, hqd]
    | some pt =>
      cases hq : heap[q]? with
      | none => cases hpd : pt.dataflows var <;> simp [hp, hq, hpd]
      | some qt =>
        cases hpd : pt.dataflows var with
        | none => cases hqd : qt.dataflows var <;> simp [hp, hq, hpd, hqd]
        | some pdf =>
          cases hqd : qt.dataflows var with
          | none => simp [hp, hq, hpd, hqd]
          | some qdf =>
            simp only [hp, hq, hpd, hqd, Option.some.injEq]
            rw [mergeDataflow_eq_specMerge, mergeDataflow_eq_specMerge,
              mergeDataflow_eq_specMerge, mergeDataflow_eq_specMerge, specMerge_assoc,
              specMerge_comm pdf qdf, ← specMerge_assoc]

/-- The merge over a list of parents is the same for every order of the list. -/
theorem mergeParents_perm (heap : List TableInfo) (var : String) (ps qs : List Nat)
    (h : ps.Perm qs) : mergeParents heap ps var = mergeParents heap qs var := by
  unfold mergeParents
  exact List.Perm.foldl_eq' h (fun x _ y _ z => mergeParents_step_comm heap var z x y) _

/-- Claim C33.  `mergeDataflow` is commutative and associative on token sets, and the
value that `computeDataflows` folds with it from the empty set over the predecessors of
a node is the same for every order in which the predecessors are iterated. -/
theorem mergeDataflow_order_independent (A B C : Finset String) (heap : List TableInfo)
    (var : String) (ps qs : List Nat) (h : ps.Perm qs) :
    mergeDataflow A B = mergeDataflow B A ∧
      mergeDataflow (mergeDataflow A B) C = mergeDataflow A (mergeDataflow B C) ∧
      mergeParents heap ps var = mergeParents heap qs var := by
  refine ⟨?_, ?_, mergeParents_perm heap var ps qs h⟩
  · rw [mergeDataflow_eq_specMerge, mergeDataflow_eq_specMerge, specMerge_comm]
  · rw [mergeDataflow_eq_specMerge, mergeDataflow_eq_specMerge, mergeDataflow_eq_specMerge,
      mergeDataflow_eq_specMerge, specMerge_assoc]

theorem normalised_empty : normalised (∅ : Finset String) :=
  ⟨Finset.not_mem_empty _, fun h => absurd h (Finset.not_mem_empty _)⟩

theorem specMerge_normalised (A B : Finset String) (hA : DF_NOCHANGE ∉ A)
    (hB : DF_NOCHANGE ∉ B) : normalised (specMerge A B) := by
  have hne : DF_NOCHANGE ≠ DF_UNDEFINED := by decide
  unfold specMerge normalised
  by_cases h : DF_UNDEFINED ∈ A ∨ DF_UNDEFINED ∈ B
  · rw [if_pos h]
    exact ⟨fun hm => hne (Finset.mem_singleton.mp hm), fun _ => rfl⟩
  · rw [if_neg h]
    refine ⟨fun hm => ?_, fun hm => absurd (Finset.mem_union.mp hm) h⟩
    rcases Finset.mem_union.mp hm with h1 | h1
    · exact hA h1
    · exact hB h1

theorem specTransfer_normalised (X E : Finset String) (hX : DF_NOCHANGE ∉ X) :
    normalised (specTransfer X E) := by
  have hne : DF_NOCHANGE ≠ DF_UNDEFINED := by decide
  have hX1 : DF_NOCHANGE ∉ (if DF_NOCHANGE ∉ E then ∅ else X) := by
    split_ifs
    · exact hX
    · exact Finset.not_mem_empty _
  have hX2 : DF_NOCHANGE ∉ (if DF_NOCHANGE ∉ E then ∅ else X) ∪
      E.filter (fun t => t ≠ DF_NOCHANGE) := by
    intro hm
    rcases Finset.mem_union.mp hm with h | h
    · exact hX1 h
    · exact (Finset.mem_filter.mp h).2 rfl
  unfold specTransfer normalised
  simp only
  by_cases h : DF_UNDEFINED ∈ (if DF_NOCHANGE ∉ E then ∅ else X) ∪
      E.filter (fun t => t ≠ DF_NOCHANGE)
  · rw [if_pos h]
    exact ⟨fun hm => hne (Finset.mem_singleton.mp hm), fun _ => rfl⟩
  · rw [if_neg h]
    exact ⟨hX2, fun hm => absurd hm h⟩

/-! ## The dataflow solver: normalised values -/

/-- The loop over the parents in `mergeParents` stays at a null pointer. -/
theorem mergeParents_fold_none (heap : List TableInfo) (var : String) (ps : List Nat) :
    ps.foldl (fun dataflow parent =>
      match dataflow, heap[parent]? with
      | some df, some pt =>
        match pt.dataflows var with
        | some pdf => some (mergeDataflow df pdf)
        | none => none
      | _, _ => none) (none : Option (Finset String)) = none := by
  induction ps with
  | nil => rfl
  | cons p rest ih => simpa using ih

/-- The merge over parents whose post-states hold no `NOCHANGE` is a normalised lattice
element. -/
theorem mergeParents_fold_normalised (heap : List TableInfo) (var : String) :
    ∀ (ps : List Nat) (acc X : Finset String), normalised acc →
      (∀ p ∈ ps, ∀ (pt : TableInfo) (D : Finset String), heap[p]? = some pt →
        pt.dataflows var = some D → DF_NOCHANGE ∉ D) →
      ps.foldl (fun dataflow parent =>
        match dataflow, heap[parent]? with
        | some df, some pt =>
          match pt.dataflows var with
          | some pdf => some (mergeDataflow df pdf)
          | none => none
        | _, _ => none) (some acc) = some X →
      normalised X := by
  intro ps
  induction ps with
  | nil =>
    intro acc X hacc _ h
    simp only [List.foldl_nil, Option.some.injEq] at h
    exact h ▸ hacc
  | cons p rest ih =>
    intro acc X hacc hps h
    rw [List.foldl_cons] at h
    cases hp : heap[p]? with
    | none =>
      simp only [hp] at h
      rw [mergeParents_fold_none] at h
      exact absurd h (by simp)
    | some pt =>
      cases hd : pt.dataflows var with
      | none =>
        simp only [hp, hd] at h
        rw [mergeParents_fold_none] at h
        exact absurd h (by simp)
      | some pdf =>
        simp only [hp, hd] at h
        rw [mergeDataflow_eq_specMerge] at h
        exact ih (specMerge acc pdf) X
          (specMerge_normalised acc pdf hacc.1 (hps p (List.mem_cons_self _ _) pt pdf hp hd))
          (fun q hq => hps q (List.mem_cons_of_mem _ hq)) h

/-- The loop over the variables at a node whose parents hold no `NOCHANGE`: the key
dataflow and the post-state of every variable of the solver are normalised lattice
elements, whatever the effect sets of the node are. -/
theorem computeNode_normalised (variableSet : Finset String) (heap : List TableInfo)
    (t t2 : TableInfo) (hcn : computeNode variableSet heap t = some t2)
    (hps : ∀ p ∈ orderedPtrs heap t.parents, ∀ (pt : TableInfo), heap[p]? = some pt →
      ∀ var ∈ variableSet, ∀ (D : Finset String), pt.dataflows var = some D →
        DF_NOCHANGE ∉ D) :
    t2.dataflowComputed = true ∧
      ∀ var ∈ variableSet,
        (∃ K, t2.keyDataflows var = some K ∧ normalised K) ∧
        (∃ D, t2.dataflows var = some D ∧ normalised D) := by
  unfold computeNode at hcn
  simp only at hcn
  split at hcn
  · rename_i hall
    simp only [Option.some.injEq] at hcn
    subst hcn
    refine ⟨rfl, ?_⟩
    intro var hvar
    obtain ⟨X, hX⟩ := Option.isSome_iff_exists.mp (hall var hvar)
    have hXn : normalised X := by
      unfold mergeParents at hX
      exact mergeParents_fold_normalised heap var _ ∅ X normalised_empty
        (fun p hp pt D hpt hD => hps p hp pt hpt var hvar D hD) hX
    simp only [if_pos hvar, hX, Option.map_some']
    refine ⟨⟨X, rfl, hXn⟩, ?_⟩
    cases he : t.dataflows var with
    | none => exact ⟨X, rfl, hXn⟩
    | some effect =>
      refine ⟨_, rfl, ?_⟩
      simp only
      rw [applyDataflow_eq_specTransfer]
      exact specTransfer_normalised X effect hXn.1
  · exact absurd hcn (by simp)

/-- A call of `computeDataflows` that returns either leaves the arena as it is, or
computes the node, which was uncomputed with all its parents computed, and then visits the
children. -/
theorem computeDataflows_cases (variableSet : Finset String) (fuel : Nat)
    (heap heap2 : List TableInfo) (tbl : Nat)
    (h : computeDataflows variableSet (fuel + 1) heap tbl = .ok heap2) :
    heap2 = heap ∨ ∃ t t2, heap[tbl]? = some t ∧ t.dataflowComputed = false ∧
      (∀ p ∈ orderedPtrs heap t.parents, computedAt heap p = true) ∧
      computeNode variableSet heap t = some t2 ∧
      forEachChild (computeDataflows variableSet fuel) (heap.set tbl t2)
        (orderedPtrs heap t.children) = .ok heap2 := by
  rw [computeDataflows] at h
  cases ht : heap[tbl]? with
  | none => simp only [ht] at h; exact absurd h (by simp)
  | some t =>
    simp only [ht] at h
    by_cases hc : t.dataflowComputed = true
    · rw [if_pos hc] at h
      exact Or.inl (Except.ok.inj h).symm
    · rw [if_neg hc] at h
      have hun : t.dataflowComputed = false := by
        cases hb : t.dataflowComputed
        · rfl
        · exact absurd hb hc
      by_cases hany : (orderedPtrs heap t.parents).any (fun parent =>
          match heap[parent]? with
          | some pt => !pt.dataflowComputed
          | none => true) = true
      · rw [if_pos hany] at h
        exact Or.inl (Except.ok.inj h).symm
      · rw [if_neg hany] at h
        have hpar : ∀ p ∈ orderedPtrs heap t.parents, computedAt heap p = true := by
          intro p hp
          have hplt := ((mem_orderedPtrs _ _ _).mp hp).1
          have hpt : heap[p]? = some heap[p] := List.getElem?_eq_getElem hplt
          by_contra hnc
          apply hany
          refine List.any_eq_true.mpr ⟨p, hp, ?_⟩
          rw [hpt]
          rw [computedAt_of_some _ _ _ hpt] at hnc
          simpa using hnc
        cases hcn : computeNode variableSet heap t with
        | none => simp only [hcn] at h; exact absurd h (by simp)
        | some t2 =>
          simp only [hcn] at h
          exact Or.inr ⟨t, t2, rfl, hun, hpar, hcn, h⟩

/-- A property of the arena that every visit keeps is kept by the loop over the
children. -/
theorem forEachChild_preserves (P : List TableInfo → Prop)
    (visit : List TableInfo → Nat → Except String (List TableInfo))
    (hvisit : ∀ heap tbl heap2, P heap → visit heap tbl = .ok heap2 → P heap2) :
    ∀ (children : List Nat) (heap heap2 : List TableInfo), P heap →
      forEachChild visit heap children = .ok heap2 → P heap2 := by
  intro children
  induction children with
  | nil =>
    intro heap heap2 hP h
    rw [forEachChild] at h
    exact (Except.ok.inj h) ▸ hP
  | cons c rest ih =>
    intro heap heap2 hP h
    rw [forEachChild] at h
    cases hv : visit heap c with
    | error e => simp only [hv] at h; exact absurd h (by simp)
    | ok h1 =>
      simp only [hv] at h
      exact ih h1 heap2 (hvisit heap c h1 hP hv) h

/-- A property of the arena that is kept when a ready node is computed is kept by
`computeDataflows`. -/
theorem computeDataflows_preserves (variableSet : Finset String) (P : List TableInfo → Prop)
    (hstep : ∀ (heap : List TableInfo) (tbl : Nat) (t t2 : TableInfo), P heap →
      heap[tbl]? = some t → t.dataflowComputed = false →
      (∀ p ∈ orderedPtrs heap t.parents, computedAt heap p = true) →
      computeNode variableSet heap t = some t2 → P (heap.set tbl t2)) :
    ∀ (fuel : Nat) (heap : List TableInfo) (tbl : Nat) (heap2 : List TableInfo), P heap →
      computeDataflows variableSet fuel heap tbl = .ok heap2 → P heap2 := by
  intro fuel
  induction fuel with
  | zero =>
    intro heap tbl heap2 _ h
    rw [computeDataflows] at h
    exact absurd h (by simp)
  | succ fuel ih =>
    intro heap tbl heap2 hP h
    rcases computeDataflows_cases variableSet fuel heap heap2 tbl h with he | ⟨t, t2, ht, hun,
      hpar, hcn, hf⟩
    · exact he ▸ hP
    · exact forEachChild_preserves P (computeDataflows variableSet fuel) ih _ _ heap2
        (hstep heap tbl t t2 hP ht hun hpar hcn) hf

/-- Computing a ready node keeps the post-states of the computed nodes normalised. -/
theorem normalisedPosts_set (variableSet : Finset String) (heap : List TableInfo) (tbl : Nat)
    (t t2 : TableInfo) (hP : normalisedPosts variableSet heap) (ht : heap[tbl]? = some t)
    (hpar : ∀ p ∈ orderedPtrs heap t.parents, computedAt heap p = true)
    (hcn : computeNode variableSet heap t = some t2) :
    normalisedPosts variableSet (heap.set tbl t2) := by
  have hps : ∀ p ∈ orderedPtrs heap t.parents, ∀ (pt : TableInfo), heap[p]? = some pt →
      ∀ var ∈ variableSet, ∀ (D : Finset String), pt.dataflows var = some D →
        DF_NOCHANGE ∉ D := by
    intro p hp pt hpt var hvar D hD
    have hc := hpar p hp
    rw [computedAt_of_some _ _ _ hpt] at hc
    obtain ⟨D2, hD2, hn⟩ := hP p pt hpt hc var hvar
    rw [hD] at hD2
    exact (Option.some.inj hD2) ▸ hn.1
  obtain ⟨_, hnorm⟩ := computeNode_normalised variableSet heap t t2 hcn hps
  intro n tn htn hc var hvar
  by_cases hn : n = tbl
  · subst hn
    rw [getElem?_set_self_of_some heap n t t2 ht] at htn
    have := Option.some.inj htn
    subst this
    exact (hnorm var hvar).2
  · rw [getElem?_set_of_ne heap tbl n t2 hn] at htn
    exact hP n tn htn hc var hvar

/-- Claim C34.  Solver values are normalised lattice elements.  On a well-formed
table-flow graph in which no node but the start node is computed, whatever the effect sets
of the tables are, the solver phase returns, and afterwards every computed node has, for
every variable of the solver, a post-state `dataflows[var]` that contains no `NOCHANGE`
and contains `UNDEFINED` only when it is `{UNDEFINED}`; every computed node but the start
node, which has no key, has a `keyDataflows[var]` with the same two properties. -/
theorem solver_values_normalised (variableSet : Finset String) (heap : List TableInfo)
    (start : Nat) (hg : FlowGraph heap) (hstart : start < heap.length)
    (hfresh : ∀ n, n < heap.length → n ≠ start → computedAt heap n = false) :
    ∃ heap2, solveDataflows variableSet heap start = .ok heap2 ∧
      ∀ (n : Nat) (t : TableInfo), heap2[n]? = some t → t.dataflowComputed = true →
        ∀ var ∈ variableSet,
          (∃ D, t.dataflows var = some D ∧ DF_NOCHANGE ∉ D ∧
            (DF_UNDEFINED ∈ D → D = {DF_UNDEFINED})) ∧
          (n ≠ start → ∃ K, t.keyDataflows var = some K ∧ DF_NOCHANGE ∉ K ∧
            (DF_UNDEFINED ∈ K → K = {DF_UNDEFINED})) := by
  obtain ⟨heap2, e2, s2, _⟩ := solveDataflows_spec variableSet heap start hg hstart hfresh
  have hlen := seedStart_length variableSet heap start
  obtain ⟨st, hst, hstc, _, hstd⟩ := seedStart_start variableSet heap start hstart
  -- the seeded arena has normalised post-states
  have hseed : normalisedPosts variableSet (seedStart variableSet heap start) := by
    intro n t ht hc var hvar
    by_cases hn : n = start
    · subst hn
      rw [hst] at ht
      have := Option.some.inj ht
      subst this
      refine ⟨_, hstd var hvar, ?_, ?_⟩
      · exact fun hm => absurd (Finset.mem_singleton.mp hm) (by decide)
      · exact fun hm => absurd (Finset.mem_singleton.mp hm) (by decide)
    · have hlt : n < heap.length := by
        rw [← hlen]; exact getElem?_lt_of_some _ _ _ ht
      have hunc := hfresh n hlt hn
      rw [← computedAt_congr heap _ n (seedStart_of_ne variableSet heap start n hn),
        computedAt_of_some _ _ _ ht, hc] at hunc
      exact absurd hunc (by simp)
  -- and the solver keeps them normalised
  have hfinal : normalisedPosts variableSet heap2 := by
    have e3 := e2
    unfold solveDataflows at e3
    simp only [hst] at e3
    exact forEachChild_preserves (normalisedPosts variableSet) _
      (computeDataflows_preserves variableSet (normalisedPosts variableSet)
        (fun h tbl t t2 hP ht _ hpar hcn => normalisedPosts_set variableSet h tbl t t2 hP ht
          hpar hcn) _) _ _ heap2 hseed e3
  refine ⟨heap2, e2, ?_⟩
  intro n t ht hc var hvar
  refine ⟨hfinal n t ht hc var hvar, ?_⟩
  intro hn
  have hlt : n < heap.length := by
    rw [← hlen, ← s2.1]; exact getElem?_lt_of_some _ _ _ ht
  have hunc : computedAt (seedStart variableSet heap start) n = false := by
    rw [computedAt_congr heap _ n (seedStart_of_ne variableSet heap start n hn)]
    exact hfresh n hlt hn
  have hc2 : computedAt heap2 n = true := by
    rw [computedAt_of_some _ _ _ ht]; exact hc
  obtain ⟨t0, t1, _, a2, a3, a4⟩ := s2.2.2.2.2 n hunc hc2
  rw [ht] at a2
  have := Option.some.inj a2
  subst this
  refine ⟨_, (a4 var hvar).1, ?_, specMergePreds_normalised heap2 n var⟩
  unfold specMergePreds
  have hpost : ∀ p ∈ parentsAt heap2 n, DF_NOCHANGE ∉ postAt heap2 p var := by
    intro p hp
    obtain ⟨pt, hpt, hptc⟩ := (computedAt_true_iff heap2 p).mp (a3 p hp)
    obtain ⟨D, hD, hDn⟩ := hfinal p pt hpt hptc var hvar
    rw [postAt_of_some heap2 p pt var D hpt hD]
    exact hDn.1
  split_ifs
  · exact fun hm => absurd (Finset.mem_singleton.mp hm) (by decide)
  · intro hm
    obtain ⟨p, hp, hp2⟩ := Finset.mem_biUnion.mp hm
    exact hpost p hp hp2

/-- An effect set built by `prepareDataflow` holds `UNDEFINED` only as `{UNDEFINED}`
(copyVariableDetection.cpp, lines 320-323). -/
theorem effectSet_collapsed (actions : String → Option FuncInfo) (acts : Finset String)
    (var : String) (h : DF_UNDEFINED ∈ effectSet actions acts var) :
    effectSet actions acts var = {DF_UNDEFINED} := by
  unfold effectSet at h ⊢
  simp only at h ⊢
  split_ifs at h ⊢ with hc
  · rfl
  · exact absurd ((count_pos_iff _ _).mpr h) hc

/-- An effect set built by `prepareDataflow` never holds both `NOCHANGE` and
`UNDEFINED`. -/
theorem effectSet_noChange_not_undefined (actions : String → Option FuncInfo)
    (acts : Finset String) (var : String) (h : DF_NOCHANGE ∈ effectSet actions acts var) :
    DF_UNDEFINED ∉ effectSet actions acts var := by
  intro hu
  rw [effectSet_collapsed actions acts var hu] at h
  exact absurd (Finset.mem_singleton.mp h) (by decide)

/-- Claim C9.  Lattice monotonicity of the transfer, on the inputs it receives.  The only
call of `applyDataflow` (copyVariableDetection.cpp, line 201) passes the merge over the
parents, which holds `UNDEFINED` only as `{UNDEFINED}`, and the effect set
`tbl->dataflows[var]`, which `prepareDataflow` built.  For every such input set `X` and
every effect set `E` built by `prepareDataflow` that contains `NOCHANGE`, `E` does not
contain `UNDEFINED` and `applyDataflow(X, E)` is a superset of `X`.  So, on a well-formed
table-flow graph in which no node but the start node is computed, the solver phase returns
and, for every node `n` it computes and every variable `var` of the solver, the input
`keyDataflows[var]` holds `UNDEFINED` only as `{UNDEFINED}` and the post-state
`dataflows[var]` is a superset of it whenever the effect set of the table for `var`
contains `NOCHANGE`; without an effect set the post-state is the input itself. -/
theorem transfer_superset_of_input (variableSet : Finset String) (heap : List TableInfo)
    (start : Nat) (hg : FlowGraph heap) (hstart : start < heap.length)
    (hfresh : ∀ n, n < heap.length → n ≠ start → computedAt heap n = false) :
    (∀ (actions : String → Option FuncInfo) (acts : Finset String) (var : String)
        (X : Finset String), (DF_UNDEFINED ∈ X → X = {DF_UNDEFINED}) →
        DF_NOCHANGE ∈ effectSet actions acts var →
        DF_UNDEFINED ∉ effectSet actions acts var ∧
          X ⊆ applyDataflow X (effectSet actions acts var)) ∧
      ∃ heap2, solveDataflows variableSet heap start = .ok heap2 ∧
        ∀ n, n ≠ start → computedAt heap2 n = true →
          ∃ t0 t, heap[n]? = some t0 ∧ heap2[n]? = some t ∧
            ∀ var ∈ variableSet, ∃ K D,
              t.keyDataflows var = some K ∧ t.dataflows var = some D ∧
              (DF_UNDEFINED ∈ K → K = {DF_UNDEFINED}) ∧
              (∀ (actions : String → Option FuncInfo) (acts : Finset String),
                t0.dataflows var = some (effectSet actions acts var) →
                DF_NOCHANGE ∈ effectSet actions acts var → K ⊆ D) ∧
              (t0.dataflows var = none → D = K) := by
  have hfun : ∀ (actions : String → Option FuncInfo) (acts : Finset String) (var : String)
      (X : Finset String), (DF_UNDEFINED ∈ X → X = {DF_UNDEFINED}) →
      DF_NOCHANGE ∈ effectSet actions acts var →
      DF_UNDEFINED ∉ effectSet actions acts var ∧
        X ⊆ applyDataflow X (effectSet actions acts var) := by
    intro actions acts var X hX hE
    have hU := effectSet_noChange_not_undefined actions acts var hE
    refine ⟨hU, ?_⟩
    rw [applyDataflow_eq_specTransfer, specTransfer_of_noChange X _ hE]
    by_cases hx : DF_UNDEFINED ∈ X
    · rw [if_pos (Or.inl hx), hX hx]
    · rw [if_neg (fun h => h.elim hx hU)]
      exact Finset.subset_union_left
  refine ⟨hfun, ?_⟩
  obtain ⟨heap2, e2, s2, _⟩ := solveDataflows_spec variableSet heap start hg hstart hfresh
  refine ⟨heap2, e2, ?_⟩
  intro n hn hc
  have hlen := seedStart_length variableSet heap start
  obtain ⟨t, ht, _⟩ := (computedAt_true_iff heap2 n).mp hc
  have hlt : n < heap.length := by
    rw [← hlen, ← s2.1]; exact getElem?_lt_of_some _ _ _ ht
  have hsame := seedStart_of_ne variableSet heap start n hn
  have hunc : computedAt (seedStart variableSet heap start) n = false := by
    rw [computedAt_congr heap _ n hsame]
    exact hfresh n hlt hn
  obtain ⟨t0, t1, a1, a2, _, a4⟩ := s2.2.2.2.2 n hunc hc
  refine ⟨t0, t1, hsame ▸ a1, a2, ?_⟩
  intro var hvar
  obtain ⟨b1, b2, b3⟩ := a4 var hvar
  refine ⟨_, _, b1, b2, specMergePreds_normalised heap2 n var, ?_, ?_⟩
  · intro actions acts he hE
    rw [he, Option.getD_some, ← applyDataflow_eq_specTransfer]
    exact (hfun actions acts var _ (specMergePreds_normalised heap2 n var) hE).2
  · intro he
    have := b3 he
    rw [b1, b2] at this
    exact Option.some.inj this

/-! ## The dataflow solver: each node is computed once -/

theorem loggedStep_refl (heap : List TableInfo) : loggedStep heap heap [] :=
  ⟨List.nodup_nil, fun _ h => absurd h (List.not_mem_nil _), fun _ h => h, fun _ h => Or.inl h⟩

theorem loggedStep_trans (h0 h1 h2 : List TableInfo) (a1 a2 : List Nat)
    (s1 : loggedStep h0 h1 a1) (s2 : loggedStep h1 h2 a2) : loggedStep h0 h2 (a1 ++ a2) := by
  obtain ⟨n1, m1, u1, c1⟩ := s1
  obtain ⟨n2, m2, u2, c2⟩ := s2
  refine ⟨?_, ?_, fun n h => u2 n (u1 n h), ?_⟩
  · refine List.nodup_append.mpr ⟨n1, n2, ?_⟩
    intro n hn1 hn2
    have e1 := (m1 n hn1).2
    have e2 := (m2 n hn2).1
    rw [e1] at e2
    exact absurd e2 (by simp)
  · intro n hn
    rcases List.mem_append.mp hn with h | h
    · exact ⟨(m1 n h).1, u2 n (m1 n h).2⟩
    · refine ⟨?_, (m2 n h).2⟩
      by_contra hc
      have e1 := u1 n (by simpa using hc)
      rw [(m2 n h).1] at e1
      exact absurd e1 (by simp)
  · intro n hn
    rcases c2 n hn with h | h
    · rcases c1 n h with h3 | h3
      · exact Or.inl h3
      · exact Or.inr (List.mem_append.mpr (Or.inl h3))
    · exact Or.inr (List.mem_append.mpr (Or.inr h))

theorem loggedStep_set (heap : List TableInfo) (tbl : Nat) (t t2 : TableInfo)
    (ht : heap[tbl]? = some t) (hun : t.dataflowComputed = false)
    (h2 : t2.dataflowComputed = true) : loggedStep heap (heap.set tbl t2) [tbl] := by
  have hself : computedAt (heap.set tbl t2) tbl = true := by
    rw [computedAt_of_some _ _ _ (getElem?_set_self_of_some heap tbl t t2 ht)]; exact h2
  have hother : ∀ n, n ≠ tbl → computedAt (heap.set tbl t2) n = computedAt heap n :=
    fun n hn => computedAt_congr heap _ n (getElem?_set_of_ne heap tbl n t2 hn)
  refine ⟨List.nodup_singleton _, ?_, ?_, ?_⟩
  · intro n hn
    rw [List.mem_singleton.mp hn]
    exact ⟨by rw [computedAt_of_some _ _ _ ht]; exact hun, hself⟩
  · intro n hn
    by_cases h : n = tbl
    · rw [h]; exact hself
    · rw [hother n h]; exact hn
  · intro n hn
    by_cases h : n = tbl
    · exact Or.inr (List.mem_singleton.mpr h)
    · rw [hother n h] at hn; exact Or.inl hn

theorem computeNode_computed (variableSet : Finset String) (heap : List TableInfo)
    (t t2 : TableInfo) (hcn : computeNode variableSet heap t = some t2) :
    t2.dataflowComputed = true := by
  unfold computeNode at hcn
  simp only at hcn
  split at hcn
  · simp only [Option.some.injEq] at hcn
    subst hcn
    rfl
  · exact absurd hcn (by simp)

/-- The loop over the children with the log follows the loop without it. -/
theorem forEachChildLogged_sim
    (visit : List TableInfo → Nat → Except String (List TableInfo))
    (visitL : List TableInfo × List Nat → Nat → Except String (List TableInfo × List Nat))
    (hvisit : ∀ heap log tbl heap2, visit heap tbl = .ok heap2 →
      ∃ added, visitL (heap, log) tbl = .ok (heap2, log ++ added) ∧
        loggedStep heap heap2 added) :
    ∀ (children : List Nat) (heap : List TableInfo) (log : List Nat) (heap2 : List TableInfo),
      forEachChild visit heap children = .ok heap2 →
      ∃ added, forEachChildLogged visitL (heap, log) children = .ok (heap2, log ++ added) ∧
        loggedStep heap heap2 added := by
  intro children
  induction children with
  | nil =>
    intro heap log heap2 h
    rw [forEachChild] at h
    have := Except.ok.inj h
    subst this
    exact ⟨[], by rw [forEachChildLogged, List.append_nil], loggedStep_refl _⟩
  | cons c rest ih =>
    intro heap log heap2 h
    rw [forEachChild] at h
    cases hv : visit heap c with
    | error e => simp only [hv] at h; exact absurd h (by simp)
    | ok h1 =>
      simp only [hv] at h
      obtain ⟨a1, e1, s1⟩ := hvisit heap log c h1 hv
      obtain ⟨a2, e2, s2⟩ := ih h1 (log ++ a1) heap2 h
      refine ⟨a1 ++ a2, ?_, loggedStep_trans _ _ _ _ _ s1 s2⟩
      rw [forEachChildLogged, e1]
      simp only
      rw [e2, List.append_assoc]

/-- The solver with the log follows `computeDataflows`: whenever `computeDataflows`
returns, the logged run returns the same arena, and the nodes it appends to the log are
the nodes computed by the call, each of them once. -/
theorem computeDataflowsLogged_sim (variableSet : Finset String) :
    ∀ (fuel : Nat) (heap : List TableInfo) (log : List Nat) (tbl : Nat)
      (heap2 : List TableInfo), computeDataflows variableSet fuel heap tbl = .ok heap2 →
      ∃ added, computeDataflowsLogged variableSet fuel (heap, log) tbl
          = .ok (heap2, log ++ added) ∧ loggedStep heap heap2 added := by
  intro fuel
  induction fuel with
  | zero =>
    intro heap log tbl heap2 h
    rw [computeDataflows] at h
    exact absurd h (by simp)
  | succ fuel ih =>
    intro heap log tbl heap2 h
    rw [computeDataflows] at h
    rw [computeDataflowsLogged]
    cases ht : heap[tbl]? with
    | none => simp only [ht] at h; exact absurd h (by simp)
    | some t =>
      simp only [ht] at h ⊢
      by_cases hc : t.dataflowComputed = true
      · rw [if_pos hc] at h ⊢
        have := Except.ok.inj h
        subst this
        exact ⟨[], by rw [List.append_nil], loggedStep_refl _⟩
      · rw [if_neg hc] at h ⊢
        have hun : t.dataflowComputed = false := by
          cases hb : t.dataflowComputed
          · rfl
          · exact absurd hb hc
        by_cases hany : (orderedPtrs heap t.parents).any (fun parent =>
            match heap[parent]? with
            | some pt => !pt.dataflowComputed
            | none => true) = true
        · rw [if_pos hany] at h ⊢
          have := Except.ok.inj h
          subst this
          exact ⟨[], by rw [List.append_nil], loggedStep_refl _⟩
        · rw [if_neg hany] at h ⊢
          cases hcn : computeNode variableSet heap t with
          | none => simp only [hcn] at h; exact absurd h (by simp)
          | some t2 =>
            simp only [hcn] at h ⊢
            obtain ⟨added, e, s⟩ := forEachChildLogged_sim (computeDataflows variableSet fuel)
              (computeDataflowsLogged variableSet fuel) ih (orderedPtrs heap t.children)
              (heap.set tbl t2) (log ++ [tbl]) heap2 h
            refine ⟨[tbl] ++ added, ?_, loggedStep_trans _ _ _ _ _
              (loggedStep_set heap tbl t t2 ht hun
                (computeNode_computed variableSet heap t t2 hcn)) s⟩
            rw [e, List.append_assoc]

/-- Claim C32.  The solver terminates and computes each node at most once.  On every
well-formed table-flow graph, acyclic or not, in which no node but the start node is
computed, the solver phase returns (the fuel of as many calls in depth as there are nodes,
plus one, is enough); the log of the nodes whose dataflows were computed has no repetition
and holds exactly the computed nodes other than the start node.  A call on a computed node
returns at once, with nothing computed and nothing logged; a call that computes a node
marks it computed before it visits the children. -/
theorem solver_terminates_once (variableSet : Finset String) (heap : List TableInfo)
    (start : Nat) (hg : FlowGraph heap) (hstart : start < heap.length)
    (hfresh : ∀ n, n < heap.length → n ≠ start → computedAt heap n = false) :
    (∃ heap2 log, solveDataflowsLogged variableSet heap start = .ok (heap2, log) ∧
      solveDataflows variableSet heap start = .ok heap2 ∧ log.Nodup ∧
      ∀ n, n ∈ log ↔ (n ≠ start ∧ computedAt heap2 n = true)) ∧
    (∀ (fuel : Nat) (h : List TableInfo) (log : List Nat) (tbl : Nat) (t : TableInfo),
      h[tbl]? = some t → t.dataflowComputed = true →
      computeDataflowsLogged variableSet (fuel + 1) (h, log) tbl = .ok (h, log)) ∧
    (∀ (fuel : Nat) (h : List TableInfo) (log : List Nat) (tbl : Nat) (t t2 : TableInfo),
      h[tbl]? = some t → t.dataflowComputed = false →
      (∀ p ∈ orderedPtrs h t.parents, computedAt h p = true) →
      computeNode variableSet h t = some t2 →
      computedAt (h.set tbl t2) tbl = true ∧
      computeDataflowsLogged variableSet (fuel + 1) (h, log) tbl
        = forEachChildLogged (computeDataflowsLogged variableSet fuel)
            (h.set tbl t2, log ++ [tbl]) (orderedPtrs h t.children)) := by
  refine ⟨?_, ?_, ?_⟩
  · obtain ⟨heap2, e2, _, _⟩ := solveDataflows_spec variableSet heap start hg hstart hfresh
    have hlen := seedStart_length variableSet heap start
    obtain ⟨st, hst, hstc, _, _⟩ := seedStart_start variableSet heap start hstart
    have e3 := e2
    unfold solveDataflows at e3
    simp only [hst] at e3
    obtain ⟨log, e4, hnd, hmem, _, hconv⟩ := forEachChildLogged_sim
      (computeDataflows variableSet ((seedStart variableSet heap start).length + 1))
      (computeDataflowsLogged variableSet ((seedStart variableSet heap start).length + 1))
      (computeDataflowsLogged_sim variableSet _) _ _ [] heap2 e3
    rw [List.nil_append] at e4
    refine ⟨heap2, log, ?_, e2, hnd, ?_⟩
    · unfold solveDataflowsLogged
      simp only [hst]
      exact e4
    · intro n
      constructor
      · intro hn
        refine ⟨?_, (hmem n hn).2⟩
        intro he
        have hu := (hmem n hn).1
        rw [he, computedAt_of_some _ _ _ hst, hstc] at hu
        exact absurd hu (by simp)
      · rintro ⟨hne, hc⟩
        rcases hconv n hc with h | h
        · exfalso
          rw [computedAt_congr heap _ n (seedStart_of_ne variableSet heap start n hne)] at h
          obtain ⟨t, ht, _⟩ := (computedAt_true_iff heap n).mp h
          have hu := hfresh n (getElem?_lt_of_some _ _ _ ht) hne
          rw [h] at hu
          exact absurd hu (by simp)
        · exact h
  · intro fuel h log tbl t ht hc
    rw [computeDataflowsLogged]
    simp only [ht]
    rw [if_pos hc]
  · intro fuel h log tbl t t2 ht hun hpar hcn
    refine ⟨?_, ?_⟩
    · rw [computedAt_of_some _ _ _ (getElem?_set_self_of_some h tbl t t2 ht)]
      exact computeNode_computed variableSet h t t2 hcn
    · rw [computeDataflowsLogged]
      simp only [ht]
      have hany : ¬ (orderedPtrs h t.parents).any (fun parent =>
          match h[parent]? with
          | some pt => !pt.dataflowComputed
          | none => true) = true := by
        intro ha
        obtain ⟨p, hp, hp2⟩ := List.any_eq_true.mp ha
        have hplt := ((mem_orderedPtrs _ _ _).mp hp).1
        have hpt : h[p]? = some h[p] := List.getElem?_eq_getElem hplt
        have hpc := hpar p hp
        rw [computedAt_of_some _ _ _ hpt] at hpc
        rw [hpt] at hp2
        simp only [hpc] at hp2
        exact absurd hp2 (by simp)
      rw [if_neg (by rw [hun]; simp), if_neg hany]
      simp only [hcn]

/-! ## The upstream check: general facts -/

/-- The loop over the parents returns false only when it started from false or a visit
returned false. -/
theorem parentsLoop_false (visit : Nat → Except String Bool) :
    ∀ (ps : List Nat) (acc : Bool), ModifyHarmlessTable.parentsLoop visit ps acc = .ok false →
      acc = false ∨ ∃ p ∈ ps, visit p = .ok false := by
  intro ps
  induction ps with
  | nil =>
    intro acc h
    rw [ModifyHarmlessTable.parentsLoop] at h
    exact Or.inl (Except.ok.inj h)
  | cons p rest ih =>
    intro acc h
    rw [ModifyHarmlessTable.parentsLoop] at h
    cases hv : visit p with
    | error e => simp only [hv] at h; exact absurd h (by simp)
    | ok r =>
      simp only [hv] at h
      rcases ih (acc && r) h with h1 | ⟨q, hq, hq2⟩
      · cases acc
        · exact Or.inl rfl
        · cases r
          · exact Or.inr ⟨p, List.mem_cons_self _ _, hv⟩
          · exact absurd h1 (by simp)
      · exact Or.inr ⟨q, List.mem_cons_of_mem _ hq, hq2⟩

/-- A conflict found by the action loops is a variable read by the table and written by
the node. -/
theorem upstreamConflict_true (actions : String → Option FuncInfo) (t c : TableInfo)
    (h : ModifyHarmlessTable.upstreamConflict actions t c = some true) :
    ∃ act1 ∈ t.actions, ∃ act2 ∈ c.actions,
      ∃ varr ∈ readsOf actions act1, varr ∈ writesOf actions act2 := by
  unfold ModifyHarmlessTable.upstreamConflict at h
  split at h
  · split at h
    · rename_i _ hex
      obtain ⟨act1, h1, act2, h2, varr, h3, h4⟩ := hex
      exact ⟨act1, h1, act2, h2, varr, h3, (count_pos_iff _ _).mp h4⟩
    · exact absurd h (by simp)
  · exact absurd h (by simp)

/-- A failure of `checkUpstreamTables` is justified: it comes from a node from which the
visited node is reachable, with the `ifId` of the table, that writes what the table
reads. -/
theorem checkUpstreamTables_false (m : Maps) :
    ∀ (fuel tbl curr : Nat), ModifyHarmlessTable.checkUpstreamTables m fuel tbl curr
        = .ok false →
      ∃ p, Relation.ReflTransGen (flowEdge m.heap) p curr ∧
        ifIdAt m.heap p = ifIdAt m.heap tbl ∧ writesWhatReads m p tbl := by
  intro fuel
  induction fuel with
  | zero =>
    intro tbl curr h
    rw [ModifyHarmlessTable.checkUpstreamTables] at h
    exact absurd h (by simp)
  | succ fuel ih =>
    intro tbl curr h
    rw [ModifyHarmlessTable.checkUpstreamTables] at h
    cases ht : m.heap[tbl]? with
    | none => simp only [ht] at h; exact absurd h (by simp)
    | some t =>
      cases hc : m.heap[curr]? with
      | none => simp only [ht, hc] at h; exact absurd h (by simp)
      | some c =>
        simp only [ht, hc] at h
        by_cases hid : c.ifId ≠ t.ifId
        · rw [if_pos hid] at h
          exact absurd h (by simp)
        · rw [if_neg hid] at h
          have hid2 : ifIdAt m.heap curr = ifIdAt m.heap tbl := by
            simp only [ifIdAt, ht, hc, Option.map_some', Option.getD_some]
            exact not_not.mp hid
          cases hu : ModifyHarmlessTable.upstreamConflict m.actions t c with
          | none => simp only [hu] at h; exact absurd h (by simp)
          | some b =>
            cases b with
            | true =>
              obtain ⟨act1, h1, act2, h2, varr, h3, h4⟩ :=
                upstreamConflict_true m.actions t c hu
              refine ⟨curr, Relation.ReflTransGen.refl, hid2, act1, ?_, act2, ?_, varr, h3, h4⟩
              · simp only [actionsAt, ht, Option.map_some', Option.getD_some]; exact h1
              · simp only [actionsAt, hc, Option.map_some', Option.getD_some]; exact h2
            | false =>
              simp only [hu] at h
              rcases parentsLoop_false _ _ _ h with h1 | ⟨q, hq, hq2⟩
              · exact absurd h1 (by simp)
              · obtain ⟨p, hp1, hp2, hp3⟩ := ih tbl q hq2
                refine ⟨p, hp1.tail ?_, hp2, hp3⟩
                show q ∈ parentsAt m.heap curr
                rw [parentsAt_of_some _ _ _ hc]
                exact ((mem_orderedPtrs _ _ _).mp hq).2

/-- A failure of the upstream check of a table that has an allocated parent is justified:
the table is not upstream-safe by the specification.  The converse fails
(the upstream check can succeed on a table that is not upstream-safe). -/
theorem upstream_false_sound (m : Maps) (fuel tbl : Nat)
    (h : ModifyHarmlessTable.upstream m fuel tbl = .ok false)
    (hp : ∃ p ∈ parentsAt m.heap tbl, p < m.heap.length) : ¬ specUpstreamSafe m tbl := by
  unfold ModifyHarmlessTable.upstream at h
  cases ht : m.heap[tbl]? with
  | none => simp only [ht] at h; exact absurd h (by simp)
  | some t =>
    simp only [ht] at h
    cases hh : (orderedPtrs m.heap t.parents).head? with
    | none =>
      obtain ⟨p, hp1, hp2⟩ := hp
      rw [parentsAt_of_some _ _ _ ht] at hp1
      have hmem : p ∈ orderedPtrs m.heap t.parents := (mem_orderedPtrs _ _ _).mpr ⟨hp2, hp1⟩
      rw [List.head?_eq_none_iff] at hh
      rw [hh] at hmem
      exact absurd hmem (List.not_mem_nil _)
    | some parent =>
      simp only [hh] at h
      obtain ⟨p, hp1, hp2, hp3⟩ := checkUpstreamTables_false m fuel tbl parent h
      have hedge : flowEdge m.heap parent tbl := by
        show parent ∈ parentsAt m.heap tbl
        rw [parentsAt_of_some _ _ _ ht]
        exact ((mem_orderedPtrs _ _ _).mp (List.mem_of_mem_head? hh)).2
      intro hsafe
      exact hsafe p (Relation.TransGen.tail' hp1 hedge) hp2 hp3

/-! ## Order independence, normal forms and the upstream check: the scenarios -/

/-- Witness of C33: the predecessors `t1` and `t2` of the converge node of scenario 5, in
both orders. -/
theorem mergeDataflow_order_independent_witness :
    [1, 2].Perm [2, 1] ∧
      mergeDataflow {"hdr.h.f"} {DF_UNDEFINED} = mergeDataflow {DF_UNDEFINED} {"hdr.h.f"} ∧
      mergeDataflow (mergeDataflow {"hdr.h.f"} {DF_UNDEFINED}) {"hdr.h.g"}
        = mergeDataflow {"hdr.h.f"} (mergeDataflow {DF_UNDEFINED} {"hdr.h.g"}) ∧
      mergeParents (mapsOf scenario5).heap [1, 2] "meta.a"
        = mergeParents (mapsOf scenario5).heap [2, 1] "meta.a" :=
  ⟨List.Perm.swap 2 1 [],
    mergeDataflow_order_independent {"hdr.h.f"} {DF_UNDEFINED} {"hdr.h.g"}
      (mapsOf scenario5).heap "meta.a" [1, 2] [2, 1] (List.Perm.swap 2 1 [])⟩

/-- Witness of C34 on the table flow of scenario 6: the solver phase returns, and the
values of the computed nodes are normalised. -/
theorem solver_values_normalised_witness :
    (FlowGraph scenario6Flow.heap ∧ scenario6Flow.start < scenario6Flow.heap.length ∧
      ∀ n, n < scenario6Flow.heap.length → n ≠ scenario6Flow.start →
        computedAt scenario6Flow.heap n = false) ∧
      ∃ heap2, solveDataflows scenario6Flow.variableSet scenario6Flow.heap scenario6Flow.start
          = .ok heap2 ∧
        ∀ (n : Nat) (t : TableInfo), heap2[n]? = some t → t.dataflowComputed = true →
          ∀ var ∈ scenario6Flow.variableSet,
            (∃ D, t.dataflows var = some D ∧ DF_NOCHANGE ∉ D ∧
              (DF_UNDEFINED ∈ D → D = {DF_UNDEFINED})) ∧
            (n ≠ scenario6Flow.start → ∃ K, t.keyDataflows var = some K ∧ DF_NOCHANGE ∉ K ∧
              (DF_UNDEFINED ∈ K → K = {DF_UNDEFINED})) :=
  ⟨⟨by decide!, by decide!, by decide!⟩,
    solver_values_normalised scenario6Flow.variableSet scenario6Flow.heap scenario6Flow.start
      (by decide!) (by decide!) (by decide!)⟩

/-- Witness of C32 on the table flow of `cyclicFlow`, which has the directed cycle
`B → C → B`: the solver phase returns, and its log has no repetition. -/
theorem solver_terminates_once_witness :
    (FlowGraph (builtFlow cyclicFlow).heap ∧
      (builtFlow cyclicFlow).start < (builtFlow cyclicFlow).heap.length ∧
      (∀ n, n < (builtFlow cyclicFlow).heap.length → n ≠ (builtFlow cyclicFlow).start →
        computedAt (builtFlow cyclicFlow).heap n = false) ∧
      ¬ Acyclic (builtFlow cyclicFlow).heap) ∧
      ∃ heap2 log, solveDataflowsLogged (builtFlow cyclicFlow).variableSet
          (builtFlow cyclicFlow).heap (builtFlow cyclicFlow).start = .ok (heap2, log) ∧
        solveDataflows (builtFlow cyclicFlow).variableSet (builtFlow cyclicFlow).heap
          (builtFlow cyclicFlow).start = .ok heap2 ∧
        log.Nodup ∧
        ∀ n, n ∈ log ↔ (n ≠ (builtFlow cyclicFlow).start ∧ computedAt heap2 n = true) :=
  ⟨⟨by decide!, by decide!, by decide!,
      not_acyclic_of_two_cycle _ 1 2 (by decide!) (by decide!)⟩,
    (solver_terminates_once (builtFlow cyclicFlow).variableSet (builtFlow cyclicFlow).heap
      (builtFlow cyclicFlow).start (by decide!) (by decide!) (by decide!)).1⟩

/-- Witness of C9 on the table flow of `scenario4_actionRead`: the effect set of the parser
for `meta.a` contains `NOCHANGE`, the transfer of the input `{INITIAL}` through it is a
superset of `{INITIAL}`, and the solver phase returns with every post-state a superset of
its input where the effect set contains `NOCHANGE`. -/
theorem transfer_superset_of_input_witness :
    (FlowGraph actionReadFlow.heap ∧ actionReadFlow.start < actionReadFlow.heap.length ∧
      ∀ n, n < actionReadFlow.heap.length → n ≠ actionReadFlow.start →
        computedAt actionReadFlow.heap n = false) ∧
      (DF_NOCHANGE ∈ effectSet (summaryOf scenario4_actionRead).actions {"parser"} "meta.a" ∧
        DF_UNDEFINED ∉ effectSet (summaryOf scenario4_actionRead).actions {"parser"} "meta.a" ∧
        ({DF_INITIAL} : Finset String) ⊆ applyDataflow {DF_INITIAL}
          (effectSet (summaryOf scenario4_actionRead).actions {"parser"} "meta.a")) ∧
      ∃ heap2, solveDataflows actionReadFlow.variableSet actionReadFlow.heap
          actionReadFlow.start = .ok heap2 ∧
        ∀ n, n ≠ actionReadFlow.start → computedAt heap2 n = true →
          ∃ t0 t, actionReadFlow.heap[n]? = some t0 ∧ heap2[n]? = some t ∧
            ∀ var ∈ actionReadFlow.variableSet, ∃ K D,
              t.keyDataflows var = some K ∧ t.dataflows var = some D ∧
              (DF_UNDEFINED ∈ K → K = {DF_UNDEFINED}) ∧
              (∀ (actions : String → Option FuncInfo) (acts : Finset String),
                t0.dataflows var = some (effectSet actions acts var) →
                DF_NOCHANGE ∈ effectSet actions acts var → K ⊆ D) ∧
              (t0.dataflows var = none → D = K) :=
  ⟨⟨by decide!, by decide!, by decide!⟩,
    ⟨by decide!,
      (transfer_superset_of_input actionReadFlow.variableSet actionReadFlow.heap
        actionReadFlow.start (by decide!) (by decide!) (by decide!)).1
        (summaryOf scenario4_actionRead).actions {"parser"} "meta.a" {DF_INITIAL}
        (fun h => absurd h (by decide)) (by decide!)⟩,
    (transfer_superset_of_input actionReadFlow.variableSet actionReadFlow.heap
      actionReadFlow.start (by decide!) (by decide!) (by decide!)).2⟩

/-- A node two edges upstream, with the `ifId` of the table, that writes what the table
reads makes the table upstream-unsafe. -/
theorem not_specUpstreamSafe_of_path (m : Maps) (p q tbl : Nat)
    (h1 : flowEdge m.heap p q) (h2 : flowEdge m.heap q tbl)
    (hid : ifIdAt m.heap p = ifIdAt m.heap tbl) (hw : writesWhatReads m p tbl) :
    ¬ specUpstreamSafe m tbl :=
  fun h => h p (Relation.TransGen.tail (Relation.TransGen.single h1) h2) hid hw

/-- A parent with the `ifId` of the table that writes what the table reads makes the
table upstream-unsafe. -/
theorem not_specUpstreamSafe_of_parent (m : Maps) (p tbl : Nat)
    (h1 : flowEdge m.heap p tbl)
    (hid : ifIdAt m.heap p = ifIdAt m.heap tbl) (hw : writesWhatReads m p tbl) :
    ¬ specUpstreamSafe m tbl :=
  fun h => h p (Relation.TransGen.single h1) hid hw

/-- C31 on the code.  In the program `if (x) { Y.apply(); if (y) { A.apply(); }
T.apply(); }` the only parent of `T` (node 3, `ifId` 7) is the converge node of the inner
`if` (node 5, `ifId` 8), so `checkUpstreamTables` returns true at once and the upstream
check of `T` succeeds, although `Y` (node 1, `ifId` 7), a predecessor of the converge node,
writes `meta.a`, which the action of `T` reads.  In the program `if (x) { A.apply();
T.apply(); } else { Y.apply(); T.apply(); }` the parents of `T` are `A` (node 1) and `Y`
(node 2); only the first one is examined and the check succeeds, although `Y` writes
`meta.a`.  When `Y` is the first parent of `T`, as in `if (x) { Y.apply(); T.apply(); }`,
the check fails. -/
theorem upstream_check_misses_conflicts :
    (succeeds (CopyVariableDetection cutShort) = true ∧
      nodeNames (mapsOf cutShort).heap
        = ["parser", "Y", "A", "T", "StartTable", "ifConvergeTable8", "ifConvergeTable7"] ∧
      flowEdges (mapsOf cutShort).heap
        = [(0, 1), (0, 6), (1, 2), (1, 5), (2, 5), (3, 6), (4, 0), (5, 3)] ∧
      ifIdsOf (mapsOf cutShort).heap = [0, 7, 8, 7, 0, 8, 7] ∧
      actionReadsWrites (mapsOf cutShort) "aY" = some ({"hdr.h.f"}, {"meta.a"}) ∧
      actionReadsWrites (mapsOf cutShort) "aT" = some ({"meta.a"}, {"meta.b"}) ∧
      parentsAt (mapsOf cutShort).heap 3 = {5} ∧
      isFlowPath (mapsOf cutShort).heap [1, 5, 3] = true ∧
      writesWhatReads (mapsOf cutShort) 1 3 ∧
      upstreamOf (mapsOf cutShort) "T" = some true ∧
      ¬ specUpstreamSafe (mapsOf cutShort) 3) ∧
    (succeeds (CopyVariableDetection secondParent) = true ∧
      nodeNames (mapsOf secondParent).heap = ["parser", "A", "Y", "T", "StartTable"] ∧
      flowEdges (mapsOf secondParent).heap = [(0, 1), (0, 2), (1, 3), (2, 3), (4, 0)] ∧
      ifIdsOf (mapsOf secondParent).heap = [0, 7, 7, 7, 0] ∧
      parentsAt (mapsOf secondParent).heap 3 = {1, 2} ∧
      writesWhatReads (mapsOf secondParent) 2 3 ∧
      upstreamOf (mapsOf secondParent) "T" = some true ∧
      ¬ specUpstreamSafe (mapsOf secondParent) 3) ∧
    (nodeNames (mapsOf directParent).heap
        = ["parser", "Y", "A", "T", "StartTable", "ifConvergeTable7"] ∧
      parentsAt (mapsOf directParent).heap 3 = {1} ∧
      upstreamOf (mapsOf directParent) "T" = some false) :=
  ⟨⟨by decide!, by decide!, by decide!, by decide!, by decide!, by decide!, by decide!,
      by decide!, by decide!, by decide!,
      not_specUpstreamSafe_of_path _ 1 5 3 (by decide!) (by decide!) (by decide!)
        (by decide!)⟩,
    ⟨by decide!, by decide!, by decide!, by decide!, by decide!, by decide!, by decide!,
      not_specUpstreamSafe_of_parent _ 2 3 (by decide!) (by decide!) (by decide!)⟩,
    ⟨by decide!, by decide!, by decide!⟩⟩

/-! ## Header commoning: general facts -/

theorem drop_eq_cons_of_lt {α : Type} (l : List α) (pos : Nat) (h : pos < l.length) :
    l.drop pos = l[pos] :: l.drop (pos + 1) := by
  exact List.drop_eq_getElem_cons h

theorem IRType.isVarbits_of_toBits {t : IRType} {n : Nat} (h : t.toBits = some n) :
    t.isVarbits = false := by
  cases t <;> first | rfl | simp [IRType.toBits] at h

theorem findCommonFieldsLoop_prefix_widths (fields2 : List StructField) :
    ∀ (l1 : List StructField) (pos : Nat) (acc cf : List StructField),
      findCommonFieldsLoop fields2 l1 pos acc = .ok cf →
      ∃ k, cf.length = acc.length + k ∧ k ≤ l1.length ∧ k ≤ (fields2.drop pos).length ∧
        (l1.take k).map StructField.width
          = ((fields2.drop pos).take k).map StructField.width := by
  intro l1
  induction l1 with
  | nil =>
    intro pos acc cf h
    simp only [findCommonFieldsLoop] at h
    cases h
    exact ⟨0, by simp, by simp, by simp, by simp⟩
  | cons hf1 rest ih =>
    intro pos acc cf h
    rw [findCommonFieldsLoop] at h
    by_cases hpos : pos < fields2.length
    · rw [if_pos hpos, List.getElem?_eq_getElem hpos] at h
      simp only at h
      cases h1 : hf1.type.toBits with
      | none => rw [h1] at h; simp at h
      | some size1 =>
        cases h2 : (fields2[pos]).type.toBits with
        | none => rw [h1, h2] at h; simp at h
        | some size2 =>
          rw [h1, h2] at h
          simp only at h
          by_cases hs : size1 = size2
          · subst hs
            rw [IRType.isVarbits_of_toBits h1, IRType.isVarbits_of_toBits h2] at h
            simp only [ne_eq, not_true_eq_false, if_false, Bool.or_self, Bool.not_false,
              if_true] at h
            obtain ⟨k, hk1, hk2, hk3, hk4⟩ := ih (pos + 1) (acc ++ [hf1]) cf h
            refine ⟨k + 1, ?_, ?_, ?_, ?_⟩
            · rw [hk1, List.length_append, List.length_singleton]; omega
            · simp only [List.length_cons]; omega
            · rw [List.drop_eq_getElem_cons hpos, List.length_cons]; omega
            · rw [List.drop_eq_getElem_cons hpos, List.take_succ_cons, List.take_succ_cons,
                List.map_cons, List.map_cons, hk4]
              simp only [StructField.width, h1, h2]
          · simp only [ne_eq, hs, not_false_eq_true, if_true, Bool.false_eq_true, if_false] at h
            cases h
            exact ⟨0, by simp, by simp, by simp, by simp⟩
    · rw [if_neg hpos] at h
      obtain ⟨k, hk1, hk2, hk3, hk4⟩ := ih (pos + 1) acc cf h
      have hd : (fields2.drop (pos + 1)).length = 0 := by
        simp only [List.length_drop]; omega
      have hk0 : k = 0 := by omega
      subst hk0
      exact ⟨0, by simpa using hk1, by simp, by simp, by simp⟩

theorem findCommonFieldsLoop_fixed (fields2 : List StructField)
    (hf2 : ∀ f ∈ fields2, f.type.toBits.isSome = true) :
    ∀ (l1 : List StructField) (pos : Nat) (acc : List StructField),
      (∀ f ∈ l1, f.type.toBits.isSome = true) →
      ∃ cf, findCommonFieldsLoop fields2 l1 pos acc = .ok cf ∧
        ∀ k2, k2 ≤ l1.length → k2 ≤ (fields2.drop pos).length →
          (l1.take k2).map StructField.width
            = ((fields2.drop pos).take k2).map StructField.width →
          acc.length + k2 ≤ cf.length := by
  intro l1
  induction l1 with
  | nil =>
    intro pos acc _
    refine ⟨acc, by simp only [findCommonFieldsLoop], ?_⟩
    intro k2 hk _ _
    simp only [List.length_nil] at hk
    omega
  | cons hf1 rest ih =>
    intro pos acc hl1
    have hrest : ∀ f ∈ rest, f.type.toBits.isSome = true :=
      fun f hf => hl1 f (List.mem_cons_of_mem _ hf)
    rw [findCommonFieldsLoop]
    by_cases hpos : pos < fields2.length
    · rw [if_pos hpos, List.getElem?_eq_getElem hpos]
      simp only
      obtain ⟨size1, h1⟩ := Option.isSome_iff_exists.mp (hl1 hf1 (List.mem_cons_self _ _))
      obtain ⟨size2, h2⟩ :=
        Option.isSome_iff_exists.mp (hf2 fields2[pos] (List.getElem_mem hpos))
      rw [h1, h2]
      simp only
      rw [IRType.isVarbits_of_toBits h1, IRType.isVarbits_of_toBits h2]
      by_cases hs : size1 = size2
      · subst hs
        simp only [ne_eq, not_true_eq_false, if_false, Bool.or_self, Bool.not_false, if_true]
        obtain ⟨cf, hcf, hmax⟩ := ih (pos + 1) (acc ++ [hf1]) hrest
        refine ⟨cf, hcf, ?_⟩
        intro k2 hk2 hk2' heq
        cases k2 with
        | zero =>
          have := hmax 0 (by omega) (by omega) (by simp)
          rw [List.length_append, List.length_singleton] at this
          omega
        | succ j =>
          rw [List.drop_eq_getElem_cons hpos] at hk2' heq
          simp only [List.length_cons] at hk2 hk2'
          rw [List.take_succ_cons, List.take_succ_cons, List.map_cons, List.map_cons] at heq
          have := hmax j (by omega) (by omega) (List.cons.inj heq).2
          rw [List.length_append, List.length_singleton] at this
          omega
      · simp only [ne_eq, hs, not_false_eq_true, if_true, Bool.false_eq_true, if_false]
        refine ⟨acc, rfl, ?_⟩
        intro k2 _ hk2' heq
        cases k2 with
        | zero => omega
        | succ j =>
          rw [List.drop_eq_getElem_cons hpos] at heq
          rw [List.take_succ_cons, List.take_succ_cons, List.map_cons, List.map_cons] at heq
          have hw := (List.cons.inj heq).1
          simp only [StructField.width, h1, h2, Option.some.injEq] at hw
          exact absurd hw hs
    · rw [if_neg hpos]
      obtain ⟨cf, hcf, hmax⟩ := ih (pos + 1) acc hrest
      refine ⟨cf, hcf, ?_⟩
      intro k2 _ hk2' _
      have hd : (fields2.drop pos).length = 0 := by
        simp only [List.length_drop]; omega
      have := hmax 0 (by omega) (by omega) (by simp)
      omega

/-- What `findCommonFields` returns when it returns: a length up to which the two
headers exist and have the same widths. -/
theorem findCommonFields_prefix_widths (h1 h2 : Type_Header) (k : Nat)
    (h : findCommonFields (some h1) (some h2) = .ok k) :
    k ≤ h1.fields.length ∧ k ≤ h2.fields.length ∧ h1.widths.take k = h2.widths.take k := by
  unfold findCommonFields at h
  simp only at h
  cases hl : findCommonFieldsLoop h2.fields h1.fields 0 [] with
  | error e => rw [hl] at h; simp at h
  | ok cf =>
    rw [hl] at h
    simp only [Except.ok.injEq] at h
    obtain ⟨k2, hk1, hk2, hk3, hk4⟩ := findCommonFieldsLoop_prefix_widths h2.fields h1.fields 0 [] cf hl
    simp only [List.length_nil, Nat.zero_add, List.drop_zero] at hk1 hk3 hk4
    have : k2 = k := by omega
    subst this
    refine ⟨hk2, hk3, ?_⟩
    simp only [Type_Header.widths, ← List.map_take]
    exact hk4

/-- On fixed-width headers `findCommonFields` returns the length of the longest common
prefix of the two lists of field widths. -/
theorem findCommonFields_char (h1 h2 : Type_Header)
    (hf1 : allFixedWidth h1) (hf2 : allFixedWidth h2) :
    ∃ k, findCommonFields (some h1) (some h2) = .ok k ∧
      k ≤ min h1.fields.length h2.fields.length ∧
      h1.widths.take k = h2.widths.take k ∧
      (∀ k2, k2 ≤ min h1.fields.length h2.fields.length →
        h1.widths.take k2 = h2.widths.take k2 → k2 ≤ k) := by
  obtain ⟨cf, hcf, hmax⟩ := findCommonFieldsLoop_fixed h2.fields hf2 h1.fields 0 [] hf1
  have hres : findCommonFields (some h1) (some h2) = .ok cf.length := by
    unfold findCommonFields
    simp only [hcf]
  obtain ⟨hk1, hk2, hk3⟩ := findCommonFields_prefix_widths h1 h2 cf.length hres
  refine ⟨cf.length, hres, Nat.le_min.mpr ⟨hk1, hk2⟩, hk3, ?_⟩
  intro k2 hk hw
  have hk' := Nat.le_min.mp hk
  have := hmax k2 hk'.1 (by simpa using hk'.2)
    (by simpa only [Type_Header.widths, ← List.map_take, List.drop_zero] using hw)
  simpa using this

/-- Whether a header is fixed-width is a property of its list of widths. -/
theorem allFixedWidth_iff_widths (h : Type_Header) :
    allFixedWidth h ↔ ∀ w ∈ h.widths, w.isSome = true := by
  simp only [allFixedWidth, Type_Header.widths, StructField.width, List.mem_map,
    forall_exists_index, and_imp, forall_apply_eq_imp_iff₂]

/-- Claim C11.  For two headers whose fields are all fixed-width bit fields,
`findCommonFields` returns the largest `k ≤ min(|h1|, |h2|)` such that the first `k`
fields of `h1` and of `h2` have the same widths; the result is the same for any two
headers with these lists of widths (field names are ignored); and the result is 0 when
either header is absent. -/
theorem findCommonFields_longest_common_prefix_length (h1 h2 : Type_Header)
    (hf1 : allFixedWidth h1) (hf2 : allFixedWidth h2) :
    (∃ k, findCommonFields (some h1) (some h2) = .ok k ∧
      k ≤ min h1.fields.length h2.fields.length ∧
      h1.widths.take k = h2.widths.take k ∧
      (∀ k2, k2 ≤ min h1.fields.length h2.fields.length →
        h1.widths.take k2 = h2.widths.take k2 → k2 ≤ k)) ∧
      (∀ g1 g2 : Type_Header, g1.widths = h1.widths → g2.widths = h2.widths →
        findCommonFields (some g1) (some g2) = findCommonFields (some h1) (some h2)) ∧
      findCommonFields none (some h2) = .ok 0 ∧
      findCommonFields (some h1) none = .ok 0 ∧
      findCommonFields none none = .ok 0 := by
  refine ⟨findCommonFields_char h1 h2 hf1 hf2, ?_, rfl, rfl, rfl⟩
  intro g1 g2 hw1 hw2
  have hg1 : allFixedWidth g1 := by
    rw [allFixedWidth_iff_widths, hw1, ← allFixedWidth_iff_widths]
    exact hf1
  have hg2 : allFixedWidth g2 := by
    rw [allFixedWidth_iff_widths, hw2, ← allFixedWidth_iff_widths]
    exact hf2
  have hl1 : g1.fields.length = h1.fields.length := by
    have := congrArg List.length hw1
    simpa only [Type_Header.widths, List.length_map] using this
  have hl2 : g2.fields.length = h2.fields.length := by
    have := congrArg List.length hw2
    simpa only [Type_Header.widths, List.length_map] using this
  obtain ⟨k, hk, hkle, hkw, hkmax⟩ := findCommonFields_char h1 h2 hf1 hf2
  obtain ⟨j, hj, hjle, hjw, hjmax⟩ := findCommonFields_char g1 g2 hg1 hg2
  rw [hw1, hw2] at hjw
  rw [hl1, hl2] at hjle hjmax
  have h1 : j ≤ k := hkmax j hjle hjw
  have h2 : k ≤ j := hjmax k hkle (by rw [hw1, hw2]; exact hkw)
  rw [hk, hj, Nat.le_antisymm h1 h2]

/-- Witness of C11 on the headers `A { bit<8>; bit<16>; bit<4> }` and
`B { bit<8>; bit<12>; bit<8> }`, whose longest common prefix has length 1. -/
theorem findCommonFields_longest_common_prefix_length_witness :
    (allFixedWidth headerA ∧ allFixedWidth headerB12) ∧
      findCommonFields (some headerA) (some headerB12) = .ok 1 ∧
      ∃ k, findCommonFields (some headerA) (some headerB12) = .ok k ∧
        k ≤ min headerA.fields.length headerB12.fields.length ∧
        headerA.widths.take k = headerB12.widths.take k ∧
        (∀ k2, k2 ≤ min headerA.fields.length headerB12.fields.length →
          headerA.widths.take k2 = headerB12.widths.take k2 → k2 ≤ k) :=
  ⟨⟨by decide, by decide⟩, rfl,
    (findCommonFields_longest_common_prefix_length headerA headerB12 (by decide) (by decide)).1⟩

theorem mapFind_mapInsert {V : Type} (m : List (String × V)) (k : String) (v : V) (k2 : String) :
    mapFind (mapInsert m k v) k2 = if k2 = k then some v else mapFind m k2 := by
  induction m with
  | nil =>
    simp only [mapInsert, mapFind]
    by_cases h : k = k2
    · simp [h]
    · have h' : ¬ k2 = k := fun e => h e.symm
      simp [h, h']
  | cons e rest ih =>
    obtain ⟨ke, ve⟩ := e
    simp only [mapInsert]
    by_cases h1 : cstringLt k ke = true
    · simp only [h1, if_true, mapFind]
      by_cases h : k = k2
      · simp [h]
      · have h' : ¬ k2 = k := fun e => h e.symm
        simp [h, h']
    · simp only [h1, Bool.false_eq_true, if_false]
      by_cases h2 : k = ke
      · subst h2
        simp only [if_true, mapFind]
        by_cases h : k = k2
        · simp [h]
        · have h' : ¬ k2 = k := fun e => h e.symm
          simp [h, h']
      · simp only [h2, if_false, mapFind, ih]
        by_cases h : ke = k2
        · have h' : ¬ k2 = k := fun e => h2 (e ▸ h).symm
          simp [h, h']
        · simp [h]

theorem leastCommonFieldsLoop_same (headers : String → Option Type_Header) (h0 : String) :
    ∀ (children : List (Nat × ParseStateInfo)) (least : Nat) (hdr1 : String),
      (hdr1 = "" ∨ hdr1 = h0) →
      (∀ c ∈ children, c.2.firstHeaderExtracted = h0) →
      ∃ hdr, leastCommonFieldsLoop headers children (least, hdr1) = .ok (least, hdr) := by
  intro children
  induction children with
  | nil =>
    intro least hdr1 _ _
    exact ⟨hdr1, rfl⟩
  | cons c rest ih =>
    intro least hdr1 h1 hall
    have hc : c.2.firstHeaderExtracted = h0 := hall c (List.mem_cons_self _ _)
    have hrest : ∀ c2 ∈ rest, c2.2.firstHeaderExtracted = h0 :=
      fun c2 h => hall c2 (List.mem_cons_of_mem _ h)
    have hnew : (if hdr1 = "" then h0 else hdr1) = h0 := by
      rcases h1 with h | h
      · rw [if_pos h]
      · by_cases he : hdr1 = ""
        · rw [if_pos he]
        · rw [if_neg he, h]
    rw [leastCommonFieldsLoop]
    simp only [hc, hnew, ne_eq, not_true_eq_false, if_false]
    exact ih least h0 (Or.inr rfl) hrest

/-- Claim C15, amended.  Successors that all first-extract the same header are never
compared: for every state whose successors all have the same first extracted header
`h0`, the comparison loop of `postorder(IR::P4Parser *)` ends with `leastCommonFields`
at its initial value 10000, the guard `leastCommonFields < 10000` fails, and the
commoning of the state returns the visitor state unchanged: no common header is
synthesized and no header is remapped. -/
theorem same_header_successors_left_alone (s : CommonFields) (state : ParseStateInfo)
    (h0 : String) (hsame : ∀ c ∈ s.childrenOf state, c.2.firstHeaderExtracted = h0) :
    (∃ hdr1, leastCommonFieldsLoop s.headers (s.childrenOf state) (10000, "")
        = .ok (10000, hdr1)) ∧
      s.commonState state = .ok s := by
  obtain ⟨hdr, hloop⟩ :=
    leastCommonFieldsLoop_same s.headers h0 (s.childrenOf state) 10000 "" (Or.inl rfl) hsame
  refine ⟨⟨hdr, hloop⟩, ?_⟩
  unfold CommonFields.commonState
  by_cases hb : state.children.card > 1
  · rw [if_pos hb, hloop]
    simp
  · rw [if_neg hb]

/-- What the comparison loop guarantees for its result `(L, H)`: `L` does not exceed the
initial value; a successor either extracts nothing, extracts `H`, or was compared with
`H` and shares at least `L` fields with it; and when `L` is below the initial value, it
is the result of one comparison. -/
theorem leastCommonFieldsLoop_spec (headers : String → Option Type_Header) :
    ∀ (children : List (Nat × ParseStateInfo)) (least : Nat) (hdr1 : String) (L : Nat)
      (H : String),
      leastCommonFieldsLoop headers children (least, hdr1) = .ok (L, H) →
      L ≤ least ∧ (hdr1 ≠ "" → H = hdr1) ∧
        (∀ c ∈ children, c.2.firstHeaderExtracted = "" ∨ c.2.firstHeaderExtracted = H ∨
          ∃ n, findCommonFields (headers H) (headers c.2.firstHeaderExtracted) = .ok n ∧
            L ≤ n) ∧
        (L < least → ∃ c ∈ children,
          findCommonFields (headers H) (headers c.2.firstHeaderExtracted) = .ok L) := by
  intro children
  induction children with
  | nil =>
    intro least hdr1 L H h
    rw [leastCommonFieldsLoop] at h
    simp only [Except.ok.injEq, Prod.mk.injEq] at h
    obtain ⟨rfl, rfl⟩ := h
    exact ⟨le_refl _, fun _ => rfl, fun c hc => absurd hc (List.not_mem_nil c),
      fun hlt => absurd hlt (lt_irrefl _)⟩
  | cons c rest ih =>
    intro least hdr1 L H h
    rw [leastCommonFieldsLoop] at h
    by_cases hne : (if hdr1 = "" then c.2.firstHeaderExtracted else hdr1)
        ≠ c.2.firstHeaderExtracted
    · rw [if_pos hne] at h
      have hhdr1 : hdr1 ≠ "" := by
        intro he
        rw [if_pos he] at hne
        exact hne rfl
      rw [if_neg hhdr1] at h hne
      cases hf : findCommonFields (headers hdr1) (headers c.2.firstHeaderExtracted) with
      | error e => rw [hf] at h; simp at h
      | ok n =>
        rw [hf] at h
        simp only at h
        obtain ⟨h1, h2, h3, h4⟩ := ih _ hdr1 L H h
        have hH : H = hdr1 := h2 hhdr1
        subst hH
        have hmin : (if n < least then n else least) ≤ n ∧
            (if n < least then n else least) ≤ least := by
          split_ifs <;> omega
        refine ⟨le_trans h1 hmin.2, fun _ => rfl, ?_, ?_⟩
        · intro c2 hc2
          rcases List.mem_cons.mp hc2 with rfl | hc2
          · exact Or.inr (Or.inr ⟨n, hf, le_trans h1 hmin.1⟩)
          · exact h3 c2 hc2
        · intro hlt
          by_cases hl : L < (if n < least then n else least)
          · obtain ⟨c2, hc2, hc3⟩ := h4 hl
            exact ⟨c2, List.mem_cons_of_mem _ hc2, hc3⟩
          · have hLn : L = n := by
              split_ifs at hl h1 <;> omega
            exact ⟨c, List.mem_cons_self _ _, hLn ▸ hf⟩
    · rw [if_neg hne] at h
      have heq : (if hdr1 = "" then c.2.firstHeaderExtracted else hdr1)
          = c.2.firstHeaderExtracted := by
        by_contra hc
        exact hne hc
      rw [heq] at h
      obtain ⟨h1, h2, h3, h4⟩ := ih least c.2.firstHeaderExtracted L H h
      refine ⟨h1, ?_, ?_, ?_⟩
      · intro hhdr1
        rw [if_neg hhdr1] at heq
        rw [heq]
        exact h2 (heq ▸ hhdr1)
      · intro c2 hc2
        rcases List.mem_cons.mp hc2 with rfl | hc2
        · by_cases he : c2.2.firstHeaderExtracted = ""
          · exact Or.inl he
          · exact Or.inr (Or.inl (h2 he).symm)
        · exact h3 c2 hc2
      · intro hlt
        obtain ⟨c2, hc2, hc3⟩ := h4 hlt
        exact ⟨c2, List.mem_cons_of_mem _ hc2, hc3⟩

/-- On declared fixed-width headers (or an absent header) `findCommonFields` returns. -/
theorem findCommonFields_total (o1 o2 : Option Type_Header)
    (h1 : ∀ h ∈ o1, allFixedWidth h) (h2 : ∀ h ∈ o2, allFixedWidth h) :
    ∃ k, findCommonFields o1 o2 = .ok k := by
  cases o1 with
  | none => exact ⟨0, by cases o2 <;> rfl⟩
  | some a =>
    cases o2 with
    | none => exact ⟨0, rfl⟩
    | some b =>
      obtain ⟨cf, hcf, _⟩ := findCommonFieldsLoop_fixed b.fields (h2 b rfl) a.fields 0 []
        (h1 a rfl)
      exact ⟨cf.length, by simp only [findCommonFields, hcf]⟩

/-- When every successor header is fixed-width the comparison loop returns. -/
theorem leastCommonFieldsLoop_total (headers : String → Option Type_Header) :
    ∀ (children : List (Nat × ParseStateInfo)) (least : Nat) (hdr1 : String),
      (hdr1 = "" ∨ ∀ h ∈ headers hdr1, allFixedWidth h) →
      (∀ c ∈ children, ∀ h ∈ headers c.2.firstHeaderExtracted, allFixedWidth h) →
      ∃ r, leastCommonFieldsLoop headers children (least, hdr1) = .ok r := by
  intro children
  induction children with
  | nil =>
    intro least hdr1 _ _
    exact ⟨(least, hdr1), by rw [leastCommonFieldsLoop]⟩
  | cons c rest ih =>
    intro least hdr1 h1 hc
    have hfirst := hc c (List.mem_cons_self _ _)
    have hrest : ∀ c2 ∈ rest, ∀ h ∈ headers c2.2.firstHeaderExtracted, allFixedWidth h :=
      fun c2 hc2 => hc c2 (List.mem_cons_of_mem _ hc2)
    have hnew : ∀ h ∈ headers (if hdr1 = "" then c.2.firstHeaderExtracted else hdr1),
        allFixedWidth h := by
      by_cases he : hdr1 = ""
      · rw [if_pos he]; exact hfirst
      · rw [if_neg he]
        rcases h1 with h1 | h1
        · exact absurd h1 he
        · exact h1
    rw [leastCommonFieldsLoop]
    by_cases hne : (if hdr1 = "" then c.2.firstHeaderExtracted else hdr1)
        ≠ c.2.firstHeaderExtracted
    · rw [if_pos hne]
      obtain ⟨k, hk⟩ := findCommonFields_total _ _ hnew hfirst
      rw [hk]
      exact ih _ _ (Or.inr hnew) hrest
    · rw [if_neg hne]
      exact ih _ _ (Or.inr hnew) hrest

/-- One step of the second loop: the declarations and the common headers are untouched,
the successor is added to the states recorded for `newName`, and its header, when
declared, is remapped; the records of the other headers are kept. -/
theorem remapChild_spec (newName : String) (L : Nat) (s s2 : CommonFields)
    (c : Nat × ParseStateInfo) (h : s.remapChild newName L c = .ok s2) :
    s2.headers = s.headers ∧ s2.newHeaders = s.newHeaders ∧
      s2.parserStates = s.parserStates ∧
      s2.headerExtractStates newName
        = some (insert c.1 ((s.headerExtractStates newName).getD ∅)) ∧
      (∀ hd, s.headers c.2.firstHeaderExtracted = some hd →
        s2.remappedOnto newName L c.2.firstHeaderExtracted hd) ∧
      (∀ name hd, s.remappedOnto newName L name hd → s.headers name = some hd →
        s2.remappedOnto newName L name hd) := by
  unfold CommonFields.remapChild at h
  simp only at h
  cases hh : s.headers c.2.firstHeaderExtracted with
  | none =>
    rw [hh] at h
    simp only [Except.ok.injEq] at h
    subst h
    refine ⟨rfl, rfl, rfl, ?_, ?_, ?_⟩
    · simp [setKey]
    · intro hd hhd
      exact absurd hhd (by simp)
    · intro name hd hr _
      exact hr
  | some childHdr =>
    rw [hh] at h
    simp only at h
    by_cases hle : L ≤ childHdr.fields.length
    · rw [if_pos hle] at h
      simp only [Except.ok.injEq] at h
      subst h
      refine ⟨rfl, rfl, rfl, ?_, ?_, ?_⟩
      · simp [setKey]
      · intro hd hhd
        simp only [Option.some.injEq] at hhd
        subst hhd
        refine ⟨?_, ?_, ?_⟩
        · simp [setKey]
        · simp [setKey]
        · simp [mapFind_mapInsert]
      · intro name hd hr hhd
        by_cases hn : name = c.2.firstHeaderExtracted
        · subst hn
          rw [hh] at hhd
          simp only [Option.some.injEq] at hhd
          subst hhd
          refine ⟨?_, ?_, ?_⟩
          · simp [setKey]
          · simp [setKey]
          · simp [mapFind_mapInsert]
        · obtain ⟨hr1, hr2, hr3⟩ := hr
          refine ⟨?_, ?_, ?_⟩
          · simp only [setKey, if_neg hn]; exact hr1
          · simp only [setKey, if_neg hn]; exact hr2
          · simp only [mapFind_mapInsert, if_neg hn]; exact hr3
    · rw [if_neg hle] at h
      simp at h

/-- One step of the second loop returns when the common prefix fits in the header. -/
theorem remapChild_total (newName : String) (L : Nat) (s : CommonFields)
    (c : Nat × ParseStateInfo)
    (hfit : ∀ hd ∈ s.headers c.2.firstHeaderExtracted, L ≤ hd.fields.length) :
    ∃ s2, s.remapChild newName L c = .ok s2 := by
  unfold CommonFields.remapChild
  simp only
  cases hh : s.headers c.2.firstHeaderExtracted with
  | none => exact ⟨_, rfl⟩
  | some childHdr =>
    simp only
    rw [if_pos (hfit childHdr hh)]
    exact ⟨_, rfl⟩

/-- The second loop: every successor is recorded for `newName` and every declared
successor header is remapped, with the same split position. -/
theorem remapChildren_spec (newName : String) (L : Nat) :
    ∀ (children : List (Nat × ParseStateInfo)) (s s2 : CommonFields),
      s.remapChildren newName L children = .ok s2 →
      s2.headers = s.headers ∧ s2.newHeaders = s.newHeaders ∧
        s2.parserStates = s.parserStates ∧
        ((s.headerExtractStates newName).isSome = true →
          (s2.headerExtractStates newName).isSome = true) ∧
        (∀ p, p ∈ (s2.headerExtractStates newName).getD ∅ ↔
          p ∈ (s.headerExtractStates newName).getD ∅ ∨ p ∈ children.map Prod.fst) ∧
        (∀ c ∈ children, ∀ hd, s.headers c.2.firstHeaderExtracted = some hd →
          s2.remappedOnto newName L c.2.firstHeaderExtracted hd) ∧
        (∀ name hd, s.remappedOnto newName L name hd → s.headers name = some hd →
          s2.remappedOnto newName L name hd) := by
  intro children
  induction children with
  | nil =>
    intro s s2 h
    rw [CommonFields.remapChildren] at h
    simp only [Except.ok.injEq] at h
    subst h
    exact ⟨rfl, rfl, rfl, fun hs => hs, fun p => by simp,
      fun c hc => absurd hc (List.not_mem_nil c), fun _ _ hr _ => hr⟩
  | cons c rest ih =>
    intro s s2 h
    rw [CommonFields.remapChildren] at h
    cases h1 : s.remapChild newName L c with
    | error e => rw [h1] at h; simp at h
    | ok s1 =>
      rw [h1] at h
      simp only at h
      obtain ⟨a1, a2, a0, a3, a4, a5⟩ := remapChild_spec newName L s s1 c h1
      obtain ⟨b1, b2, b0, b6, b3, b4, b5⟩ := ih s1 s2 h
      refine ⟨b1.trans a1, b2.trans a2, b0.trans a0, ?_, ?_, ?_, ?_⟩
      · intro _
        exact b6 (by rw [a3]; rfl)
      · intro p
        rw [b3 p, a3]
        simp only [Option.getD_some, Finset.mem_insert, List.map_cons, List.mem_cons]
        tauto
      · intro c2 hc2 hd hhd
        rcases List.mem_cons.mp hc2 with rfl | hc2
        · exact b5 _ hd (a4 hd hhd) (a1 ▸ hhd)
        · exact b4 c2 hc2 hd (a1 ▸ hhd)
      · intro name hd hr hhd
        exact b5 name hd (a5 name hd hr hhd) (a1 ▸ hhd)

/-- The second loop returns when the common prefix fits in every successor header. -/
theorem remapChildren_total (newName : String) (L : Nat) :
    ∀ (children : List (Nat × ParseStateInfo)) (s : CommonFields),
      (∀ c ∈ children, ∀ hd ∈ s.headers c.2.firstHeaderExtracted, L ≤ hd.fields.length) →
      ∃ s2, s.remapChildren newName L children = .ok s2 := by
  intro children
  induction children with
  | nil => intro s _; exact ⟨s, by rw [CommonFields.remapChildren]⟩
  | cons c rest ih =>
    intro s hfit
    obtain ⟨s1, h1⟩ := remapChild_total newName L s c (hfit c (List.mem_cons_self _ _))
    have a1 := (remapChild_spec newName L s s1 c h1).1
    obtain ⟨s2, h2⟩ := ih s1 (fun c2 hc2 => a1 ▸ hfit c2 (List.mem_cons_of_mem _ hc2))
    exact ⟨s2, by rw [CommonFields.remapChildren, h1]; exact h2⟩

/-- Equal prefixes of length `n` give equal prefixes of every length `L ≤ n`. -/
theorem take_eq_of_take_eq {α : Type} (l1 l2 : List α) (L n : Nat) (hLn : L ≤ n)
    (h : l1.take n = l2.take n) : l1.take L = l2.take L := by
  have h1 : (l1.take n).take L = (l2.take n).take L := by rw [h]
  rwa [List.take_take, List.take_take, min_eq_left hLn] at h1

/-- A positive result of `findCommonFields` comes from two declared headers. -/
theorem findCommonFields_pos (o1 o2 : Option Type_Header) (k : Nat) (hk : 0 < k)
    (h : findCommonFields o1 o2 = .ok k) : ∃ h1 h2, o1 = some h1 ∧ o2 = some h2 := by
  cases o1 with
  | none =>
    have : findCommonFields none o2 = .ok 0 := by cases o2 <;> rfl
    rw [this] at h
    simp only [Except.ok.injEq] at h
    omega
  | some a =>
    cases o2 with
    | none =>
      have : findCommonFields (some a) none = .ok 0 := rfl
      rw [this] at h
      simp only [Except.ok.injEq] at h
      omega
    | some b => exact ⟨a, b, rfl, rfl⟩

/-- The commoning of one branching state.  For a state with more than one successor
whose declared successor headers are all fixed-width (no header has the empty name), the
comparison loop returns a prefix length `L`; when `0 < L < 10000` the commoning returns
a state `s2` in which the common header holds the first `L` fields of `hdr1`, the states
recorded for it are the successors, and each declared successor header is remapped at
position `L`, where it agrees in widths with `hdr1`. -/
theorem commonState_spec (s : CommonFields) (state : ParseStateInfo)
    (hbranch : state.children.card > 1) (hnamed : s.headers "" = none)
    (hfixed : ∀ c ∈ s.childrenOf state, ∀ h ∈ s.headers c.2.firstHeaderExtracted,
      allFixedWidth h) :
    ∃ L hdr1,
      leastCommonFieldsLoop s.headers (s.childrenOf state) (10000, "") = .ok (L, hdr1) ∧
      (0 < L → L < 10000 →
        ∃ s2 childHdr, s.headers hdr1 = some childHdr ∧
          s.commonState state = .ok s2 ∧
          mapFind s2.newHeaders (childHdr.name ++ COMMON_HDR ++ toString s.commonHdrNo)
            = some (Type_Header.mk (childHdr.name ++ COMMON_HDR ++ toString s.commonHdrNo)
                (childHdr.fields.take L)) ∧
          s2.parserStates = s.parserStates ∧
          (∃ states, s2.headerExtractStates
              (childHdr.name ++ COMMON_HDR ++ toString s.commonHdrNo) = some states ∧
            ∀ p, p ∈ states ↔ p ∈ (s.childrenOf state).map Prod.fst) ∧
          ∀ c ∈ s.childrenOf state, ∀ h ∈ s.headers c.2.firstHeaderExtracted,
            s2.remappedOnto (childHdr.name ++ COMMON_HDR ++ toString s.commonHdrNo) L
                c.2.firstHeaderExtracted h ∧
              L ≤ h.fields.length ∧ childHdr.widths.take L = h.widths.take L) := by
  obtain ⟨⟨L, hdr1⟩, hloop⟩ := leastCommonFieldsLoop_total s.headers (s.childrenOf state)
    10000 "" (Or.inl rfl) hfixed
  refine ⟨L, hdr1, hloop, fun hpos hlt => ?_⟩
  obtain ⟨_, _, hall, hex⟩ := leastCommonFieldsLoop_spec s.headers _ _ _ _ _ hloop
  obtain ⟨c0, _, hfc0⟩ := hex hlt
  obtain ⟨childHdr, h0, hH, hh0⟩ := findCommonFields_pos _ _ L hpos hfc0
  rw [hH, hh0] at hfc0
  have hleH : L ≤ childHdr.fields.length := (findCommonFields_prefix_widths _ _ _ hfc0).1
  have hchild : ∀ c ∈ s.childrenOf state, ∀ h ∈ s.headers c.2.firstHeaderExtracted,
      L ≤ h.fields.length ∧ childHdr.widths.take L = h.widths.take L := by
    intro c hc h hh
    rcases hall c hc with he | he | ⟨n, hn, hLn⟩
    · rw [he, hnamed] at hh
      exact absurd hh (by simp)
    · rw [he, hH] at hh
      simp only [Option.mem_def, Option.some.injEq] at hh
      subst hh
      exact ⟨hleH, rfl⟩
    · rw [hH, Option.mem_def.mp hh] at hn
      obtain ⟨_, p2, p3⟩ := findCommonFields_prefix_widths _ _ _ hn
      exact ⟨le_trans hLn p2, take_eq_of_take_eq _ _ L n hLn p3⟩
  obtain ⟨s2, hs2⟩ := remapChildren_total (childHdr.name ++ COMMON_HDR ++ toString s.commonHdrNo)
    L (s.childrenOf state)
    { s with
      newHeaders := mapInsert s.newHeaders
        (childHdr.name ++ COMMON_HDR ++ toString s.commonHdrNo)
        { name := childHdr.name ++ COMMON_HDR ++ toString s.commonHdrNo,
          fields := childHdr.fields.take L },
      headerExtractStates := setKey s.headerExtractStates
        (childHdr.name ++ COMMON_HDR ++ toString s.commonHdrNo) ∅,
      commonHdrNo := s.commonHdrNo + 1 }
    (fun c hc h hh => (hchild c hc h hh).1)
  obtain ⟨_, b2, b0, b6, b3, b4, _⟩ := remapChildren_spec _ _ _ _ _ hs2
  have hcommon : s.commonState state = .ok s2 := by
    unfold CommonFields.commonState
    rw [if_pos hbranch, hloop]
    simp only
    rw [if_pos ⟨hpos, hlt⟩, hH]
    simp only
    rw [if_pos hleH]
    exact hs2
  refine ⟨s2, childHdr, hH, hcommon, ?_, b0, ?_, ?_⟩
  · rw [b2]
    simp only [mapFind_mapInsert, if_true]
  · have hsome := b6 (by simp [setKey])
    obtain ⟨states, hstates⟩ := Option.isSome_iff_exists.mp hsome
    refine ⟨states, hstates, fun p => ?_⟩
    have hp := b3 p
    rw [hstates] at hp
    simpa [setKey] using hp
  · intro c hc h hh
    exact ⟨b4 c hc h hh, hchild c hc h hh⟩

/-- Claim C16.  Commoning splits each successor header without losing or reordering
fields.  For a state with more than one successor whose declared successor headers are
all fixed-width (no header has the empty name), the comparison loop of
`postorder(IR::P4Parser *)` returns a prefix length `L`; when `0 < L < 10000` the
commoning of the state returns, the common header holds the first `L` fields of the
header `hdr1`, and every declared successor header `h` is remapped onto it: its residual
keeps the name of `h` and consists exactly of the fields of `h` at positions
`L..|h|-1`, in order, and the field widths of the common header followed by those of the
residual are the field widths of `h`. -/
theorem commoning_splits_headers (s : CommonFields) (state : ParseStateInfo)
    (hbranch : state.children.card > 1) (hnamed : s.headers "" = none)
    (hfixed : ∀ c ∈ s.childrenOf state, ∀ h ∈ s.headers c.2.firstHeaderExtracted,
      allFixedWidth h) :
    ∃ L hdr1,
      leastCommonFieldsLoop s.headers (s.childrenOf state) (10000, "") = .ok (L, hdr1) ∧
      (0 < L → L < 10000 →
        ∃ s2 childHdr common, s.headers hdr1 = some childHdr ∧
          s.commonState state = .ok s2 ∧
          mapFind s2.newHeaders (childHdr.name ++ COMMON_HDR ++ toString s.commonHdrNo)
            = some common ∧
          common.fields = childHdr.fields.take L ∧
          ∀ c ∈ s.childrenOf state, ∀ h ∈ s.headers c.2.firstHeaderExtracted,
            s2.headerMap c.2.firstHeaderExtracted
              = some (childHdr.name ++ COMMON_HDR ++ toString s.commonHdrNo) ∧
            ∃ residual, mapFind s2.modifiedHeaders c.2.firstHeaderExtracted = some residual ∧
              residual.name = c.2.firstHeaderExtracted ∧
              L ≤ h.fields.length ∧
              residual.fields = h.fields.drop L ∧
              residual.fields.length = h.fields.length - L ∧
              (∀ i, residual.fields[i]? = h.fields[L + i]?) ∧
              common.widths ++ residual.widths = h.widths) := by
  obtain ⟨L, hdr1, hloop, hrest⟩ := commonState_spec s state hbranch hnamed hfixed
  refine ⟨L, hdr1, hloop, fun hpos hlt => ?_⟩
  obtain ⟨s2, childHdr, hH, hcommon, hnew, _, _, hchild⟩ := hrest hpos hlt
  refine ⟨s2, childHdr, _, hH, hcommon, hnew, rfl, ?_⟩
  intro c hc h hh
  obtain ⟨⟨r1, _, r3⟩, q1, q2⟩ := hchild c hc h hh
  refine ⟨r1, _, r3, rfl, q1, rfl, ?_, ?_, ?_⟩
  · simp only [List.length_drop]
  · intro i
    simp only [List.getElem?_drop]
  · simp only [Type_Header.widths] at q2 ⊢
    rw [List.map_take, q2, List.map_drop, List.take_append_drop]

/-- What the code does with the extract of a common header: the states that get it are
the recorded successors of the branching state where it was found, whatever they extract,
and no other state.  For a state
with more than one successor whose declared successor headers are all fixed-width, when
the prefix length `L` satisfies `0 < L < 10000` the commoning returns a state `s2` with
which `ModifyHeaders::postorder(IR::ParserState *)`, run for the common header `C`,
prepends `packet.extract(hdr.<C>_in_hdr)` to a parser state when its name is recorded
for a successor of the branching state, and returns every other parser state
unchanged, whatever it extracts. -/
theorem common_extract_goes_to_successors (s : CommonFields) (state : ParseStateInfo)
    (hbranch : state.children.card > 1) (hnamed : s.headers "" = none)
    (hfixed : ∀ c ∈ s.childrenOf state, ∀ h ∈ s.headers c.2.firstHeaderExtracted,
      allFixedWidth h) :
    ∃ L hdr1,
      leastCommonFieldsLoop s.headers (s.childrenOf state) (10000, "") = .ok (L, hdr1) ∧
      (0 < L → L < 10000 →
        ∃ s2 childHdr, s.headers hdr1 = some childHdr ∧
          s.commonState state = .ok s2 ∧
          ∀ ps : ParserState,
            ModifyHeaders.postorder_ParserState s2
                (childHdr.name ++ COMMON_HDR ++ toString s.commonHdrNo) ps =
              if ∃ c ∈ s.childrenOf state, mapFind s.parserStates ps.name = some c.1 then
                { ps with components :=
                    extractStatement (childHdr.name ++ COMMON_HDR ++ toString s.commonHdrNo)
                      :: ps.components }
              else ps) := by
  obtain ⟨L, hdr1, hloop, hrest⟩ := commonState_spec s state hbranch hnamed hfixed
  refine ⟨L, hdr1, hloop, fun hpos hlt => ?_⟩
  obtain ⟨s2, childHdr, hH, hcommon, _, hps, ⟨states, hstates, hmem⟩, _⟩ := hrest hpos hlt
  refine ⟨s2, childHdr, hH, hcommon, fun ps => ?_⟩
  have hiff : ModifyHeaders.receivesExtract s2
      (childHdr.name ++ COMMON_HDR ++ toString s.commonHdrNo) ps.name = true ↔
      ∃ c ∈ s.childrenOf state, mapFind s.parserStates ps.name = some c.1 := by
    unfold ModifyHeaders.receivesExtract
    rw [hstates, hps]
    cases hp : mapFind s.parserStates ps.name with
    | none => simp
    | some p =>
      simp only [decide_eq_true_eq, Option.some.injEq]
      rw [hmem p]
      simp only [List.mem_map]
      constructor
      · rintro ⟨c, hc, rfl⟩
        exact ⟨c, hc, rfl⟩
      · rintro ⟨c, hc, rfl⟩
        exact ⟨c, hc, rfl⟩
  unfold ModifyHeaders.postorder_ParserState
  by_cases hr : ModifyHeaders.receivesExtract s2
      (childHdr.name ++ COMMON_HDR ++ toString s.commonHdrNo) ps.name = true
  · rw [if_pos hr, if_pos (hiff.mp hr)]
  · rw [if_neg hr, if_neg (fun h => hr (hiff.mpr h))]

/-- The field loop leaves the new field name alone when the field is not remapped. -/
theorem fieldLoop_not_mem (newHdr : Option Type_Header) (b : Bool) (field : String) :
    ∀ (names : List String) (pos : Nat) (acc : Option String), field ∉ names →
      ModifyHeaders.fieldLoop newHdr b field names pos acc = .ok acc := by
  intro names
  induction names with
  | nil => intro pos acc _; rw [ModifyHeaders.fieldLoop]
  | cons name rest ih =>
    intro pos acc hmem
    have hne : name ≠ field := fun he => hmem (he ▸ List.mem_cons_self _ _)
    simp only [ModifyHeaders.fieldLoop, hne, if_false]
    exact ih _ _ (fun hm => hmem (List.mem_cons_of_mem _ hm))

/-- The field loop picks the field of the common header at the position of the field
name among the remapped names. -/
theorem fieldLoop_at (hdr : Type_Header) (field : String) :
    ∀ (names : List String) (pos i : Nat) (acc : Option String) (g : StructField),
      names.Nodup → names[i]? = some field → hdr.fields[pos + i]? = some g →
      ModifyHeaders.fieldLoop (some hdr) true field names pos acc = .ok (some g.name) := by
  intro names
  induction names with
  | nil => intro pos i acc g _ hi _; simp at hi
  | cons name rest ih =>
    intro pos i acc g hnd hi hg
    obtain ⟨hnotin, hnd2⟩ := List.nodup_cons.mp hnd
    cases i with
    | zero =>
      simp only [List.getElem?_cons_zero, Option.some.injEq] at hi
      subst hi
      simp only [Nat.add_zero] at hg
      simp only [ModifyHeaders.fieldLoop, hg, if_true]
      exact fieldLoop_not_mem _ _ _ _ _ _ hnotin
    | succ j =>
      simp only [List.getElem?_cons_succ] at hi
      have hmem : field ∈ rest := List.getElem?_mem hi
      have hne : name ≠ field := fun he => hnotin (he ▸ hmem)
      simp only [ModifyHeaders.fieldLoop, hne, if_false]
      exact ih (pos + 1) j acc g hnd2 hi (by rw [← hg]; congr 1; omega)

/-- A name at position `i ≥ L` of a list without repetition is not among the first `L`. -/
theorem not_mem_take_of_le {α : Type} (l : List α) (L i : Nat) (a : α) (hnd : l.Nodup)
    (hi : l[i]? = some a) (hLi : L ≤ i) : a ∉ l.take L := by
  intro hmem
  obtain ⟨j, hj, hja⟩ := List.getElem_of_mem hmem
  have hjL : j < L := by
    have := hj
    simp only [List.length_take] at this
    omega
  have hjl : j < l.length := by
    have := hj
    simp only [List.length_take] at this
    omega
  have hil : i < l.length := by
    by_contra hc
    rw [List.getElem?_eq_none (by omega)] at hi
    simp at hi
  rw [List.getElem_take] at hja
  have hia : l[i] = a := by
    rw [List.getElem?_eq_getElem hil] at hi
    simpa using hi
  have := (List.Nodup.getElem_inj_iff hnd).mp (hja.trans hia.symm)
  omega

/-- Claim C17.  The field-access rewrite is positional.  Let the header `h`, declared as
`orig` with distinct field names, be remapped onto the common header `C` at position `L`,
and let `x.hsel` have the header type `h`.  Then `ModifyHeaders::preorder(IR::Member *)`,
run for `C`, rewrites the access `x.hsel.f` to `x.<C>_in_hdr.g` when `f` is the field of
`h` at a position `i < L` and `g` is the field of `C` at position `i`, and returns it
unchanged when `f` is at a position `i ≥ L`; an access through an expression whose header
type is not mapped to `C` is returned unchanged. -/
theorem member_rewrite_is_positional (self : CommonFields) (C : String)
    (typeOf : Expression → Option String) (x : Expression) (hsel h : String)
    (orig newHdr : Type_Header) (L : Nat)
    (htype : typeOf (.Member x hsel) = some h)
    (hremapped : self.remappedOnto C L h orig)
    (hnew : mapFind self.newHeaders C = some newHdr)
    (hnodup : (orig.fields.map (fun sf => sf.name)).Nodup) :
    (∀ (i : Nat) (f : String) (g : StructField), i < L →
      (orig.fields.map (fun sf => sf.name))[i]? = some f → newHdr.fields[i]? = some g →
      ModifyHeaders.preorder_Member self C typeOf (.Member x hsel) f
        = .ok (.Member (.Member x (C ++ "_in_hdr")) g.name)) ∧
      (∀ (i : Nat) (f : String), L ≤ i →
        (orig.fields.map (fun sf => sf.name))[i]? = some f →
        ModifyHeaders.preorder_Member self C typeOf (.Member x hsel) f
          = .ok (.Member (.Member x hsel) f)) ∧
      (∀ (e : Expression) (f : String),
        (∀ h2, typeOf e = some h2 → self.headerMap h2 ≠ some C) →
        ModifyHeaders.preorder_Member self C typeOf e f = .ok (.Member e f)) := by
  obtain ⟨hmap, hrem, _⟩ := hremapped
  have hnd : ((orig.fields.take L).map (fun sf => sf.name)).Nodup := by
    rw [List.map_take]
    exact List.Nodup.sublist (List.take_sublist _ _) hnodup
  refine ⟨?_, ?_, ?_⟩
  · intro i f g hi hf hg
    have hf2 : ((orig.fields.take L).map (fun sf => sf.name))[i]? = some f := by
      rw [List.map_take, List.getElem?_take_of_lt hi]
      exact hf
    have hloop := fieldLoop_at newHdr f _ 0 i none g hnd hf2 (by rw [Nat.zero_add]; exact hg)
    simp only [ModifyHeaders.preorder_Member, ModifyHeaders.newFieldName, htype, hmap, hrem,
      hnew, if_true, Expression.isMember, hloop]
  · intro i f hi hf
    have hnot : f ∉ (orig.fields.take L).map (fun sf => sf.name) := by
      rw [List.map_take]
      exact not_mem_take_of_le _ L i f hnodup hf hi
    have hloop := fieldLoop_not_mem (mapFind self.newHeaders C) (Expression.isMember
      (.Member x hsel)) f _ 0 none hnot
    simp only [ModifyHeaders.preorder_Member, ModifyHeaders.newFieldName, htype, hmap, hrem,
      if_true, hloop]
  · intro e f hnone
    cases ht : typeOf e with
    | none => simp only [ModifyHeaders.preorder_Member, ModifyHeaders.newFieldName, ht]
    | some h2 =>
      simp only [ModifyHeaders.preorder_Member, ModifyHeaders.newFieldName, ht,
        hnone h2 ht, if_false]

/-- Witness of the amended C15 on the program `sameHeaderSuccessors`, where both
successors of `s0` extract `A`. -/
theorem same_header_successors_left_alone_witness :
    (∀ c ∈ sameHeaderParsed.childrenOf ((stateInfo sameHeaderParsed "s0").getD {}),
      c.2.firstHeaderExtracted = "A") ∧
      (∃ hdr1, leastCommonFieldsLoop sameHeaderParsed.headers
        (sameHeaderParsed.childrenOf ((stateInfo sameHeaderParsed "s0").getD {})) (10000, "")
        = .ok (10000, hdr1)) ∧
      sameHeaderParsed.commonState ((stateInfo sameHeaderParsed "s0").getD {})
        = .ok sameHeaderParsed :=
  ⟨by decide!,
    same_header_successors_left_alone sameHeaderParsed
      ((stateInfo sameHeaderParsed "s0").getD {}) "A" (by decide!)⟩

/-- Witness of C16 on the states of scenario 1: the commoning of `s0` returns, the common
header `A_common_0` holds the first two fields of `A`, and the residual of `B` holds its
third field. -/
theorem commoning_splits_headers_witness :
    (scenario1Branch.children.card > 1 ∧ scenario1Parsed.headers "" = none ∧
      ∀ c ∈ scenario1Parsed.childrenOf scenario1Branch,
        ∀ h ∈ scenario1Parsed.headers c.2.firstHeaderExtracted, allFixedWidth h) ∧
      ∃ s2 common residual, scenario1Parsed.commonState scenario1Branch = .ok s2 ∧
        mapFind s2.newHeaders "A_common_0" = some common ∧
        common.fields = headerA.fields.take 2 ∧
        mapFind s2.modifiedHeaders "B" = some residual ∧
        residual.fields = headerB.fields.drop 2 ∧
        common.widths ++ residual.widths = headerB.widths := by
  refine ⟨⟨by decide!, by decide!, by decide!⟩, ?_⟩
  obtain ⟨L, hdr1, hloop, h⟩ := commoning_splits_headers scenario1Parsed scenario1Branch
    (by decide!) (by decide!) (by decide!)
  have hl : leastCommonFieldsLoop scenario1Parsed.headers
      (scenario1Parsed.childrenOf scenario1Branch) (10000, "") = .ok (2, "A") := by rfl
  rw [hl] at hloop
  simp only [Except.ok.injEq, Prod.mk.injEq] at hloop
  obtain ⟨rfl, rfl⟩ := hloop
  obtain ⟨s2, childHdr, common, hH, hc, hn, hf, hch⟩ := h (by decide) (by decide)
  have hA : scenario1Parsed.headers "A" = some headerA := by decide!
  rw [hA] at hH
  simp only [Option.some.injEq] at hH
  subst hH
  have hno : scenario1Parsed.commonHdrNo = 0 := by decide!
  have hname : headerA.name ++ COMMON_HDR ++ toString scenario1Parsed.commonHdrNo
      = "A_common_0" := by rw [hno]; decide
  rw [hname] at hn
  obtain ⟨c, hcm, hcB⟩ : ∃ c ∈ scenario1Parsed.childrenOf scenario1Branch,
      c.2.firstHeaderExtracted = "B" := by decide!
  have hB : scenario1Parsed.headers c.2.firstHeaderExtracted = some headerB := by
    rw [hcB]; decide!
  obtain ⟨_, residual, hr, _, _, hrf, _, _, hw⟩ := hch c hcm headerB hB
  rw [hcB] at hr
  exact ⟨s2, common, residual, hc, hn, hf, hr, hrf, hw⟩

/-- Witness of C17 on scenario 1: with `A` remapped onto `A_common_0` at position 2, the
access `hdr.a.y` (position 1) is rewritten to `hdr.A_common_0_in_hdr.y` and the access
`hdr.a.z` (position 2) is returned unchanged. -/
theorem member_rewrite_is_positional_witness :
    (hdrTypeOf abFields (hdrField "a") = some "A" ∧
      (analysisOf commoningScenario1).remappedOnto "A_common_0" 2 "A" headerA ∧
      mapFind (analysisOf commoningScenario1).newHeaders "A_common_0"
        = some (Type_Header.mk "A_common_0" [⟨"x", bit 8⟩, ⟨"y", bit 16⟩]) ∧
      (headerA.fields.map (fun sf => sf.name)).Nodup) ∧
      ModifyHeaders.preorder_Member (analysisOf commoningScenario1) "A_common_0"
          (hdrTypeOf abFields) (hdrField "a") "y"
        = .ok (.Member (.Member (.PathExpression "hdr") ("A_common_0" ++ "_in_hdr")) "y") ∧
      ModifyHeaders.preorder_Member (analysisOf commoningScenario1) "A_common_0"
          (hdrTypeOf abFields) (hdrField "a") "z"
        = .ok (.Member (hdrField "a") "z") :=
  ⟨⟨by decide, by decide!, by decide!, by decide⟩,
    (member_rewrite_is_positional (analysisOf commoningScenario1) "A_common_0"
      (hdrTypeOf abFields) (.PathExpression "hdr") "a" "A" headerA
      (Type_Header.mk "A_common_0" [⟨"x", bit 8⟩, ⟨"y", bit 16⟩]) 2
      (by decide) (by decide!) (by decide!) (by decide)).1 1 "y" ⟨"y", bit 16⟩
      (by decide) (by decide) (by decide),
    (member_rewrite_is_positional (analysisOf commoningScenario1) "A_common_0"
      (hdrTypeOf abFields) (.PathExpression "hdr") "a" "A" headerA
      (Type_Header.mk "A_common_0" [⟨"x", bit 8⟩, ⟨"y", bit 16⟩]) 2
      (by decide) (by decide!) (by decide!) (by decide)).2.1 2 "z" (by decide) (by decide)⟩

/-- The extract of the common header on the program `extractElsewhere`: after the
commoning of `s0` the successor `s1` gets the extract of `A_common_0` and the state `s4`,
which extracts `A` but is no successor of `s0`, is returned unchanged. -/
theorem common_extract_goes_to_successors_witness :
    (extractElsewhereBranch.children.card > 1 ∧ extractElsewhereParsed.headers "" = none ∧
      ∀ c ∈ extractElsewhereParsed.childrenOf extractElsewhereBranch,
        ∀ h ∈ extractElsewhereParsed.headers c.2.firstHeaderExtracted, allFixedWidth h) ∧
      ∃ s2, extractElsewhereParsed.commonState extractElsewhereBranch = .ok s2 ∧
        ModifyHeaders.postorder_ParserState s2 "A_common_0"
            (extractState "s1" "A" "a" "accept")
          = { extractState "s1" "A" "a" "accept" with
              components := extractStatement "A_common_0"
                :: (extractState "s1" "A" "a" "accept").components } ∧
        ModifyHeaders.postorder_ParserState s2 "A_common_0"
            (extractState "s4" "A" "a" "accept")
          = extractState "s4" "A" "a" "accept" := by
  refine ⟨⟨by decide!, by decide!, by decide!⟩, ?_⟩
  obtain ⟨L, hdr1, hloop, h⟩ := common_extract_goes_to_successors extractElsewhereParsed
    extractElsewhereBranch (by decide!) (by decide!) (by decide!)
  have hl : leastCommonFieldsLoop extractElsewhereParsed.headers
      (extractElsewhereParsed.childrenOf extractElsewhereBranch) (10000, "")
      = .ok (2, "A") := by rfl
  rw [hl] at hloop
  simp only [Except.ok.injEq, Prod.mk.injEq] at hloop
  obtain ⟨rfl, rfl⟩ := hloop
  obtain ⟨s2, childHdr, hH, hc, hps⟩ := h (by decide) (by decide)
  have hA : extractElsewhereParsed.headers "A" = some headerA := by decide!
  rw [hA] at hH
  simp only [Option.some.injEq] at hH
  subst hH
  have hno : extractElsewhereParsed.commonHdrNo = 0 := by decide!
  have hname : headerA.name ++ COMMON_HDR ++ toString extractElsewhereParsed.commonHdrNo
      = "A_common_0" := by rw [hno]; decide
  rw [hname] at hps
  refine ⟨s2, hc, ?_, ?_⟩
  · rw [hps, if_pos (by decide!)]
  · rw [hps, if_neg (by decide!)]

/-! ## Header commoning: the scenarios -/

/-- C12 on the code: for `C { bit<8> x; varbit<32> v; }` and `D { bit<8> x; bit<32> w; }`
the loop of `findCommonFields` counts `x`, and at position 1 reads the size of `v` through
the null result of the downcast to `Type_Bits`: the function fails instead of returning
1, and so does the analysis of a parser whose branching state has successors that extract
`C` and `D`. -/
theorem findCommonFields_varbit_null_dereference :
    findCommonFields (some headerC) (some headerD) = .error "null Type_Bits" ∧
      findCommonFields (some headerD) (some headerC) = .error "null Type_Bits" ∧
      succeeds (CommonFields.analyse varbitSuccessors) = false :=
  ⟨rfl, rfl, by decide!⟩

/-- C13: in scenario 1 the analysis computes `L = 2` at `s0` with `h₀ = A`, synthesizes the
header `A_common_0 { bit<8> x; bit<16> y; }`, produces the residuals `A { bit<4> z; }`
and `B { bit<8> w; }`, maps `A` and `B` to `A_common_0` with the absorbed fields `x`, `y`,
and records `s1` and `s2` as the states that receive the new extract; the rewritten
program declares the three headers and `s1` and `s2` start with the extract. -/
theorem scenario1_prefix_commoning :
    succeeds (CommonFields.analyse commoningScenario1) = true ∧
      prefixLengthAt (analysisOf commoningScenario1) "s0" = some (2, "A") ∧
      (analysisOf commoningScenario1).newHeaders
        = [("A_common_0", ⟨"A_common_0", [⟨"x", bit 8⟩, ⟨"y", bit 16⟩]⟩)] ∧
      (analysisOf commoningScenario1).modifiedHeaders
        = [("A", ⟨"A", [⟨"z", bit 4⟩]⟩), ("B", ⟨"B", [⟨"w", bit 8⟩]⟩)] ∧
      (analysisOf commoningScenario1).headerMap "A" = some "A_common_0" ∧
      (analysisOf commoningScenario1).headerMap "B" = some "A_common_0" ∧
      (analysisOf commoningScenario1).remappedFields "A" = some ["x", "y"] ∧
      (analysisOf commoningScenario1).remappedFields "B" = some ["x", "y"] ∧
      recordedExtractStates (analysisOf commoningScenario1) "A_common_0" = ["s1", "s2"] ∧
      declaredHeaders (rewrittenProgram (hdrTypeOf abFields) commoningScenario1)
        = [⟨"A_common_0", [⟨"x", bit 8⟩, ⟨"y", bit 16⟩]⟩, ⟨"A", [⟨"z", bit 4⟩]⟩,
           ⟨"B", [⟨"w", bit 8⟩]⟩] ∧
      extractReport (hdrTypeOf abFields) "A_common_0" commoningScenario1
        = [("s0", false, 0), ("s1", true, 2), ("s2", true, 2)] := by
  decide!

/-- C14 fails as stated: in scenario 2 the analysis synthesizes a header and modifies
`A` and `B`, and the rewritten program declares other headers than the input. -/
theorem scenario2_is_commoned :
    succeeds (CommonFields.analyse commoningScenario2) = true ∧
      (analysisOf commoningScenario2).newHeaders ≠ [] ∧
      (analysisOf commoningScenario2).modifiedHeaders ≠ [] ∧
      declaredHeaders (rewrittenProgram (hdrTypeOf abFields) commoningScenario2)
        ≠ declaredHeaders commoningScenario2 := by
  decide!

/-- C14, amended: in scenario 2 the widths of `x` agree and those of `y` do not, so the
analysis computes `L = 1`, synthesizes `A_common_0 { bit<8> x; }`, produces the residuals
`A { bit<16> y; bit<4> z; }` and `B { bit<12> y; bit<8> w; }`, and `s1` and `s2` receive
the new extract. -/
theorem scenario2_prefix_commoning :
    findCommonFields (some headerA) (some headerB12) = .ok 1 ∧
      prefixLengthAt (analysisOf commoningScenario2) "s0" = some (1, "A") ∧
      (analysisOf commoningScenario2).newHeaders
        = [("A_common_0", ⟨"A_common_0", [⟨"x", bit 8⟩]⟩)] ∧
      (analysisOf commoningScenario2).modifiedHeaders
        = [("A", ⟨"A", [⟨"y", bit 16⟩, ⟨"z", bit 4⟩]⟩),
           ("B", ⟨"B", [⟨"y", bit 12⟩, ⟨"w", bit 8⟩]⟩)] ∧
      recordedExtractStates (analysisOf commoningScenario2) "A_common_0" = ["s1", "s2"] ∧
      extractReport (hdrTypeOf abFields) "A_common_0" commoningScenario2
        = [("s0", false, 0), ("s1", true, 2), ("s2", true, 2)] := by
  refine ⟨rfl, ?_⟩
  decide!

/-- C15 fails as stated: in the program `sameHeaderSuccessors` the state `s0` has two
successors, both first-extract `A`, which has three fields; the prefix length stays at
10000 and no header is synthesized or modified. -/
theorem same_header_successors_not_commoned :
    successorHeaders (analysisOf sameHeaderSuccessors) "s0" = [("s1", "A"), ("s2", "A")] ∧
      headerA.fields.length = 3 ∧
      prefixLengthAt (analysisOf sameHeaderSuccessors) "s0" = some (10000, "A") ∧
      (analysisOf sameHeaderSuccessors).newHeaders = [] ∧
      (analysisOf sameHeaderSuccessors).modifiedHeaders = [] ∧
      declaredHeaders (rewrittenProgram (hdrTypeOf abFields) sameHeaderSuccessors)
        = [headerA, headerB] := by
  decide!

/-- C18 on the code: in the program `emptySuccessorFirst` the successor `s1` of `s0`
extracts nothing and is iterated first; it is skipped by the comparison loop, `L = 2` is
computed from `A` and `B`, all three successors are recorded, and the rewritten `s1`
starts with `packet.extract(hdr.A_common_0_in_hdr)`.  When the successor that extracts
nothing is iterated last (program `emptySuccessorLast`) it is compared with `A`, the
prefix length is 0 and nothing is synthesized. -/
theorem empty_successor_receives_extract :
    (parserStatesOf emptySuccessorFirst).map (fun ps => (ps.name, ps.components.length))
        = [("s0", 0), ("s1", 0), ("s2", 1), ("s3", 1)] ∧
      extractedHeaders (analysisOf emptySuccessorFirst) "s1" = some ("", "") ∧
      successorHeaders (analysisOf emptySuccessorFirst) "s0"
        = [("s1", ""), ("s2", "A"), ("s3", "B")] ∧
      prefixLengthAt (analysisOf emptySuccessorFirst) "s0" = some (2, "A") ∧
      recordedExtractStates (analysisOf emptySuccessorFirst) "A_common_0" = ["s1", "s2", "s3"] ∧
      extractReport (hdrTypeOf abFields) "A_common_0" emptySuccessorFirst
        = [("s0", false, 0), ("s1", true, 1), ("s2", true, 2), ("s3", true, 2)] ∧
      successorHeaders (analysisOf emptySuccessorLast) "s0"
        = [("s1", "A"), ("s2", "B"), ("s3", "")] ∧
      prefixLengthAt (analysisOf emptySuccessorLast) "s0" = some (0, "A") ∧
      (analysisOf emptySuccessorLast).newHeaders = [] ∧
      declaredHeaders (rewrittenProgram (hdrTypeOf abFields) emptySuccessorLast)
        = [headerA, headerB] ∧
      (parserStatesOf (rewrittenProgram (hdrTypeOf abFields) emptySuccessorLast)).map
          (fun ps => (ps.name, ps.components.length))
        = [("s0", 0), ("s1", 1), ("s2", 1), ("s3", 0)] := by
  decide!

/-- C19 on the code: in the program `extractElsewhere` the header `A` is remapped onto
`A_common_0` at `s0`, whose successors are `s1` and `s2`; the state `s4`, reached from
`s2`, also extracts `A` but is no successor of `s0`.  The rewritten program declares `A`
as its residual `A { bit<4> z; }` for the whole program, but only `s1` and `s2` are
recorded for the new extract: the rewritten `s4` still has its one component and does not
start with `packet.extract(hdr.A_common_0_in_hdr)`, so the fields `x` and `y` are never
extracted there. -/
theorem extracting_state_elsewhere_unchanged :
    (analysisOf extractElsewhere).headerMap "A" = some "A_common_0" ∧
      extractedHeaders (analysisOf extractElsewhere) "s4" = some ("A", "A") ∧
      successorHeaders (analysisOf extractElsewhere) "s0" = [("s1", "A"), ("s2", "B")] ∧
      recordedExtractStates (analysisOf extractElsewhere) "A_common_0" = ["s1", "s2"] ∧
      declaredHeaders (rewrittenProgram (hdrTypeOf abFields) extractElsewhere)
        = [⟨"A_common_0", [⟨"x", bit 8⟩, ⟨"y", bit 16⟩]⟩, ⟨"A", [⟨"z", bit 4⟩]⟩,
           ⟨"B", [⟨"w", bit 8⟩]⟩] ∧
      extractReport (hdrTypeOf abFields) "A_common_0" extractElsewhere
        = [("s0", false, 0), ("s1", true, 2), ("s2", true, 2), ("s4", false, 1)] := by
  decide!

/-- C20 on the code: the program `reservedName` declares a header named `A_common_0`,
which contains `_common_`; the pass completes, and the rewritten program declares two
headers named `A_common_0`. -/
theorem reserved_name_not_rejected :
    (declaredHeaders reservedName).map (fun h => (h.name, containsSubstring h.name COMMON_HDR))
        = [("A_common_0", true), ("A", false), ("B", false)] ∧
      succeeds (CommonFields.analyse reservedName) = true ∧
      succeeds (CommonFields.apply (hdrTypeOf abFields) reservedName) = true ∧
      declaredHeaders (rewrittenProgram (hdrTypeOf abFields) reservedName)
        = [⟨"A_common_0", [⟨"x", bit 8⟩, ⟨"y", bit 16⟩]⟩, ⟨"A_common_0", [⟨"q", bit 8⟩]⟩,
           ⟨"A", [⟨"z", bit 4⟩]⟩, ⟨"B", [⟨"w", bit 8⟩]⟩] := by
  decide!

end P4
